import Mathlib

/-!
# Split-merged-operands pass

A shallow embedding of
`tensorflow/compiler/mlir/lite/transforms/split_merged_operands.cc`.

The MLIR data structures the pass works on are modelled as follows.

* A `Value` is a block argument or the `resultNo`-th result of the operation
  whose identity (its address in the C++ program) is `owner`.
* An `Operation` has an identity `id`, an operation name (its kind), an
  attribute dictionary (a handle: attributes are uniqued by MLIR) and an
  ordered list of operands.  Regions nested in an operation are not modelled:
  the pass iterates over the operations of the blocks of the function body
  only.
* A function body is a list of blocks, a block is a list of operations.
* `builder->clone` allocates an operation with an identity that no live
  operation has; the allocator is modelled by a counter `nextId` that starts
  above every identity occurring in the function.
* Reading or writing an operand at an index that the operation does not have
  is an assertion failure in MLIR; the model reports it as `Outcome.abort`.
* The classifier `IsStatefulOp` is a parameter of the pass.  It is a table
  keyed on the operation kind and returns a list of operand indices, which the
  pass iterates as it is given.
-/

namespace SplitMergedOperands

/-- An SSA value, compared by identity. -/
inductive Value where
  | blockArgument (arg : Nat)
  | opResult (owner : Nat) (resultNo : Nat)
  deriving DecidableEq, Repr

/-- The kind of an operation.  `constantLike` stands for the operations with
the `ConstantLike` trait (the ones `m_Constant` matches: `tfl.pseudo_const`,
`tfl.pseudo_qconst`, `arith.constant`, ...), `dequantize` for
`TFL::DequantizeOp`. -/
inductive OperationName where
  | constantLike (tag : Nat)
  | dequantize
  | other (tag : Nat)
  deriving DecidableEq, Repr

/-- An operation of the IR. -/
structure Operation where
  id : Nat
  name : OperationName
  attr : Nat
  operands : List Value
  deriving DecidableEq, Repr

/-- The result of the pass: `success` and `failure` are the two values of
`LogicalResult`; `abort` is an out-of-range operand access. -/
inductive Outcome where
  | success
  | failure
  | abort
  deriving DecidableEq, Repr

/-- A diagnostic: `loc` is the operation `emitError` was called on (`none` for
the function), `message` the text streamed into it. -/
structure Diagnostic where
  loc : Option Nat
  message : String
  deriving DecidableEq, Repr

/-- The state the visit of one operation works on: the operations the builder
has inserted directly before the operation (in order), the operation itself,
the set `values` of the caller, the allocator and the diagnostics emitted. -/
structure VisitState where
  created : List Operation
  op : Operation
  values : List Value
  nextId : Nat
  diags : List Diagnostic
  deriving DecidableEq, Repr

/-- The state of the traversal between two operations. -/
structure PassState where
  values : List Value
  nextId : Nat
  diags : List Diagnostic
  deriving DecidableEq, Repr

/-- Model of `Value::getDefiningOp` in the IR `ir` (all operations of the function in
program order): `none` for a block argument. -/
def getDefiningOp (ir : List Operation) : Value → Option Operation
  | .blockArgument _ => none
  | .opResult owner _ => ir.find? (fun o => o.id == owner)

/-- Model of `matchPattern(op, m_Constant(&attr))`: the operation has the `ConstantLike`
trait (its folded attribute always casts to `Attribute`). -/
def matchConstant (op : Operation) : Bool :=
  match op.name with
  | .constantLike _ => true
  | _ => false

/-- Model of `matchPattern(value, m_Constant(&attr))`: the value has a defining
operation and that operation matches. -/
def matchConstantValue (ir : List Operation) (v : Value) : Bool :=
  match getDefiningOp ir v with
  | some o => matchConstant o
  | none => false

/-- Model of `Operation::getOperand`. -/
def getOperand (op : Operation) (index : Nat) : Option Value :=
  op.operands[index]?

/-- Model of `Operation::setOperand`. -/
def setOperand (op : Operation) (index : Nat) (v : Value) : Operation :=
  { op with operands := op.operands.set index v }

/-- Model of `OpBuilder::clone`: a copy with a new identity. -/
def clone (op : Operation) (newId : Nat) : Operation :=
  { op with id := newId }

/-- Model of `Operation::getResult(0)`. -/
def getResult0 (op : Operation) : Value :=
  .opResult op.id 0

/-- The message of the diagnostic emitted on the consuming operation. -/
def notConstantMessage : String :=
  "We cannot duplicate the value since it's not constant.\n"

/-- The message of the diagnostic emitted on the function. -/
def failedMessage : String :=
  "Failed to duplicate values for the stateful op\n"

/-- The `else` branch of the loop body: `op->emitError() << ...; return failure()`. -/
def emitNotConstant (s : VisitState) : Outcome × VisitState :=
  (.failure, { s with diags := s.diags ++ [⟨some s.op.id, notConstantMessage⟩] })

/-- The body of the loop `for (int index : stateful_operands_index)` of
`DuplicateValueIfNeeded`.  `before` and `after` are the operations of the
function before and after the ones of the visit, in program order. -/
def duplicateAtIndex (before after : List Operation) (index : Nat)
    (s : VisitState) : Outcome × VisitState :=
  match getOperand s.op index with
  | none => (.abort, s)
  | some operand =>
    if operand ∈ s.values then
      let ir := before ++ s.created ++ s.op :: after
      match getDefiningOp ir operand with
      | none => (.failure, s)
      | some input_op =>
        if matchConstant input_op then
          let duplicated_input_op := clone input_op s.nextId
          (.success,
            { s with
              created := s.created ++ [duplicated_input_op]
              op := setOperand s.op index (getResult0 duplicated_input_op)
              nextId := s.nextId + 1 })
        else if input_op.name = .dequantize then
          match getOperand input_op 0 with
          | none => (.abort, s)
          | some dqInput =>
            match getDefiningOp ir dqInput with
            | none => emitNotConstant s
            | some inner =>
              if matchConstant inner then
                let duplicated_input_op := clone inner s.nextId
                let duplicated_dq_op :=
                  setOperand (clone input_op (s.nextId + 1)) 0
                    (getResult0 duplicated_input_op)
                (.success,
                  { s with
                    created := s.created ++ [duplicated_input_op, duplicated_dq_op]
                    op := setOperand s.op index (getResult0 duplicated_dq_op)
                    nextId := s.nextId + 2 })
              else emitNotConstant s
        else emitNotConstant s
    else (.success, { s with values := operand :: s.values })

/-- The loop `for (int index : stateful_operands_index)`, left at the first
index whose body does not return success. -/
def duplicateAtIndices (before after : List Operation) :
    List Nat → VisitState → Outcome × VisitState
  | [], s => (.success, s)
  | index :: rest, s =>
    match duplicateAtIndex before after index s with
    | (.success, s') => duplicateAtIndices before after rest s'
    | r => r

/-- Model of `DuplicateValueIfNeeded(op, values, builder)`.  The classifier
`IsStatefulOp` (declared in `stateful_ops_utils.h`) is a parameter: the policy
table that gives, for an operation kind, the operand indices that are stateful,
in the order it lists them; `none` is its `false`. -/
def DuplicateValueIfNeeded (IsStatefulOp : OperationName → Option (List Nat))
    (before after : List Operation) (s : VisitState) : Outcome × VisitState :=
  match IsStatefulOp s.op.name with
  | none => (.success, s)
  | some stateful_operands_index =>
    duplicateAtIndices before after stateful_operands_index s

/-- The loop `for (auto& op : bb)`: `doneOps` are the operations of the blocks
before `bb`, `laterOps` those of the blocks after it, `pre` the operations of
`bb` already visited (with the operations inserted before them) and the list
argument the ones still to visit.  An operation inserted before the visited
one is not visited.  Returns the block as it is when the loop is left. -/
def visitBlock (IsStatefulOp : OperationName → Option (List Nat))
    (doneOps laterOps : List Operation) :
    List Operation → List Operation → PassState →
      Outcome × List Operation × PassState
  | pre, [], st => (.success, pre, st)
  | pre, op :: rest, st =>
    match DuplicateValueIfNeeded IsStatefulOp (doneOps ++ pre) (rest ++ laterOps)
        ⟨[], op, st.values, st.nextId, st.diags⟩ with
    | (.success, s) =>
      visitBlock IsStatefulOp doneOps laterOps (pre ++ s.created ++ [s.op]) rest
        ⟨s.values, s.nextId, s.diags⟩
    | (r, s) =>
      (r, pre ++ s.created ++ s.op :: rest, ⟨s.values, s.nextId, s.diags⟩)

/-- The loop `for (auto& bb : func.getBody())` with its early return:
on failure the function-level diagnostic is emitted. -/
def visitBlocks (IsStatefulOp : OperationName → Option (List Nat)) :
    List (List Operation) → List (List Operation) → PassState →
      Outcome × List (List Operation) × PassState
  | done, [], st => (.success, done, st)
  | done, bb :: rest, st =>
    match visitBlock IsStatefulOp done.flatten rest.flatten [] bb st with
    | (.success, bb', st') => visitBlocks IsStatefulOp (done ++ [bb']) rest st'
    | (.failure, bb', st') =>
      (.failure, done ++ bb' :: rest,
        { st' with diags := st'.diags ++ [⟨none, failedMessage⟩] })
    | (.abort, bb', st') => (.abort, done ++ bb' :: rest, st')

/-- The identity of the owner of a value, if it is an operation result. -/
def Value.owner? : Value → Option Nat
  | .blockArgument _ => none
  | .opResult owner _ => some owner

/-- The operation identities an operation mentions: its own and the owners of
its operands. -/
def mentionedIds (op : Operation) : List Nat :=
  op.id :: op.operands.filterMap Value.owner?

/-- An identity above every identity mentioned in the function. -/
def freshId (ops : List Operation) : Nat :=
  ((ops.flatMap mentionedIds).map (· + 1)).foldr max 0

/-- Model of `SplitMergedOperandsPass::runOnOperation` on the function body `func`. -/
def runOnOperation (IsStatefulOp : OperationName → Option (List Nat))
    (func : List (List Operation)) : Outcome × List (List Operation) × PassState :=
  visitBlocks IsStatefulOp [] func ⟨[], freshId func.flatten, []⟩

/-! ## Example functions (the scenarios of the specification) -/

/-- A classifier: operand 0 of kind `other 7` and operand 1 of kind `other 8`
are stateful. -/
def exampleClassifier : OperationName → Option (List Nat)
  | .other 7 => some [0]
  | .other 8 => some [1]
  | _ => none

/-- A constant `C`. -/
def exC : Operation := ⟨1, .constantLike 0, 42, []⟩

/-- A stateful operation `X` whose operand 0 is `C`. -/
def exX : Operation := ⟨2, .other 7, 0, [.opResult 1 0]⟩

/-- A stateful operation `Y` whose operand 0 is `C`. -/
def exY : Operation := ⟨3, .other 7, 0, [.opResult 1 0]⟩

/-- A dequantize `D` of the constant `C`. -/
def exD : Operation := ⟨4, .dequantize, 5, [.opResult 1 0]⟩

/-- A stateful operation whose operand 1 is `D`. -/
def exX2 : Operation := ⟨2, .other 8, 0, [.blockArgument 0, .opResult 4 0]⟩

/-- A second stateful operation whose operand 1 is `D`. -/
def exY2 : Operation := ⟨3, .other 8, 0, [.blockArgument 0, .opResult 4 0]⟩

/-- Scenario A: `C` feeds the stateful operand 0 of `X` and of `Y`. -/
def scenarioA : List (List Operation) := [[exC, exX, exY]]

/-- Scenario B: `D` feeds the stateful operand 1 of two operations, the second
in another block. -/
def scenarioB : List (List Operation) := [[exC, exD, exX2], [exY2]]

/-- An operation that is neither a constant nor a dequantize. -/
def exA : Operation := ⟨1, .other 1, 0, []⟩

/-- An operation with two operands, both the result of `exA`. -/
def exZ : Operation := ⟨2, .other 9, 0, [.opResult 1 0, .opResult 1 0]⟩

/-! ## Vocabulary of the specification -/

/-- The stateful operand indices of an operation, in classifier order (none
when the classifier answers `false`). -/
def statefulIndices (IsStatefulOp : OperationName → Option (List Nat))
    (o : Operation) : List Nat :=
  (IsStatefulOp o.name).getD []

/-- The values held by the stateful slots of the operations `ops`, in
traversal order: operations in program order, indices in classifier order. -/
def slotValues (IsStatefulOp : OperationName → Option (List Nat))
    (ops : List Operation) : List Value :=
  ops.flatMap (fun o => (statefulIndices IsStatefulOp o).filterMap (getOperand o))

/-- The verifier invariants of the operations the pass looks at: an operation
with the `ConstantLike` trait has no operand, a `DequantizeOp` has exactly one. -/
def ShapeOK (o : Operation) : Prop :=
  (matchConstant o = true → o.operands = []) ∧
  (o.name = .dequantize → o.operands.length = 1)

/-- A well-formed list of operations: distinct operations have distinct
identities and every operation satisfies `ShapeOK`. -/
def WellFormed (ops : List Operation) : Prop :=
  (ops.map Operation.id).Nodup ∧ ∀ o ∈ ops, ShapeOK o

/-- The classifier returns only indices of operands the operation has. -/
def InRange (IsStatefulOp : OperationName → Option (List Nat))
    (ops : List Operation) : Prop :=
  ∀ o ∈ ops, ∀ i ∈ statefulIndices IsStatefulOp o, i < o.operands.length

/-- The classifier returns no index twice for one operation. -/
def NonRepeating (IsStatefulOp : OperationName → Option (List Nat))
    (ops : List Operation) : Prop :=
  ∀ o ∈ ops, (statefulIndices IsStatefulOp o).Nodup

/-- The producer of `v` in `ir` is one the pass can clone: a constant, or a
dequantize whose input is produced by a constant. -/
def clonable (ir : List Operation) (v : Value) : Bool :=
  match getDefiningOp ir v with
  | none => false
  | some p =>
    matchConstant p ||
      (decide (p.name = .dequantize) &&
        match getOperand p 0 with
        | none => false
        | some w => matchConstantValue ir w)

instance (o : Operation) : Decidable (ShapeOK o) := by
  unfold ShapeOK; infer_instance

instance (ops : List Operation) : Decidable (WellFormed ops) := by
  unfold WellFormed; infer_instance

instance (c : OperationName → Option (List Nat)) (ops : List Operation) :
    Decidable (InRange c ops) := by
  unfold InRange; infer_instance

instance (c : OperationName → Option (List Nat)) (ops : List Operation) :
    Decidable (NonRepeating c ops) := by
  unfold NonRepeating; infer_instance

/-- A classifier that reports operand 0 of kind `other 7` twice. -/
def repeatingClassifier : OperationName → Option (List Nat)
  | .other 7 => some [0, 0]
  | _ => none

/-! ## Invariants of the traversal -/

/-- What the pass relies on for one operation `o` when the allocator is at
`n`: the verifier invariants, a classifier answer without repetition and
within the operands of `o`, and no mention of an identity not yet allocated. -/
def OpOK (c : OperationName → Option (List Nat)) (n : Nat) (o : Operation) : Prop :=
  ShapeOK o ∧ (∀ i ∈ statefulIndices c o, i < o.operands.length) ∧
  (statefulIndices c o).Nodup ∧ ∀ m ∈ mentionedIds o, m < n

/-- The invariant of the IR along the traversal: identities are distinct and
every operation satisfies `OpOK`. -/
def IRInv (c : OperationName → Option (List Nat)) (cur : List Operation) (n : Nat) : Prop :=
  (cur.map Operation.id).Nodup ∧ ∀ o ∈ cur, OpOK c n o

/-- The value is the result of an operation allocated by the pass (`n0` is the
allocator at the start of the pass). -/
def isNew (n0 : Nat) (x : Value) : Prop :=
  ∃ m, x.owner? = some m ∧ n0 ≤ m

/-- The value was in the function before the pass. -/
def isOld (n0 : Nat) (x : Value) : Prop :=
  ∀ m, x.owner? = some m → m < n0

/-- The invariant that ties the stateful slots already visited, holding the
values `P`, to the seen set: no value is held twice, a held value is in the
seen set or is the result of an operation inserted by the pass, and the seen
values are all held. -/
def SlotInv (n0 : Nat) (P values : List Value) : Prop :=
  P.Nodup ∧ (∀ x ∈ P, x ∈ values ∨ isNew n0 x) ∧ ∀ x ∈ values, x ∈ P

/-- The values held by the stateful slots already visited: those of the
operations before the visited one, of the operations inserted for it, and of
its indices `ds`. -/
def visitedSlotValues (c : OperationName → Option (List Nat)) (before : List Operation)
    (s : VisitState) (ds : List Nat) : List Value :=
  slotValues c (before ++ s.created) ++ ds.filterMap (getOperand s.op)

/-- No two distinct stateful slots (operation, index) of `ops` hold the same
value. -/
def NoSharing (c : OperationName → Option (List Nat)) (ops : List Operation) : Prop :=
  ∀ o1 ∈ ops, ∀ o2 ∈ ops, ∀ i1 ∈ statefulIndices c o1, ∀ i2 ∈ statefulIndices c o2,
    (getOperand o1 i1).isSome → getOperand o1 i1 = getOperand o2 i2 → o1 = o2 ∧ i1 = i2

instance (c : OperationName → Option (List Nat)) (ops : List Operation) :
    Decidable (NoSharing c ops) := by
  unfold NoSharing; infer_instance

/-- A classifier that reports the indices 1, 1, 0, 1 for kind `other 9`. -/
def repeatingClassifier2 : OperationName → Option (List Nat)
  | .other 7 => some [0]
  | .other 9 => some [1, 1, 0, 1]
  | _ => none

/-- A stateful operation whose operand 0 is a block argument. -/
def exW : Operation := ⟨2, .other 7, 0, [.blockArgument 0]⟩

/-- An operation of kind `other 9` holding the block argument and `C`. -/
def exZ9 : Operation := ⟨3, .other 9, 0, [.blockArgument 0, .opResult 1 0]⟩

/-- The IR `cur'` answers the questions the pass asks about the producer of a
value allocated below `n` as the IR `cur` does. -/
def SameProducers (n : Nat) (cur cur' : List Operation) : Prop :=
  ∀ x, (∀ m, x.owner? = some m → m < n) →
    matchConstantValue cur' x = matchConstantValue cur x ∧ clonable cur' x = clonable cur x

/-- The value has no defining operation, or its defining operation is neither
a constant nor a dequantize whose input is produced by a constant. -/
def Unclonable (ir : List Operation) (v : Value) : Prop :=
  getDefiningOp ir v = none ∨
  ∃ p, getDefiningOp ir v = some p ∧ matchConstant p = false ∧
    ¬ (p.name = .dequantize ∧ ∃ w, getOperand p 0 = some w ∧ matchConstantValue ir w = true)

/-- Two distinct stateful slots of `ops` hold the same value, which is not
clonable. -/
def UnclonableCollision (c : OperationName → Option (List Nat)) (ops : List Operation) : Prop :=
  ∃ o1 ∈ ops, ∃ o2 ∈ ops, ∃ i1 ∈ statefulIndices c o1, ∃ i2 ∈ statefulIndices c o2, ∃ v,
    (o1 ≠ o2 ∨ i1 ≠ i2) ∧ getOperand o1 i1 = some v ∧ getOperand o2 i2 = some v ∧
    Unclonable ops v

/-- Scenario D: the result of `exA`, neither a constant nor a dequantize, feeds
two stateful slots. -/
def scenarioD : List (List Operation) :=
  [[exA, ⟨2, .other 7, 0, [.opResult 1 0]⟩, ⟨3, .other 7, 0, [.opResult 1 0]⟩]]

/-- Scenario C: a block argument feeds the stateful operand 0 of two
operations. -/
def scenarioC : List (List Operation) :=
  [[exW], [⟨3, .other 7, 0, [.blockArgument 0]⟩]]

/-- The list is a sequence of clone runs, each a constant alone or a constant
directly followed by a dequantize whose operand 0 is the result of that
constant. -/
def cloneRuns : List Operation → Bool
  | [] => true
  | [q] => matchConstant q
  | q :: d :: rest =>
    matchConstant q &&
      if d.name = .dequantize then
        (getOperand d 0 == some (.opResult q.id 0)) && cloneRuns rest
      else cloneRuns (d :: rest)

/-- The operation `o'` of the output stands for the operation `o` of the
input: same identity, name, attribute and number of operands. -/
def SameOperation (o o' : Operation) : Prop :=
  o'.id = o.id ∧ o'.name = o.name ∧ o'.attr = o.attr ∧
  o'.operands.length = o.operands.length

/-- The output block `b'` is the input block `b` with, directly before each of
its operations, a (possibly empty) sequence of clone runs made of operations
allocated by the pass (identity at least `n0`). -/
def Placed (n0 : Nat) (b b' : List Operation) : Prop :=
  ∃ segs : List (List Operation × Operation),
    b' = segs.flatMap (fun p => p.1 ++ [p.2]) ∧
    List.Forall₂ (fun o p => SameOperation o p.2 ∧ (∀ x ∈ p.1, n0 ≤ x.id) ∧
      cloneRuns p.1 = true) b segs

/-- Every operand of `o` is a block argument or the result of an operation
whose identity is in `defs`. -/
def operandsDefined (defs : List Nat) (o : Operation) : Bool :=
  o.operands.all (fun v =>
    match v.owner? with
    | none => true
    | some m => decide (m ∈ defs))

/-- Definition before use in program order: every operand of every operation
is a block argument, the result of an operation with identity in `defs`, or
the result of an operation placed earlier in the list. -/
def defBeforeUse : List Nat → List Operation → Bool
  | _, [] => true
  | defs, o :: rest => operandsDefined defs o && defBeforeUse (o.id :: defs) rest

/-- The number of operations the pass creates when it resolves a collision
on the value `v` in the IR `ir`: one when the producer of `v` is a constant,
two when it is a dequantize whose input is produced by a constant (then not a
constant itself), none otherwise. -/
def cloneCost (ir : List Operation) (v : Value) : Nat :=
  if matchConstantValue ir v then 1 else if clonable ir v then 2 else 0

/-- The number of operations the pass is expected to create on `ops`: summed
over every value `v` that occupies `k ≥ 1` stateful slots of `ops`, `k - 1`
times the cost of a collision on `v`. -/
def expectedClones (c : OperationName → Option (List Nat)) (ops : List Operation) : Nat :=
  ((slotValues c ops).dedup.map
    (fun v => cloneCost ops v * ((slotValues c ops).count v - 1))).sum

/-- The seen set after `values->insert` has been called on the values of `L`
in turn, starting from `seen`. -/
def scanSeen : List Value → List Value → List Value
  | seen, [] => seen
  | seen, v :: L => if v ∈ seen then scanSeen seen L else scanSeen (v :: seen) L

/-- The sum of `cost v` over the values `v` of `L` for which `values->insert`
finds the value present, when called on the values of `L` in turn starting
from `seen`. -/
def scanCost (cost : Value → Nat) : List Value → List Value → Nat
  | _, [] => 0
  | seen, v :: L =>
    if v ∈ seen then cost v + scanCost cost seen L else scanCost cost (v :: seen) L

/-- The number of operands, over all the operations `ops`, that are a result
of the operation with identity `m`. -/
def uses (m : Nat) (ops : List Operation) : Nat :=
  (ops.flatMap Operation.operands).countP (fun v => decide (v.owner? = some m))

/-- The invariant behind the private ownership of clones: every operation has
the verified shape, every identity mentioned is below the allocator `n`, and
the results of an operation allocated by the pass (identity at least `n0`) are
used by exactly one operand. -/
def OwnInv (n0 : Nat) (cur : List Operation) (n : Nat) : Prop :=
  (∀ o ∈ cur, ShapeOK o) ∧ (∀ o ∈ cur, ∀ m ∈ mentionedIds o, m < n) ∧
  ∀ cl ∈ cur, n0 ≤ cl.id → uses cl.id cur = 1

/-- The operations `created` inserted for the visited operation `op` have
their user where the pass put it: result 0 of a created operation is the
operand of `op` at one of the indices `ds`, or the created operation is a
constant and result 0 is operand 0 of a created dequantize. -/
def UsersIn (created : List Operation) (op : Operation) (ds : List Nat) : Prop :=
  ∀ cl ∈ created,
    (∃ i ∈ ds, getOperand op i = some (.opResult cl.id 0)) ∨
    (matchConstant cl = true ∧
      ∃ D ∈ created, D.name = .dequantize ∧ getOperand D 0 = some (.opResult cl.id 0))

/-- The segment `p` of the output (the operations inserted directly before an
operation, and the operation) belongs to the input operation `o`: the
operation is `o` with operands changed at most at the stateful indices of `o`,
and each inserted operation was allocated by the pass and has its user in the
segment, at a stateful index of the operation or at operand 0 of an inserted
dequantize. -/
def OwnedSegment (c : OperationName → Option (List Nat)) (n0 : Nat) (o : Operation)
    (p : List Operation × Operation) : Prop :=
  p.2.id = o.id ∧ p.2.name = o.name ∧ p.2.attr = o.attr ∧
  (∀ j, j ∉ statefulIndices c o → getOperand p.2 j = getOperand o j) ∧
  (∀ cl ∈ p.1, n0 ≤ cl.id) ∧ UsersIn p.1 p.2 (statefulIndices c o)

/-- A classifier for which operand 0 of a dequantize and operand 1 of kind
`other 8` are stateful. -/
def dequantizeClassifier : OperationName → Option (List Nat)
  | .dequantize => some [0]
  | .other 8 => some [1]
  | _ => none

/-- Two dequantize operations of the constant `C`, the second one feeding the
stateful operand 1 of two operations. -/
def scenarioF : List (List Operation) :=
  [[exC, ⟨2, .dequantize, 5, [.opResult 1 0]⟩, ⟨3, .dequantize, 5, [.opResult 1 0]⟩,
    ⟨4, .other 8, 0, [.blockArgument 0, .opResult 3 0]⟩,
    ⟨5, .other 8, 0, [.blockArgument 0, .opResult 3 0]⟩]]

/-- Every operand of `op'` is the operand `o` has at the same index, or it is
at one of the indices `L` and is result 0 of one of the operations `created`. -/
def RewiredInto (L : List Nat) (created : List Operation) (o op' : Operation) : Prop :=
  ∀ i, getOperand op' i = getOperand o i ∨
    (i ∈ L ∧ ∃ cl ∈ created, getOperand op' i = some (.opResult cl.id 0))

/-- The segment `p` of an output block (the operations directly before an
operation, and the operation) is the input operation `o` with the operations
created for it: the operation is `o` up to its operands; the operations before
it were allocated by the pass and form a sequence of clone runs; an operand of
the operation that is not the one `o` has is at a stateful index of `o` and is
result 0 of an operation of the segment; and, when the classifier returns no
index twice for `o`, every operation of the segment has its user in the
segment: a stateful operand of the operation, or operand 0 of a dequantize of
the segment for a constant. -/
def PlacedSegment (c : OperationName → Option (List Nat)) (n0 : Nat) (o : Operation)
    (p : List Operation × Operation) : Prop :=
  SameOperation o p.2 ∧ (∀ x ∈ p.1, n0 ≤ x.id) ∧ cloneRuns p.1 = true ∧
  RewiredInto (statefulIndices c o) p.1 o p.2 ∧
  ((statefulIndices c o).Nodup → UsersIn p.1 p.2 (statefulIndices c o))

/-- The output block `b'` is the input block `b` with, directly before each of
its operations, the operations created for that operation. -/
def PlacedFor (c : OperationName → Option (List Nat)) (n0 : Nat)
    (b b' : List Operation) : Prop :=
  ∃ segs : List (List Operation × Operation),
    b' = segs.flatMap (fun p => p.1 ++ [p.2]) ∧
    List.Forall₂ (PlacedSegment c n0) b segs

/-! ## Lookup after a step -/

theorem find_id_lt {ir : List Operation} {owner : Nat} {p : Operation} {n : Nat}
    (hfresh : ∀ o ∈ ir, o.id < n)
    (h : ir.find? (fun o => o.id == owner) = some p) : owner < n ∧ p.id = owner ∧ p ∈ ir := by
  have h1 := List.find?_some h
  have h2 := List.mem_of_find?_eq_some h
  simp at h1
  exact ⟨h1 ▸ hfresh p h2, h1, h2⟩

/-- Looking an old identity up after the visit step: the operations inserted
have new identities, the visited operation keeps its own. -/
theorem find_after_step {before created after : List Operation} {op p : Operation}
    {owner n : Nat} (dups : List Operation) (op' : Operation) (hfresh : ∀ o ∈ before ++ created ++ op :: after, o.id < n)
    (hd : ∀ d ∈ dups, n ≤ d.id) (hid : op'.id = op.id)
    (h : (before ++ created ++ op :: after).find? (fun o => o.id == owner) = some p) :
    (before ++ (created ++ dups) ++ op' :: after).find? (fun o => o.id == owner) = some p ∨
    (p = op ∧ (before ++ (created ++ dups) ++ op' :: after).find? (fun o => o.id == owner)
      = some op') := by
  obtain ⟨hlt, -, -⟩ := find_id_lt hfresh h
  have hdn : dups.find? (fun o => o.id == owner) = none := by
    rw [List.find?_eq_none]
    intro d hdm
    have := hd d hdm
    simp; omega
  simp only [List.find?_append, List.append_assoc] at h ⊢
  cases hb : before.find? (fun o => o.id == owner) with
  | some x => left; simpa [hb] using h
  | none =>
    cases hc : created.find? (fun o => o.id == owner) with
    | some x => left; simpa [hb, hc] using h
    | none =>
      simp only [hb, hc, hdn, Option.none_or, List.find?_cons] at h ⊢
      rw [hid]
      by_cases ho : op.id = owner
      · right
        simp [ho] at h ⊢
        exact h.symm
      · left
        have hf : (op.id == owner) = false := by simpa using ho
        simpa [hf] using h

/-! ## The loop body at a collision -/

theorem getOperand_setOperand_same {o : Operation} {index : Nat} {v w : Value}
    (h : getOperand o index = some w) : getOperand (setOperand o index v) index = some v := by
  unfold getOperand at h
  obtain ⟨hlt, -⟩ := List.getElem?_eq_some_iff.mp h
  simp [getOperand, setOperand, List.getElem?_set, hlt]

theorem getOperand_setOperand_ne {op : Operation} {index j : Nat} {v : Value}
    (h : j ≠ index) : getOperand (setOperand op index v) j = getOperand op j := by
  simp [getOperand, setOperand, List.getElem?_set, Ne.symm h]

/-- C4. Constant collision: when the operand at `index` is already in the seen
set and its defining operation is a constant (without operands), the loop body
succeeds, inserts exactly one operation directly before the consuming one, with
a new identity and the name, attribute and operands of the constant, sets the
operand at `index` to its result and changes no other operand of the consuming
operation, nothing else in the function, and not the seen set; the value that
was shared is still defined by the same, unchanged constant. -/
theorem constant_collision (before after : List Operation) (index : Nat) (s : VisitState)
    (operand : Value) (input_op : Operation)
    (hfresh : ∀ o ∈ before ++ s.created ++ s.op :: after, o.id < s.nextId)
    (hop : getOperand s.op index = some operand) (hseen : operand ∈ s.values)
    (hdef : getDefiningOp (before ++ s.created ++ s.op :: after) operand = some input_op)
    (hconst : matchConstant input_op = true) (hzero : input_op.operands = []) :
    ∃ dup : Operation,
      duplicateAtIndex before after index s =
        (.success, { s with created := s.created ++ [dup]
                            op := setOperand s.op index (getResult0 dup)
                            nextId := s.nextId + 1 }) ∧
      dup.id = s.nextId ∧ dup.name = input_op.name ∧ dup.attr = input_op.attr ∧
      dup.operands = input_op.operands ∧
      (∀ o ∈ before ++ s.created ++ s.op :: after, o.id ≠ dup.id) ∧
      getOperand (setOperand s.op index (getResult0 dup)) index = some (.opResult dup.id 0) ∧
      (∀ j, j ≠ index →
        getOperand (setOperand s.op index (getResult0 dup)) j = getOperand s.op j) ∧
      getDefiningOp (before ++ (s.created ++ [dup]) ++
        setOperand s.op index (getResult0 dup) :: after) operand = some input_op := by
  refine ⟨clone input_op s.nextId, ?_, rfl, rfl, rfl, rfl, ?_, ?_, ?_, ?_⟩
  · simp only [duplicateAtIndex, hop, hseen, hdef, hconst, if_true]
  · intro o ho
    have := hfresh o ho
    simp only [clone]; omega
  · exact getOperand_setOperand_same hop
  · intro j hj
    exact getOperand_setOperand_ne hj
  · cases operand with
    | blockArgument a => simp [getDefiningOp] at hdef
    | opResult owner k =>
      simp only [getDefiningOp] at hdef ⊢
      rcases find_after_step [clone input_op s.nextId]
        (setOperand s.op index (getResult0 (clone input_op s.nextId)))
        hfresh (by simp [clone]) rfl hdef with h | ⟨h1, -⟩
      · exact h
      · exfalso
        rw [h1] at hzero
        simp [getOperand, hzero] at hop

/-- C5. Dequantize-of-constant collision: when the operand at `index` is already
in the seen set, its defining operation `D` is a dequantize and the input of
`D` is defined by a constant `Q`, the loop body succeeds and inserts exactly two
operations directly before the consuming one: `Q'` (name, attribute and
operands of `Q`, new identity) and then `D'` (name and attribute of `D`, new
identity) whose operand 0 is the result of `Q'`; the operand at `index` becomes
the result of `D'`, no other operand of the consuming operation changes, and
the shared value is still defined by a dequantize whose input is the result of
`Q`. -/
theorem dequantize_collision (before after : List Operation) (index : Nat) (s : VisitState)
    (operand dqInput : Value) (D Q : Operation)
    (hfresh : ∀ o ∈ before ++ s.created ++ s.op :: after, o.id < s.nextId)
    (hop : getOperand s.op index = some operand) (hseen : operand ∈ s.values)
    (hdef : getDefiningOp (before ++ s.created ++ s.op :: after) operand = some D)
    (hdq : D.name = .dequantize) (hin : getOperand D 0 = some dqInput)
    (hinner : getDefiningOp (before ++ s.created ++ s.op :: after) dqInput = some Q)
    (hconst : matchConstant Q = true) :
    ∃ Q' D' : Operation,
      duplicateAtIndex before after index s =
        (.success, { s with created := s.created ++ [Q', D']
                            op := setOperand s.op index (getResult0 D')
                            nextId := s.nextId + 2 }) ∧
      Q'.id = s.nextId ∧ Q'.name = Q.name ∧ Q'.attr = Q.attr ∧ Q'.operands = Q.operands ∧
      D'.id = s.nextId + 1 ∧ D'.name = D.name ∧ D'.attr = D.attr ∧
      D'.operands.length = D.operands.length ∧
      getOperand D' 0 = some (.opResult Q'.id 0) ∧
      (∀ j, j ≠ 0 → getOperand D' j = getOperand D j) ∧
      (∀ o ∈ before ++ s.created ++ s.op :: after, o.id ≠ Q'.id ∧ o.id ≠ D'.id) ∧
      getOperand (setOperand s.op index (getResult0 D')) index = some (.opResult D'.id 0) ∧
      (∀ j, j ≠ index →
        getOperand (setOperand s.op index (getResult0 D')) j = getOperand s.op j) ∧
      ∃ Dafter, getDefiningOp (before ++ (s.created ++ [Q', D']) ++
          setOperand s.op index (getResult0 D') :: after) operand = some Dafter ∧
        Dafter.id = D.id ∧ Dafter.name = .dequantize ∧ Dafter.attr = D.attr ∧
        getOperand Dafter 0 = some dqInput := by
  have hnc : matchConstant D = false := by simp [matchConstant, hdq]
  refine ⟨clone Q s.nextId, setOperand (clone D (s.nextId + 1)) 0 (getResult0 (clone Q s.nextId)),
    ?_, rfl, rfl, rfl, rfl, rfl, rfl, rfl, ?_, ?_, ?_, ?_, ?_, ?_, ?_⟩
  · simp only [duplicateAtIndex, hop, hseen, hdef, hnc, hdq, hin, hinner, hconst, if_true]
    simp
  · simp [setOperand, clone]
  · exact getOperand_setOperand_same (o := clone D (s.nextId + 1)) hin
  · intro j hj
    exact getOperand_setOperand_ne hj
  · intro o ho
    have := hfresh o ho
    simp only [clone, setOperand]; omega
  · exact getOperand_setOperand_same hop
  · intro j hj
    exact getOperand_setOperand_ne hj
  · cases operand with
    | blockArgument a => simp [getDefiningOp] at hdef
    | opResult owner k =>
      simp only [getDefiningOp] at hdef ⊢
      rcases find_after_step
        [clone Q s.nextId,
          setOperand (clone D (s.nextId + 1)) 0 (getResult0 (clone Q s.nextId))]
        (setOperand s.op index (getResult0
          (setOperand (clone D (s.nextId + 1)) 0 (getResult0 (clone Q s.nextId)))))
        hfresh (by simp [clone, setOperand]) rfl hdef with h | ⟨h1, h2⟩
      · exact ⟨D, h, rfl, hdq, rfl, hin⟩
      · refine ⟨_, h2, ?_, ?_, ?_, ?_⟩
        · rw [h1]; rfl
        · rw [← h1]; exact hdq
        · rw [h1]; rfl
        · by_cases hi : index = 0
          · exfalso
            subst hi
            rw [← h1, hin] at hop
            have hdd : dqInput = Value.opResult owner k := by simpa using hop
            rw [hdd] at hinner
            simp only [getDefiningOp] at hinner
            rw [hdef] at hinner
            have : D = Q := by simpa using hinner
            rw [this, hconst] at hnc
            exact absurd hnc (by simp)
          · rw [getOperand_setOperand_ne (Ne.symm hi), ← h1]
            exact hin

/-- Witness of `constant_collision`: the visit of `Y` in scenario A. -/
theorem constant_collision_witness :
    ∃ dup : Operation,
      duplicateAtIndex [exC, exX] [] 0 ⟨[], exY, [.opResult 1 0], 4, []⟩ =
        (.success, ⟨[dup], setOperand exY 0 (getResult0 dup), [.opResult 1 0], 5, []⟩) ∧
      dup.id = 4 ∧ dup.name = .constantLike 0 ∧ dup.attr = 42 ∧ dup.operands = [] := by
  obtain ⟨dup, h, h1, h2, h3, h4, -⟩ :=
    constant_collision [exC, exX] [] 0 ⟨[], exY, [.opResult 1 0], 4, []⟩ (.opResult 1 0) exC
      (by decide) (by decide) (by decide) (by decide) (by decide) (by decide)
  exact ⟨dup, h, h1, h2, h3, h4⟩

/-- Witness of `dequantize_collision`: the visit of the second consumer of `D`
in scenario B. -/
theorem dequantize_collision_witness :
    ∃ Q' D' : Operation,
      duplicateAtIndex [exC, exD, exX2] [] 1 ⟨[], exY2, [.opResult 4 0], 5, []⟩ =
        (.success, ⟨[Q', D'], setOperand exY2 1 (getResult0 D'), [.opResult 4 0], 7, []⟩) ∧
      Q'.id = 5 ∧ Q'.name = .constantLike 0 ∧ Q'.attr = 42 ∧
      D'.id = 6 ∧ D'.name = .dequantize ∧ D'.attr = 5 ∧
      getOperand D' 0 = some (.opResult Q'.id 0) := by
  obtain ⟨Q', D', h, h1, h2, h3, -, h5, h6, h7, -, h9, -⟩ :=
    dequantize_collision [exC, exD, exX2] [] 1 ⟨[], exY2, [.opResult 4 0], 5, []⟩
      (.opResult 4 0) (.opResult 1 0) exD exC
      (by decide) (by decide) (by decide) (by decide) (by decide) (by decide) (by decide)
      (by decide)
  exact ⟨Q', D', h, h1, h2, h3, h5, h6, h7, h9⟩

/-! ## The diagnostic of the loop body -/

/-- C10 (amended). When the loop body meets an operand that is already in the
seen set and whose defining operation is neither a constant nor a dequantize
with a constant input, it returns failure after emitting exactly one
diagnostic: it is located at the consuming operation and carries the fixed
message; the operand index is not part of it. -/
theorem unclonable_diagnostic (before after : List Operation) (index : Nat) (s : VisitState)
    (operand : Value) (producer : Operation)
    (hop : getOperand s.op index = some operand) (hseen : operand ∈ s.values)
    (hdef : getDefiningOp (before ++ s.created ++ s.op :: after) operand = some producer)
    (hnc : matchConstant producer = false)
    (hdq : producer.name = .dequantize → ∃ w, getOperand producer 0 = some w ∧
      matchConstantValue (before ++ s.created ++ s.op :: after) w = false) :
    duplicateAtIndex before after index s =
      (.failure, { s with diags := s.diags ++ [⟨some s.op.id, notConstantMessage⟩] }) := by
  simp only [duplicateAtIndex, hop, hseen, hdef, hnc, if_true]
  by_cases hd : producer.name = .dequantize
  · obtain ⟨w, hw, hm⟩ := hdq hd
    simp only [hd, hw, if_true]
    unfold matchConstantValue at hm
    cases hg : getDefiningOp (before ++ s.created ++ s.op :: after) w with
    | none => simp [emitNotConstant]
    | some inner =>
      rw [hg] at hm
      have hm2 : matchConstant inner = false := hm
      simp [hm2, emitNotConstant]
  · simp [hd, emitNotConstant]

/-- Witness of `unclonable_diagnostic`: operand 0 of `exZ`, defined by `exA`. -/
theorem unclonable_diagnostic_witness :
    duplicateAtIndex [exA] [] 0 ⟨[], exZ, [.opResult 1 0], 3, []⟩ =
      (.failure, ⟨[], exZ, [.opResult 1 0], 3, [⟨some 2, notConstantMessage⟩]⟩) :=
  unclonable_diagnostic [exA] [] 0 ⟨[], exZ, [.opResult 1 0], 3, []⟩ (.opResult 1 0) exA
    (by decide) (by decide) (by decide) (by decide) (by decide)

/-- C10 (counterexample). The loop body fails on operand 0 and on operand 1 of
the same operation (both hold a seen value whose producer is not clonable) with
the same diagnostics, so no reading of a diagnostic gives the operand index. -/
theorem diagnostic_omits_index :
    (duplicateAtIndex [exA] [] 0 ⟨[], exZ, [.opResult 1 0], 3, []⟩).1 = .failure ∧
    (duplicateAtIndex [exA] [] 1 ⟨[], exZ, [.opResult 1 0], 3, []⟩).1 = .failure ∧
    (duplicateAtIndex [exA] [] 0 ⟨[], exZ, [.opResult 1 0], 3, []⟩).2.diags =
      (duplicateAtIndex [exA] [] 1 ⟨[], exZ, [.opResult 1 0], 3, []⟩).2.diags ∧
    ¬ ∃ indexOf : Diagnostic → Nat,
      (∀ d ∈ (duplicateAtIndex [exA] [] 0 ⟨[], exZ, [.opResult 1 0], 3, []⟩).2.diags,
        indexOf d = 0) ∧
      (∀ d ∈ (duplicateAtIndex [exA] [] 1 ⟨[], exZ, [.opResult 1 0], 3, []⟩).2.diags,
        indexOf d = 1) := by
  refine ⟨by decide, by decide, by decide, ?_⟩
  rintro ⟨indexOf, h0, h1⟩
  have e0 : (⟨some 2, notConstantMessage⟩ : Diagnostic) ∈
      (duplicateAtIndex [exA] [] 0 ⟨[], exZ, [.opResult 1 0], 3, []⟩).2.diags := by decide
  have e1 : (⟨some 2, notConstantMessage⟩ : Diagnostic) ∈
      (duplicateAtIndex [exA] [] 1 ⟨[], exZ, [.opResult 1 0], 3, []⟩).2.diags := by decide
  have := h0 _ e0
  have := h1 _ e1
  omega

/-! ## The traversal on the flattened function -/

theorem DuplicateValueIfNeeded_eq (c : OperationName → Option (List Nat))
    (before after : List Operation) (s : VisitState) :
    DuplicateValueIfNeeded c before after s =
      duplicateAtIndices before after (statefulIndices c s.op) s := by
  unfold DuplicateValueIfNeeded statefulIndices
  cases c s.op.name <;> simp [duplicateAtIndices]

theorem visitBlock_nil (c : OperationName → Option (List Nat)) (d l pre : List Operation)
    (st : PassState) : visitBlock c d l pre [] st = (.success, pre, st) := rfl

theorem visitBlock_cons (c : OperationName → Option (List Nat)) (d l pre rest : List Operation)
    (op : Operation) (st : PassState) :
    visitBlock c d l pre (op :: rest) st =
      match DuplicateValueIfNeeded c (d ++ pre) (rest ++ l)
          ⟨[], op, st.values, st.nextId, st.diags⟩ with
      | (.success, s) =>
        visitBlock c d l (pre ++ s.created ++ [s.op]) rest ⟨s.values, s.nextId, s.diags⟩
      | (r, s) => (r, pre ++ s.created ++ s.op :: rest, ⟨s.values, s.nextId, s.diags⟩) := rfl

theorem visitBlock_cons_success {c : OperationName → Option (List Nat)}
    {d l pre rest : List Operation} {op : Operation} {st : PassState} {s : VisitState}
    (h : DuplicateValueIfNeeded c (d ++ pre) (rest ++ l)
      ⟨[], op, st.values, st.nextId, st.diags⟩ = (.success, s)) :
    visitBlock c d l pre (op :: rest) st =
      visitBlock c d l (pre ++ s.created ++ [s.op]) rest ⟨s.values, s.nextId, s.diags⟩ := by
  rw [visitBlock_cons, h]

theorem visitBlock_cons_stop {c : OperationName → Option (List Nat)}
    {d l pre rest : List Operation} {op : Operation} {st : PassState} {s : VisitState}
    {r : Outcome} (hr : r ≠ .success)
    (h : DuplicateValueIfNeeded c (d ++ pre) (rest ++ l)
      ⟨[], op, st.values, st.nextId, st.diags⟩ = (r, s)) :
    visitBlock c d l pre (op :: rest) st =
      (r, pre ++ s.created ++ s.op :: rest, ⟨s.values, s.nextId, s.diags⟩) := by
  rw [visitBlock_cons, h]
  cases r <;> first | rfl | exact absurd rfl hr

/-- Visiting a block inside a function is visiting the flattened function
from the same place, up to the end of the block. -/
theorem visitBlock_flat (c : OperationName → Option (List Nat)) (d l : List Operation) :
    ∀ (post pre : List Operation) (st : PassState),
      (∀ out st', visitBlock c d l pre post st = (.success, out, st') →
        visitBlock c [] [] (d ++ pre) (post ++ l) st = visitBlock c [] [] (d ++ out) l st') ∧
      (∀ r out st', visitBlock c d l pre post st = (r, out, st') → r ≠ .success →
        visitBlock c [] [] (d ++ pre) (post ++ l) st = (r, d ++ out ++ l, st')) := by
  intro post
  induction post with
  | nil =>
    intro pre st
    constructor
    · intro out st' h
      rw [visitBlock_nil] at h
      simp only [Prod.mk.injEq] at h
      obtain ⟨-, h1, h2⟩ := h
      simp [h1, h2]
    · intro r out st' h hr
      rw [visitBlock_nil] at h
      simp only [Prod.mk.injEq] at h
      exact absurd h.1.symm hr
  | cons op rest ih =>
    intro pre st
    cases hD : DuplicateValueIfNeeded c (d ++ pre) (rest ++ l)
        ⟨[], op, st.values, st.nextId, st.diags⟩ with
    | mk r s =>
      have key : DuplicateValueIfNeeded c ([] ++ (d ++ pre)) (rest ++ l ++ [])
          ⟨[], op, st.values, st.nextId, st.diags⟩ = (r, s) := by
        rw [← hD]; simp
      by_cases hr : r = .success
      · subst hr
        rw [visitBlock_cons_success hD, List.cons_append, visitBlock_cons_success key]
        have := ih (pre ++ s.created ++ [s.op]) ⟨s.values, s.nextId, s.diags⟩
        simpa only [List.append_assoc] using this
      · rw [visitBlock_cons_stop hr hD, List.cons_append, visitBlock_cons_stop hr key]
        constructor
        · intro out st' h
          simp only [Prod.mk.injEq] at h
          exact absurd h.1 hr
        · intro r' out st' h _
          simp only [Prod.mk.injEq] at h
          obtain ⟨h1, h2, h3⟩ := h
          subst h1 h2 h3
          simp

theorem visitBlocks_flat (c : OperationName → Option (List Nat)) :
    ∀ (todo done : List (List Operation)) (st : PassState),
      (visitBlocks c done todo st).1 = (visitBlock c [] [] done.flatten todo.flatten st).1 ∧
      (visitBlocks c done todo st).2.1.flatten =
        (visitBlock c [] [] done.flatten todo.flatten st).2.1 ∧
      (visitBlocks c done todo st).2.2.values =
        (visitBlock c [] [] done.flatten todo.flatten st).2.2.values ∧
      (visitBlocks c done todo st).2.2.nextId =
        (visitBlock c [] [] done.flatten todo.flatten st).2.2.nextId ∧
      (visitBlocks c done todo st).2.2.diags =
        (visitBlock c [] [] done.flatten todo.flatten st).2.2.diags ++
          (if (visitBlocks c done todo st).1 = .failure then [⟨none, failedMessage⟩] else []) := by
  intro todo
  induction todo with
  | nil =>
    intro done st
    simp [visitBlocks, visitBlock_nil]
  | cons bb rest ih =>
    intro done st
    have hf := visitBlock_flat c done.flatten rest.flatten bb [] st
    rw [List.append_nil] at hf
    rw [List.flatten_cons]
    cases hB : visitBlock c done.flatten rest.flatten [] bb st with
    | mk r p =>
      obtain ⟨bb', st'⟩ := p
      cases r with
      | success =>
        have e : visitBlocks c done (bb :: rest) st = visitBlocks c (done ++ [bb']) rest st' := by
          simp only [visitBlocks, hB]
        rw [e, hf.1 bb' st' hB]
        have := ih (done ++ [bb']) st'
        simpa using this
      | failure =>
        have e : visitBlocks c done (bb :: rest) st = (.failure, done ++ bb' :: rest,
            { st' with diags := st'.diags ++ [⟨none, failedMessage⟩] }) := by
          simp only [visitBlocks, hB]
        rw [e, hf.2 .failure bb' st' hB (by simp)]
        simp
      | abort =>
        have e : visitBlocks c done (bb :: rest) st = (.abort, done ++ bb' :: rest, st') := by
          simp only [visitBlocks, hB]
        rw [e, hf.2 .abort bb' st' hB (by simp)]
        simp

/-! ## The five ways through the loop body -/

/-- The loop body either aborts on a missing operand, records a value it sees
for the first time, stops on a seen value it cannot clone, clones a constant,
or clones a dequantize with its constant. -/
theorem duplicateAtIndex_cases (before after : List Operation) (index : Nat) (s : VisitState) :
    (getOperand s.op index = none ∧ duplicateAtIndex before after index s = (.abort, s)) ∨
    (∃ v, getOperand s.op index = some v ∧ v ∉ s.values ∧
      duplicateAtIndex before after index s = (.success, { s with values := v :: s.values })) ∨
    (∃ v, getOperand s.op index = some v ∧ v ∈ s.values ∧
      clonable (before ++ s.created ++ s.op :: after) v = false ∧
      ∃ r dg, duplicateAtIndex before after index s = (r, { s with diags := dg }) ∧
        (r = .failure ∨ (r = .abort ∧ ∃ p,
          getDefiningOp (before ++ s.created ++ s.op :: after) v = some p ∧
          p.name = .dequantize ∧ getOperand p 0 = none))) ∨
    (∃ v p, getOperand s.op index = some v ∧ v ∈ s.values ∧
      clonable (before ++ s.created ++ s.op :: after) v = true ∧
      getDefiningOp (before ++ s.created ++ s.op :: after) v = some p ∧
      matchConstant p = true ∧
      duplicateAtIndex before after index s =
        (.success, { s with created := s.created ++ [clone p s.nextId]
                            op := setOperand s.op index (.opResult s.nextId 0)
                            nextId := s.nextId + 1 })) ∨
    (∃ v D w Q, getOperand s.op index = some v ∧ v ∈ s.values ∧
      clonable (before ++ s.created ++ s.op :: after) v = true ∧
      getDefiningOp (before ++ s.created ++ s.op :: after) v = some D ∧
      matchConstant D = false ∧ D.name = .dequantize ∧ getOperand D 0 = some w ∧
      getDefiningOp (before ++ s.created ++ s.op :: after) w = some Q ∧
      matchConstant Q = true ∧
      duplicateAtIndex before after index s =
        (.success, { s with
          created := s.created ++
            [clone Q s.nextId, setOperand (clone D (s.nextId + 1)) 0 (.opResult s.nextId 0)]
          op := setOperand s.op index (.opResult (s.nextId + 1) 0)
          nextId := s.nextId + 2 })) := by
  cases hop : getOperand s.op index with
  | none => left; exact ⟨rfl, by simp only [duplicateAtIndex, hop]⟩
  | some v =>
    right
    by_cases hseen : v ∈ s.values
    swap
    · left; exact ⟨v, rfl, hseen, by simp only [duplicateAtIndex, hop, hseen, if_false]⟩
    right
    cases hdef : getDefiningOp (before ++ s.created ++ s.op :: after) v with
    | none =>
      left
      refine ⟨v, rfl, hseen, by simp only [clonable, matchConstantValue, hdef], .failure, s.diags, ?_, Or.inl rfl⟩
      simp only [duplicateAtIndex, hop, hseen, hdef, if_true]
    | some p =>
      by_cases hc : matchConstant p = true
      · right; left
        refine ⟨v, p, rfl, hseen, by simp only [clonable, matchConstantValue, hdef, hc]; simp, hdef, hc, ?_⟩
        simp only [duplicateAtIndex, hop, hseen, hdef, hc, if_true]
        rfl
      have hc' : matchConstant p = false := by simpa using hc
      by_cases hd : p.name = .dequantize
      swap
      · left
        refine ⟨v, rfl, hseen, by simp only [clonable, matchConstantValue, hdef, hc', hd]; simp, .failure, s.diags ++ [⟨some s.op.id, notConstantMessage⟩], ?_, Or.inl rfl⟩
        simp only [duplicateAtIndex, hop, hseen, hdef, hc', hd, if_true, if_false,
          emitNotConstant]
        rfl
      cases hw : getOperand p 0 with
      | none =>
        left
        refine ⟨v, rfl, hseen, by simp only [clonable, matchConstantValue, hdef, hc', hd, hw]; simp, .abort, s.diags, ?_,
          Or.inr ⟨rfl, p, hdef, hd, hw⟩⟩
        simp only [duplicateAtIndex, hop, hseen, hdef, hc', hd, hw, if_true, if_false]
        rfl
      | some w =>
        cases hq : getDefiningOp (before ++ s.created ++ s.op :: after) w with
        | none =>
          left
          refine ⟨v, rfl, hseen, by simp only [clonable, matchConstantValue, hdef, hc', hd, hw, hq]; simp,
            .failure, s.diags ++ [⟨some s.op.id, notConstantMessage⟩], ?_, Or.inl rfl⟩
          simp only [duplicateAtIndex, hop, hseen, hdef, hc', hd, hw, hq, if_true, if_false,
            emitNotConstant]
          rfl
        | some Q =>
          by_cases hqc : matchConstant Q = true
          · right; right
            refine ⟨v, p, w, Q, rfl, hseen,
              by simp only [clonable, matchConstantValue, hdef, hc', hd, hw, hq, hqc]; simp,
              hdef, hc', hd, hw, hq, hqc, ?_⟩
            simp only [duplicateAtIndex, hop, hseen, hdef, hc', hd, hw, hq, hqc, if_true,
              if_false]
            rfl
          · left
            have hqc' : matchConstant Q = false := by simpa using hqc
            refine ⟨v, rfl, hseen,
              by simp only [clonable, matchConstantValue, hdef, hc', hd, hw, hq, hqc']; simp,
              .failure, s.diags ++ [⟨some s.op.id, notConstantMessage⟩], ?_, Or.inl rfl⟩
            simp only [duplicateAtIndex, hop, hseen, hdef, hc', hd, hw, hq, hqc', if_true,
              if_false, emitNotConstant]
            rfl

/-! ## The loop over the stateful indices -/

theorem duplicateAtIndices_nil (before after : List Operation) (s : VisitState) :
    duplicateAtIndices before after [] s = (.success, s) := rfl

theorem duplicateAtIndices_cons_success {before after : List Operation} {i : Nat}
    {rest : List Nat} {s s' : VisitState}
    (h : duplicateAtIndex before after i s = (.success, s')) :
    duplicateAtIndices before after (i :: rest) s = duplicateAtIndices before after rest s' := by
  simp only [duplicateAtIndices, h]

theorem duplicateAtIndices_cons_stop {before after : List Operation} {i : Nat}
    {rest : List Nat} {s s' : VisitState} {r : Outcome} (hr : r ≠ .success)
    (h : duplicateAtIndex before after i s = (r, s')) :
    duplicateAtIndices before after (i :: rest) s = (r, s') := by
  cases r with
  | success => exact absurd rfl hr
  | failure => simp only [duplicateAtIndices, h]
  | abort => simp only [duplicateAtIndices, h]

/-- The loop over `xs ++ ys` is the loop over `xs` followed, when it succeeds,
by the loop over `ys`. -/
theorem duplicateAtIndices_append (before after : List Operation) :
    ∀ (xs ys : List Nat) (s : VisitState),
      duplicateAtIndices before after (xs ++ ys) s =
        match duplicateAtIndices before after xs s with
        | (.success, s') => duplicateAtIndices before after ys s'
        | r => r := by
  intro xs
  induction xs with
  | nil => intro ys s; rfl
  | cons i rest ih =>
    intro ys s
    cases h : duplicateAtIndex before after i s with
    | mk r s' =>
      by_cases hr : r = .success
      · subst hr
        rw [List.cons_append, duplicateAtIndices_cons_success h,
          duplicateAtIndices_cons_success h, ih]
      · rw [List.cons_append, duplicateAtIndices_cons_stop hr h,
          duplicateAtIndices_cons_stop hr h]
        cases r with
        | success => exact absurd rfl hr
        | failure => rfl
        | abort => rfl

/-- A reflexive and transitive relation that every run of the loop body
respects is respected by the loop. -/
theorem duplicateAtIndices_rel (R : VisitState → VisitState → Prop) (hrefl : ∀ s, R s s)
    (htrans : ∀ a b c, R a b → R b c → R a c) (before after : List Operation) :
    ∀ (idxs : List Nat),
      (∀ i ∈ idxs, ∀ s, R s (duplicateAtIndex before after i s).2) →
      ∀ s, R s (duplicateAtIndices before after idxs s).2 := by
  intro idxs
  induction idxs with
  | nil => intro _ s; exact hrefl s
  | cons i rest ih =>
    intro hstep s
    have h1 := hstep i (List.mem_cons_self _ _) s
    cases h : duplicateAtIndex before after i s with
    | mk r s' =>
      rw [h] at h1
      by_cases hr : r = .success
      · subst hr
        rw [duplicateAtIndices_cons_success h]
        exact htrans _ _ _ h1 (ih (fun j hj => hstep j (List.mem_cons_of_mem _ hj)) s')
      · rw [duplicateAtIndices_cons_stop hr h]
        exact h1

/-- The loop body keeps the identity, name, attribute and number of operands
of the visited operation. -/
theorem duplicateAtIndex_op (before after : List Operation) (i : Nat) (s : VisitState) :
    (duplicateAtIndex before after i s).2.op.id = s.op.id ∧
    (duplicateAtIndex before after i s).2.op.name = s.op.name ∧
    (duplicateAtIndex before after i s).2.op.attr = s.op.attr ∧
    (duplicateAtIndex before after i s).2.op.operands.length = s.op.operands.length := by
  rcases duplicateAtIndex_cases before after i s with ⟨-, h⟩ | ⟨v, -, -, h⟩ |
    ⟨v, -, -, -, r, dg, h, -⟩ | ⟨v, p, -, -, -, -, -, h⟩ | ⟨v, D, w, Q, -, -, -, -, -, -, -, -, -, h⟩ <;>
  rw [h] <;> simp [setOperand]

/-- The loop body changes no operand other than the one at its index. -/
theorem duplicateAtIndex_other (before after : List Operation) (i j : Nat) (hj : j ≠ i)
    (s : VisitState) :
    getOperand (duplicateAtIndex before after i s).2.op j = getOperand s.op j := by
  rcases duplicateAtIndex_cases before after i s with ⟨-, h⟩ | ⟨v, -, -, h⟩ |
    ⟨v, -, -, -, r, dg, h, -⟩ | ⟨v, p, -, -, -, -, -, h⟩ | ⟨v, D, w, Q, -, -, -, -, -, -, -, -, -, h⟩ <;>
  rw [h] <;> first | rfl | exact getOperand_setOperand_ne hj

theorem duplicateAtIndices_op (before after : List Operation) (idxs : List Nat)
    (s : VisitState) :
    (duplicateAtIndices before after idxs s).2.op.id = s.op.id ∧
    (duplicateAtIndices before after idxs s).2.op.name = s.op.name ∧
    (duplicateAtIndices before after idxs s).2.op.attr = s.op.attr ∧
    (duplicateAtIndices before after idxs s).2.op.operands.length = s.op.operands.length :=
  duplicateAtIndices_rel
    (fun a b => b.op.id = a.op.id ∧ b.op.name = a.op.name ∧ b.op.attr = a.op.attr ∧
      b.op.operands.length = a.op.operands.length)
    (fun _ => ⟨rfl, rfl, rfl, rfl⟩)
    (fun _ _ _ h1 h2 => ⟨h2.1.trans h1.1, h2.2.1.trans h1.2.1, h2.2.2.1.trans h1.2.2.1,
      h2.2.2.2.trans h1.2.2.2⟩)
    before after idxs (fun i _ s => duplicateAtIndex_op before after i s) s

theorem duplicateAtIndices_other (before after : List Operation) (idxs : List Nat) (j : Nat)
    (hj : j ∉ idxs) (s : VisitState) :
    getOperand (duplicateAtIndices before after idxs s).2.op j = getOperand s.op j :=
  duplicateAtIndices_rel (fun a b => getOperand b.op j = getOperand a.op j)
    (fun _ => rfl) (fun _ _ _ h1 h2 => h2.trans h1) before after idxs
    (fun i hi s => duplicateAtIndex_other before after i j (fun e => hj (e ▸ hi)) s) s

/-! ## Operations keep their place and their non-stateful operands -/

/-- The operation `o'` is the operation `o` after the pass: same identity,
name, attribute and number of operands, and the same operand at every index
the classifier does not report for it. -/
theorem visitBlock_frame (c : OperationName → Option (List Nat)) (d l : List Operation) :
    ∀ (post pre : List Operation) (st : PassState),
      ∃ tail, (visitBlock c d l pre post st).2.1 = pre ++ tail ∧
        ∀ o ∈ post, ∃ o' ∈ tail, o'.id = o.id ∧ o'.name = o.name ∧ o'.attr = o.attr ∧
          o'.operands.length = o.operands.length ∧
          ∀ j, j ∉ statefulIndices c o → getOperand o' j = getOperand o j := by
  intro post
  induction post with
  | nil => intro pre st; exact ⟨[], by simp [visitBlock_nil], by simp⟩
  | cons op rest ih =>
    intro pre st
    cases hD : DuplicateValueIfNeeded c (d ++ pre) (rest ++ l)
        ⟨[], op, st.values, st.nextId, st.diags⟩ with
    | mk r s =>
      have hD' := hD
      rw [DuplicateValueIfNeeded_eq] at hD'
      have hop := duplicateAtIndices_op (d ++ pre) (rest ++ l) (statefulIndices c op)
        ⟨[], op, st.values, st.nextId, st.diags⟩
      have hoth := fun j hj => duplicateAtIndices_other (d ++ pre) (rest ++ l)
        (statefulIndices c op) j hj ⟨[], op, st.values, st.nextId, st.diags⟩
      simp only [hD'] at hop hoth
      by_cases hr : r = .success
      · subst hr
        rw [visitBlock_cons_success hD]
        obtain ⟨tail, h1, h2⟩ := ih (pre ++ s.created ++ [s.op]) ⟨s.values, s.nextId, s.diags⟩
        refine ⟨s.created ++ [s.op] ++ tail, by rw [h1]; simp, ?_⟩
        intro o ho
        rcases List.mem_cons.mp ho with rfl | ho
        · exact ⟨s.op, by simp, hop.1, hop.2.1, hop.2.2.1, hop.2.2.2, hoth⟩
        · obtain ⟨o', ho', h⟩ := h2 o ho
          exact ⟨o', by simp [ho'], h⟩
      · rw [visitBlock_cons_stop hr hD]
        refine ⟨s.created ++ s.op :: rest, by simp, ?_⟩
        intro o ho
        rcases List.mem_cons.mp ho with rfl | ho
        · exact ⟨s.op, by simp, hop.1, hop.2.1, hop.2.2.1, hop.2.2.2, hoth⟩
        · exact ⟨o, by simp [ho], rfl, rfl, rfl, rfl, fun _ _ => rfl⟩

/-- C6. Every operation of the input function is still in the output function,
with its identity, name and attribute, and at every operand index that the
classifier does not report as stateful for it (all of them when the classifier
reports none) it holds the same value as before, whatever the outcome. -/
theorem nonstateful_operands_untouched (c : OperationName → Option (List Nat))
    (func : List (List Operation)) (o : Operation) (ho : o ∈ func.flatten) :
    ∃ o' ∈ (runOnOperation c func).2.1.flatten,
      o'.id = o.id ∧ o'.name = o.name ∧ o'.attr = o.attr ∧
      o'.operands.length = o.operands.length ∧
      ∀ j, j ∉ statefulIndices c o → getOperand o' j = getOperand o j := by
  have hflat := (visitBlocks_flat c func [] ⟨[], freshId func.flatten, []⟩).2.1
  obtain ⟨tail, h1, h2⟩ := visitBlock_frame c [] [] func.flatten []
    ⟨[], freshId func.flatten, []⟩
  obtain ⟨o', ho', h⟩ := h2 o ho
  refine ⟨o', ?_, h⟩
  unfold runOnOperation
  rw [hflat]
  simp only [List.flatten_nil]
  rw [h1]
  simpa using ho'

/-- Witness of `nonstateful_operands_untouched`: the second consumer of `D` in
scenario B shares its non-stateful operand 0 with the first consumer. -/
theorem nonstateful_operands_untouched_witness :
    ∃ o' ∈ (runOnOperation exampleClassifier scenarioB).2.1.flatten,
      o'.id = exY2.id ∧ o'.name = exY2.name ∧ o'.attr = exY2.attr ∧
      o'.operands.length = exY2.operands.length ∧
      ∀ j, j ∉ statefulIndices exampleClassifier exY2 → getOperand o' j = getOperand exY2 j :=
  nonstateful_operands_untouched exampleClassifier scenarioB exY2 (by decide)

/-! ## The seen set and the allocator along the traversal -/

/-- The loop body only adds to the seen set, and only the operand it looks at. -/
theorem duplicateAtIndex_values (before after : List Operation) (i : Nat) (s : VisitState) :
    (∀ x ∈ s.values, x ∈ (duplicateAtIndex before after i s).2.values) ∧
    (∀ x ∈ (duplicateAtIndex before after i s).2.values,
      x ∈ s.values ∨ getOperand s.op i = some x) ∧
    ((duplicateAtIndex before after i s).1 = .success →
      ∀ x, getOperand s.op i = some x → x ∈ (duplicateAtIndex before after i s).2.values) := by
  rcases duplicateAtIndex_cases before after i s with ⟨h0, h⟩ | ⟨v, h0, -, h⟩ |
    ⟨v, h0, hv, -, r, dg, h, -⟩ | ⟨v, p, h0, hv, -, -, -, h⟩ |
    ⟨v, D, w, Q, h0, hv, -, -, -, -, -, -, -, h⟩ <;>
  rw [h] <;> simp only [h0]
  · simp
  · refine ⟨fun x hx => List.mem_cons_of_mem _ hx, ?_, ?_⟩
    · intro x hx
      rcases List.mem_cons.mp hx with rfl | hx
      · exact Or.inr rfl
      · exact Or.inl hx
    · intro _ x hx
      simp only [Option.some.injEq] at hx
      subst hx
      exact List.mem_cons_self _ _
  all_goals
    refine ⟨fun x hx => hx, fun x hx => Or.inl hx, ?_⟩
    intro _ x hx
    simp only [Option.some.injEq] at hx
    subst hx
    exact hv

/-- The allocator only moves forward, and the operations inserted by the loop
body are appended to those already inserted, with identities taken from the
allocator. -/
theorem duplicateAtIndex_created (before after : List Operation) (i : Nat) (s : VisitState) :
    s.nextId ≤ (duplicateAtIndex before after i s).2.nextId ∧
    ∃ new, (duplicateAtIndex before after i s).2.created = s.created ++ new ∧
      ∀ o ∈ new, s.nextId ≤ o.id ∧ o.id < (duplicateAtIndex before after i s).2.nextId := by
  rcases duplicateAtIndex_cases before after i s with ⟨-, h⟩ | ⟨v, -, -, h⟩ |
    ⟨v, -, -, -, r, dg, h, -⟩ | ⟨v, p, -, -, -, -, -, h⟩ |
    ⟨v, D, w, Q, -, -, -, -, -, -, -, -, -, h⟩ <;>
  rw [h]
  · exact ⟨le_refl _, [], by simp, by simp⟩
  · exact ⟨le_refl _, [], by simp, by simp⟩
  · exact ⟨le_refl _, [], by simp, by simp⟩
  · exact ⟨by simp, [clone p s.nextId], rfl, by simp [clone]⟩
  · exact ⟨by simp, [clone Q s.nextId, setOperand (clone D (s.nextId + 1)) 0
      (.opResult s.nextId 0)], rfl, by simp [clone, setOperand]⟩

theorem duplicateAtIndices_created (before after : List Operation) (idxs : List Nat)
    (s : VisitState) :
    s.nextId ≤ (duplicateAtIndices before after idxs s).2.nextId ∧
    ∃ new, (duplicateAtIndices before after idxs s).2.created = s.created ++ new ∧
      ∀ o ∈ new, s.nextId ≤ o.id ∧ o.id < (duplicateAtIndices before after idxs s).2.nextId :=
  duplicateAtIndices_rel
    (fun a b => a.nextId ≤ b.nextId ∧ ∃ new, b.created = a.created ++ new ∧
      ∀ o ∈ new, a.nextId ≤ o.id ∧ o.id < b.nextId)
    (fun _ => ⟨le_refl _, [], by simp, by simp⟩)
    (fun a b c h1 h2 => by
      obtain ⟨l1, n1, e1, b1⟩ := h1
      obtain ⟨l2, n2, e2, b2⟩ := h2
      refine ⟨le_trans l1 l2, n1 ++ n2, by rw [e2, e1, List.append_assoc], ?_⟩
      intro o ho
      rcases List.mem_append.mp ho with ho | ho
      · have := b1 o ho; omega
      · have := b2 o ho; omega)
    before after idxs (fun i _ s => duplicateAtIndex_created before after i s) s

theorem duplicateAtIndices_values_mono (before after : List Operation) (idxs : List Nat)
    (s : VisitState) :
    ∀ x ∈ s.values, x ∈ (duplicateAtIndices before after idxs s).2.values :=
  duplicateAtIndices_rel (fun a b => ∀ x ∈ a.values, x ∈ b.values)
    (fun _ _ h => h) (fun _ _ _ h1 h2 x hx => h2 x (h1 x hx)) before after idxs
    (fun i _ s => (duplicateAtIndex_values before after i s).1) s

/-- With non-repeating indices, every value the loop adds to the seen set is an
operand the visited operation had at one of the indices when the loop started. -/
theorem duplicateAtIndices_values_sub (before after : List Operation) :
    ∀ (idxs : List Nat), idxs.Nodup → ∀ (s : VisitState),
      ∀ x ∈ (duplicateAtIndices before after idxs s).2.values,
        x ∈ s.values ∨ ∃ j ∈ idxs, getOperand s.op j = some x := by
  intro idxs
  induction idxs with
  | nil => intro _ s x hx; exact Or.inl hx
  | cons i rest ih =>
    intro hnd s x hx
    have hv := duplicateAtIndex_values before after i s
    cases h : duplicateAtIndex before after i s with
    | mk r s' =>
      rw [h] at hv
      by_cases hr : r = .success
      · subst hr
        rw [duplicateAtIndices_cons_success h] at hx
        rcases ih (List.nodup_cons.mp hnd).2 s' x hx with h1 | ⟨j, hj, h1⟩
        · rcases hv.2.1 x h1 with h2 | h2
          · exact Or.inl h2
          · exact Or.inr ⟨i, List.mem_cons_self _ _, h2⟩
        · right
          refine ⟨j, List.mem_cons_of_mem _ hj, ?_⟩
          have hne : j ≠ i := fun e => (List.nodup_cons.mp hnd).1 (e ▸ hj)
          have := duplicateAtIndex_other before after i j hne s
          rw [h] at this
          rw [← this]; exact h1
      · rw [duplicateAtIndices_cons_stop hr h] at hx
        rcases hv.2.1 x hx with h2 | h2
        · exact Or.inl h2
        · exact Or.inr ⟨i, List.mem_cons_self _ _, h2⟩

/-- With non-repeating indices, when the loop succeeds every operand the
visited operation had at one of the indices is in the seen set. -/
theorem duplicateAtIndices_values_sup (before after : List Operation) :
    ∀ (idxs : List Nat), idxs.Nodup → ∀ (s : VisitState),
      (duplicateAtIndices before after idxs s).1 = .success →
      ∀ j ∈ idxs, ∀ x, getOperand s.op j = some x →
        x ∈ (duplicateAtIndices before after idxs s).2.values := by
  intro idxs
  induction idxs with
  | nil => intro _ s _ j hj; simp at hj
  | cons i rest ih =>
    intro hnd s hs j hj x hx
    have hv := duplicateAtIndex_values before after i s
    cases h : duplicateAtIndex before after i s with
    | mk r s' =>
      rw [h] at hv
      by_cases hr : r = .success
      · subst hr
        rw [duplicateAtIndices_cons_success h] at hs ⊢
        rcases List.mem_cons.mp hj with rfl | hj'
        · exact duplicateAtIndices_values_mono before after rest s' x (hv.2.2 rfl x hx)
        · have hne : j ≠ i := fun e => (List.nodup_cons.mp hnd).1 (e ▸ hj')
          have := duplicateAtIndex_other before after i j hne s
          rw [h] at this
          exact ih (List.nodup_cons.mp hnd).2 s' hs j hj' x (by rw [this]; exact hx)
      · rw [duplicateAtIndices_cons_stop hr h] at hs
        exact absurd hs hr

/-! ## The loop over the operations -/

theorem slotValues_cons (c : OperationName → Option (List Nat)) (o : Operation)
    (rest : List Operation) :
    slotValues c (o :: rest) =
      (statefulIndices c o).filterMap (getOperand o) ++ slotValues c rest := by
  simp [slotValues]

theorem slotValues_append (c : OperationName → Option (List Nat)) (xs ys : List Operation) :
    slotValues c (xs ++ ys) = slotValues c xs ++ slotValues c ys := by
  simp [slotValues]

theorem mem_slotValues {c : OperationName → Option (List Nat)} {ops : List Operation}
    {x : Value} :
    x ∈ slotValues c ops ↔ ∃ o ∈ ops, ∃ j ∈ statefulIndices c o, getOperand o j = some x := by
  simp [slotValues, List.mem_flatMap, List.mem_filterMap]

/-- Visiting `A ++ B` is visiting `A` (with `B` among the later operations)
and then, when that succeeds, visiting `B`. -/
theorem visitBlock_append (c : OperationName → Option (List Nat)) (d l B : List Operation) :
    ∀ (A pre : List Operation) (st : PassState),
      visitBlock c d l pre (A ++ B) st =
        match visitBlock c d (B ++ l) pre A st with
        | (.success, pre', st') => visitBlock c d l pre' B st'
        | (r, out, st') => (r, out ++ B, st') := by
  intro A
  induction A with
  | nil => intro pre st; rfl
  | cons op rest ih =>
    intro pre st
    cases hD : DuplicateValueIfNeeded c (d ++ pre) (rest ++ (B ++ l))
        ⟨[], op, st.values, st.nextId, st.diags⟩ with
    | mk r s =>
      have hD' : DuplicateValueIfNeeded c (d ++ pre) (rest ++ B ++ l)
          ⟨[], op, st.values, st.nextId, st.diags⟩ = (r, s) := by
        rw [List.append_assoc]; exact hD
      by_cases hr : r = .success
      · subst hr
        rw [List.cons_append, visitBlock_cons_success hD', visitBlock_cons_success hD, ih]
      · rw [List.cons_append, visitBlock_cons_stop hr hD', visitBlock_cons_stop hr hD]
        cases r with
        | success => exact absurd rfl hr
        | failure => simp
        | abort => simp

/-- The allocator only moves forward along the traversal. -/
theorem visitBlock_nextId (c : OperationName → Option (List Nat)) (d l : List Operation) :
    ∀ (post pre : List Operation) (st : PassState),
      st.nextId ≤ (visitBlock c d l pre post st).2.2.nextId := by
  intro post
  induction post with
  | nil => intro pre st; simp [visitBlock_nil]
  | cons op rest ih =>
    intro pre st
    cases hD : DuplicateValueIfNeeded c (d ++ pre) (rest ++ l)
        ⟨[], op, st.values, st.nextId, st.diags⟩ with
    | mk r s =>
      have h1 := (duplicateAtIndices_created (d ++ pre) (rest ++ l) (statefulIndices c op)
        ⟨[], op, st.values, st.nextId, st.diags⟩).1
      have hD' := hD
      rw [DuplicateValueIfNeeded_eq] at hD'
      rw [hD'] at h1
      by_cases hr : r = .success
      · subst hr
        rw [visitBlock_cons_success hD]
        exact le_trans h1 (ih _ ⟨s.values, s.nextId, s.diags⟩)
      · rw [visitBlock_cons_stop hr hD]
        exact h1

/-- With non-repeating indices, every value in the seen set after the
traversal of `post` was in it before or is held by a stateful slot of `post`. -/
theorem visitBlock_values_sub (c : OperationName → Option (List Nat)) (d l : List Operation) :
    ∀ (post pre : List Operation) (st : PassState), NonRepeating c post →
      ∀ x ∈ (visitBlock c d l pre post st).2.2.values,
        x ∈ st.values ∨ x ∈ slotValues c post := by
  intro post
  induction post with
  | nil => intro pre st _ x hx; exact Or.inl hx
  | cons op rest ih =>
    intro pre st hnr x hx
    cases hD : DuplicateValueIfNeeded c (d ++ pre) (rest ++ l)
        ⟨[], op, st.values, st.nextId, st.diags⟩ with
    | mk r s =>
      have h1 := duplicateAtIndices_values_sub (d ++ pre) (rest ++ l) (statefulIndices c op)
        (hnr op (List.mem_cons_self _ _)) ⟨[], op, st.values, st.nextId, st.diags⟩
      have hD' := hD
      rw [DuplicateValueIfNeeded_eq] at hD'
      rw [hD'] at h1
      have h1' : ∀ y ∈ s.values, y ∈ st.values ∨ y ∈ slotValues c (op :: rest) := by
        intro y hy
        rcases h1 y hy with h | ⟨j, hj, h⟩
        · exact Or.inl h
        · exact Or.inr (mem_slotValues.mpr ⟨op, List.mem_cons_self _ _, j, hj, h⟩)
      by_cases hr : r = .success
      · subst hr
        rw [visitBlock_cons_success hD] at hx
        rcases ih _ ⟨s.values, s.nextId, s.diags⟩
          (fun o ho => hnr o (List.mem_cons_of_mem _ ho)) x hx with h | h
        · exact h1' x h
        · right
          rw [slotValues_cons]
          exact List.mem_append_right _ h
      · rw [visitBlock_cons_stop hr hD] at hx
        exact h1' x hx

/-- With non-repeating indices, after a successful traversal of `post` the seen
set holds what it held before and every value of a stateful slot of `post`. -/
theorem visitBlock_values_sup (c : OperationName → Option (List Nat)) (d l : List Operation) :
    ∀ (post pre : List Operation) (st : PassState), NonRepeating c post →
      (visitBlock c d l pre post st).1 = .success →
      ∀ x, x ∈ st.values ∨ x ∈ slotValues c post →
        x ∈ (visitBlock c d l pre post st).2.2.values := by
  intro post
  induction post with
  | nil =>
    intro pre st _ _ x hx
    rcases hx with hx | hx
    · exact hx
    · simp [slotValues] at hx
  | cons op rest ih =>
    intro pre st hnr hs x hx
    cases hD : DuplicateValueIfNeeded c (d ++ pre) (rest ++ l)
        ⟨[], op, st.values, st.nextId, st.diags⟩ with
    | mk r s =>
      by_cases hr : r = .success
      · subst hr
        have h1 := duplicateAtIndices_values_sup (d ++ pre) (rest ++ l) (statefulIndices c op)
          (hnr op (List.mem_cons_self _ _)) ⟨[], op, st.values, st.nextId, st.diags⟩
        have h2 := duplicateAtIndices_values_mono (d ++ pre) (rest ++ l) (statefulIndices c op)
          ⟨[], op, st.values, st.nextId, st.diags⟩
        have hD' := hD
        rw [DuplicateValueIfNeeded_eq] at hD'
        rw [hD'] at h1 h2
        rw [visitBlock_cons_success hD] at hs ⊢
        apply ih _ ⟨s.values, s.nextId, s.diags⟩
          (fun o ho => hnr o (List.mem_cons_of_mem _ ho)) hs
        rcases hx with hx | hx
        · exact Or.inl (h2 x hx)
        · rw [slotValues_cons] at hx
          rcases List.mem_append.mp hx with hx | hx
          · obtain ⟨j, hj, hjx⟩ := List.mem_filterMap.mp hx
            exact Or.inl (h1 rfl j hj x hjx)
          · exact Or.inr hx
      · rw [visitBlock_cons_stop hr hD] at hs
        exact absurd hs hr

/-! ## First and later uses of a value -/

theorem duplicateAtIndex_fresh {before after : List Operation} {i : Nat} {s : VisitState}
    {v : Value} (hop : getOperand s.op i = some v) (hv : v ∉ s.values) :
    duplicateAtIndex before after i s = (.success, { s with values := v :: s.values }) := by
  simp only [duplicateAtIndex, hop, hv, if_false]

/-- A successful run of the loop body on a seen value rewires the operand to
result 0 of an operation it has just inserted. -/
theorem duplicateAtIndex_collision {before after : List Operation} {i : Nat} {s : VisitState}
    {v : Value} (hop : getOperand s.op i = some v) (hv : v ∈ s.values)
    (hs : (duplicateAtIndex before after i s).1 = .success) :
    ∃ n, s.nextId ≤ n ∧ n < (duplicateAtIndex before after i s).2.nextId ∧
      getOperand (duplicateAtIndex before after i s).2.op i = some (.opResult n 0) ∧
      ∃ cl ∈ (duplicateAtIndex before after i s).2.created, cl.id = n := by
  rcases duplicateAtIndex_cases before after i s with ⟨h0, h⟩ | ⟨w, h0, hw, h⟩ |
    ⟨w, h0, _, _, r, dg, h, hr⟩ | ⟨w, p, h0, _, _, _, _, h⟩ |
    ⟨w, D, w', Q, h0, _, _, _, _, _, _, _, _, h⟩
  · rw [hop] at h0; exact absurd h0 (by simp)
  · rw [hop] at h0
    simp only [Option.some.injEq] at h0
    subst h0
    exact absurd hv hw
  · rw [h] at hs
    rcases hr with rfl | ⟨rfl, -⟩ <;> simp at hs
  · rw [h]
    exact ⟨s.nextId, le_refl _, by simp, getOperand_setOperand_same hop,
      clone p s.nextId, by simp, rfl⟩
  · rw [h]
    exact ⟨s.nextId + 1, by simp, by simp, getOperand_setOperand_same hop,
      setOperand (clone D (s.nextId + 1)) 0 (.opResult s.nextId 0), by simp, rfl⟩

theorem duplicateAtIndices_append_success {before after : List Operation} {xs ys : List Nat}
    {s : VisitState} (h : (duplicateAtIndices before after (xs ++ ys) s).1 = .success) :
    (duplicateAtIndices before after xs s).1 = .success ∧
    duplicateAtIndices before after (xs ++ ys) s =
      duplicateAtIndices before after ys (duplicateAtIndices before after xs s).2 := by
  rw [duplicateAtIndices_append] at h ⊢
  cases hx : duplicateAtIndices before after xs s with
  | mk r s1 =>
    rw [hx] at h
    cases r with
    | success => exact ⟨rfl, rfl⟩
    | failure => simp at h
    | abort => simp at h

/-- With non-repeating indices, an operand whose value is neither in the seen
set nor at an earlier stateful index of the operation keeps its value, whatever
the outcome of the loop. -/
theorem duplicateAtIndices_first_use (before after : List Operation) (is1 is2 : List Nat)
    (i : Nat) (s : VisitState) (v : Value) (hnd : (is1 ++ i :: is2).Nodup)
    (hop : getOperand s.op i = some v) (hv : v ∉ s.values)
    (hfirst : ∀ j ∈ is1, getOperand s.op j ≠ some v) :
    getOperand (duplicateAtIndices before after (is1 ++ i :: is2) s).2.op i = some v := by
  have hnd' := List.nodup_append.mp hnd
  have hi1 : i ∉ is1 := fun h => hnd'.2.2 h (List.mem_cons_self _ _)
  have hi2 : i ∉ is2 := (List.nodup_cons.mp hnd'.2.1).1
  have h1 := duplicateAtIndices_other before after is1 i hi1 s
  have h2 := duplicateAtIndices_values_sub before after is1 hnd'.1 s
  rw [duplicateAtIndices_append]
  cases hx : duplicateAtIndices before after is1 s with
  | mk r s1 =>
    rw [hx] at h1 h2
    simp only at h1 h2
    have hv1 : v ∉ s1.values := by
      intro hmem
      rcases h2 v hmem with h | ⟨j, hj, h⟩
      · exact hv h
      · exact hfirst j hj h
    have hop1 : getOperand s1.op i = some v := by rw [h1]; exact hop
    cases r with
    | success =>
      simp only
      rw [duplicateAtIndices_cons_success (duplicateAtIndex_fresh hop1 hv1)]
      rw [duplicateAtIndices_other before after is2 i hi2]
      exact hop1
    | failure => exact hop1
    | abort => exact hop1

/-- With non-repeating indices, when the loop succeeds an operand whose value
was in the seen set or at an earlier stateful index of the operation is rewired
to result 0 of an operation inserted by the loop. -/
theorem duplicateAtIndices_later_use (before after : List Operation) (is1 is2 : List Nat)
    (i : Nat) (s : VisitState) (v : Value) (hnd : (is1 ++ i :: is2).Nodup)
    (hop : getOperand s.op i = some v)
    (hseen : v ∈ s.values ∨ ∃ j ∈ is1, getOperand s.op j = some v)
    (hs : (duplicateAtIndices before after (is1 ++ i :: is2) s).1 = .success) :
    ∃ n, s.nextId ≤ n ∧
      getOperand (duplicateAtIndices before after (is1 ++ i :: is2) s).2.op i
        = some (.opResult n 0) ∧
      ∃ cl ∈ (duplicateAtIndices before after (is1 ++ i :: is2) s).2.created, cl.id = n := by
  have hnd' := List.nodup_append.mp hnd
  have hi1 : i ∉ is1 := fun h => hnd'.2.2 h (List.mem_cons_self _ _)
  have hi2 : i ∉ is2 := (List.nodup_cons.mp hnd'.2.1).1
  obtain ⟨hs1, e1⟩ := duplicateAtIndices_append_success hs
  have hop1 : getOperand (duplicateAtIndices before after is1 s).2.op i = some v := by
    rw [duplicateAtIndices_other before after is1 i hi1]; exact hop
  have hv1 : v ∈ (duplicateAtIndices before after is1 s).2.values := by
    rcases hseen with h | ⟨j, hj, h⟩
    · exact duplicateAtIndices_values_mono before after is1 s v h
    · exact duplicateAtIndices_values_sup before after is1 hnd'.1 s hs1 j hj v h
  have hn1 := (duplicateAtIndices_created before after is1 s).1
  rw [e1] at hs ⊢
  generalize (duplicateAtIndices before after is1 s).2 = s1 at hs hop1 hv1 hn1 ⊢
  cases hstep : duplicateAtIndex before after i s1 with
  | mk r s2 =>
    by_cases hr : r = .success
    swap
    · rw [duplicateAtIndices_cons_stop hr hstep] at hs
      exact absurd hs hr
    subst hr
    obtain ⟨n, hn, -, hget, cl, hcl, hid⟩ :=
      duplicateAtIndex_collision hop1 hv1 (by rw [hstep])
    rw [hstep] at hget hcl
    simp only at hget hcl
    rw [duplicateAtIndices_cons_success hstep]
    refine ⟨n, le_trans hn1 hn, ?_, cl, ?_, hid⟩
    · rw [duplicateAtIndices_other before after is2 i hi2]; exact hget
    · obtain ⟨new, hnew, -⟩ := (duplicateAtIndices_created before after is2 s2).2
      rw [hnew]
      exact List.mem_append_left _ hcl

theorem lt_foldr_max_succ (L : List Nat) : ∀ m ∈ L, m < (L.map (· + 1)).foldr max 0 := by
  induction L with
  | nil => intro m hm; simp at hm
  | cons a rest ih =>
    intro m hm
    simp only [List.map_cons, List.foldr_cons]
    rcases List.mem_cons.mp hm with rfl | hm
    · omega
    · have := ih m hm; omega

/-- Every identity mentioned by an operation of `ops` is below `freshId ops`. -/
theorem mentioned_lt_freshId {ops : List Operation} {o : Operation} (ho : o ∈ ops) :
    ∀ m ∈ mentionedIds o, m < freshId ops := by
  intro m hm
  exact lt_foldr_max_succ _ m (List.mem_flatMap.mpr ⟨o, ho, hm⟩)

theorem id_lt_freshId {ops : List Operation} {o : Operation} (ho : o ∈ ops) :
    o.id < freshId ops :=
  mentioned_lt_freshId ho o.id (by simp [mentionedIds])

/-- Where the operation `o` of `A ++ o :: B` ends up: either the traversal
stops in `A` and `o` is untouched, or `o` is visited from the state reached
after `A` and the output holds the operations inserted for it and its visited
form. -/
theorem visitBlock_locate (c : OperationName → Option (List Nat)) (d l A B pre : List Operation)
    (o : Operation) (st : PassState) :
    ((visitBlock c d (o :: B ++ l) pre A st).1 ≠ .success ∧
      (visitBlock c d l pre (A ++ o :: B) st).1 ≠ .success ∧
      (visitBlock c d l pre (A ++ o :: B) st).2.1 =
        (visitBlock c d (o :: B ++ l) pre A st).2.1 ++ o :: B) ∨
    ((visitBlock c d (o :: B ++ l) pre A st).1 = .success ∧
      ∃ tail, (visitBlock c d l pre (A ++ o :: B) st).2.1 =
        (visitBlock c d (o :: B ++ l) pre A st).2.1 ++
          (DuplicateValueIfNeeded c (d ++ (visitBlock c d (o :: B ++ l) pre A st).2.1) (B ++ l)
            ⟨[], o, (visitBlock c d (o :: B ++ l) pre A st).2.2.values,
              (visitBlock c d (o :: B ++ l) pre A st).2.2.nextId,
              (visitBlock c d (o :: B ++ l) pre A st).2.2.diags⟩).2.created ++
          (DuplicateValueIfNeeded c (d ++ (visitBlock c d (o :: B ++ l) pre A st).2.1) (B ++ l)
            ⟨[], o, (visitBlock c d (o :: B ++ l) pre A st).2.2.values,
              (visitBlock c d (o :: B ++ l) pre A st).2.2.nextId,
              (visitBlock c d (o :: B ++ l) pre A st).2.2.diags⟩).2.op :: tail ∧
        ((visitBlock c d l pre (A ++ o :: B) st).1 = .success →
          (DuplicateValueIfNeeded c (d ++ (visitBlock c d (o :: B ++ l) pre A st).2.1) (B ++ l)
            ⟨[], o, (visitBlock c d (o :: B ++ l) pre A st).2.2.values,
              (visitBlock c d (o :: B ++ l) pre A st).2.2.nextId,
              (visitBlock c d (o :: B ++ l) pre A st).2.2.diags⟩).1 = .success)) := by
  rw [visitBlock_append]
  cases hA : visitBlock c d (o :: B ++ l) pre A st with
  | mk r p =>
    obtain ⟨preA, stA⟩ := p
    by_cases hr : r = .success
    swap
    · left
      cases r with
      | success => exact absurd rfl hr
      | failure => simp
      | abort => simp
    subst hr
    right
    refine ⟨rfl, ?_⟩
    simp only
    cases hD : DuplicateValueIfNeeded c (d ++ preA) (B ++ l)
        ⟨[], o, stA.values, stA.nextId, stA.diags⟩ with
    | mk r' s' =>
      by_cases hr' : r' = .success
      · subst hr'
        rw [visitBlock_cons_success hD]
        obtain ⟨tail, h1, -⟩ := visitBlock_frame c d l B (preA ++ s'.created ++ [s'.op])
          ⟨s'.values, s'.nextId, s'.diags⟩
        exact ⟨tail, by rw [h1]; simp, fun _ => rfl⟩
      · rw [visitBlock_cons_stop hr' hD]
        exact ⟨B, by simp, fun h => absurd h hr'⟩

/-- The pass on a function is the traversal of the flattened function. -/
theorem runOnOperation_flat (c : OperationName → Option (List Nat))
    (func : List (List Operation)) :
    (runOnOperation c func).1 =
      (visitBlock c [] [] [] func.flatten ⟨[], freshId func.flatten, []⟩).1 ∧
    (runOnOperation c func).2.1.flatten =
      (visitBlock c [] [] [] func.flatten ⟨[], freshId func.flatten, []⟩).2.1 ∧
    (runOnOperation c func).2.2.values =
      (visitBlock c [] [] [] func.flatten ⟨[], freshId func.flatten, []⟩).2.2.values ∧
    (runOnOperation c func).2.2.nextId =
      (visitBlock c [] [] [] func.flatten ⟨[], freshId func.flatten, []⟩).2.2.nextId := by
  have h := visitBlocks_flat c func [] ⟨[], freshId func.flatten, []⟩
  simp only [List.flatten_nil] at h
  exact ⟨h.1, h.2.1, h.2.2.1, h.2.2.2.1⟩

/-- C3 (amended). Assume the classifier returns no index twice for an
operation. Let `(o, i)` be a stateful slot of the input function holding `v`,
`A` the operations before `o` and `is1` the stateful indices of `o` before `i`.
If no stateful slot of `A` and no index of `is1` holds `v` (first use), the
operation with the identity of `o` still holds `v` at `i` after the pass,
whatever the outcome. If an earlier slot holds `v` and the pass succeeds, the
operation holds at `i` result 0 of an operation of the output whose identity
no operation of the input has. -/
theorem first_use_preserved (c : OperationName → Option (List Nat))
    (func : List (List Operation)) (A B : List Operation) (o : Operation)
    (is1 is2 : List Nat) (i : Nat) (v : Value)
    (hnr : NonRepeating c func.flatten)
    (hsplit : func.flatten = A ++ o :: B)
    (hidx : statefulIndices c o = is1 ++ i :: is2)
    (hop : getOperand o i = some v) :
    ((v ∉ slotValues c A ∧ ∀ j ∈ is1, getOperand o j ≠ some v) →
      ∃ o' ∈ (runOnOperation c func).2.1.flatten, o'.id = o.id ∧ getOperand o' i = some v) ∧
    ((runOnOperation c func).1 = .success →
      (v ∈ slotValues c A ∨ ∃ j ∈ is1, getOperand o j = some v) →
      ∃ o' ∈ (runOnOperation c func).2.1.flatten, o'.id = o.id ∧
        ∃ n, getOperand o' i = some (.opResult n 0) ∧
          (∀ x ∈ func.flatten, x.id ≠ n) ∧
          ∃ cl ∈ (runOnOperation c func).2.1.flatten, cl.id = n) := by
  obtain ⟨hr, hout, -, -⟩ := runOnOperation_flat c func
  have hfr : ∀ x ∈ func.flatten, x.id < freshId func.flatten := fun x hx => id_lt_freshId hx
  rw [hr, hout]
  generalize freshId func.flatten = n0 at hfr ⊢
  rw [hsplit] at hfr ⊢
  have hnrA : NonRepeating c A := fun x hx => hnr x (by rw [hsplit]; simp [hx])
  have hnd : (is1 ++ i :: is2).Nodup := by
    rw [← hidx]; exact hnr o (by rw [hsplit]; simp)
  have hsub := visitBlock_values_sub c [] (o :: B ++ []) A [] ⟨[], n0, []⟩ hnrA
  have hsup := visitBlock_values_sup c [] (o :: B ++ []) A [] ⟨[], n0, []⟩ hnrA
  have hnext := visitBlock_nextId c [] (o :: B ++ []) A [] ⟨[], n0, []⟩
  have hloc := visitBlock_locate c [] [] A B [] o ⟨[], n0, []⟩
  generalize visitBlock c [] (o :: B ++ []) [] A ⟨[], n0, []⟩ = RA
    at hsub hsup hnext hloc
  obtain ⟨rA, preA, stA⟩ := RA
  simp only at hsub hsup hnext hloc
  simp only [DuplicateValueIfNeeded_eq, hidx, List.nil_append, List.append_nil] at hloc
  constructor
  · rintro ⟨hvA, hfirst⟩
    rcases hloc with ⟨-, -, h⟩ | ⟨-, tail, h, -⟩
    · exact ⟨o, by rw [h]; simp, rfl, hop⟩
    · refine ⟨(duplicateAtIndices preA B (is1 ++ i :: is2)
        ⟨[], o, stA.values, stA.nextId, stA.diags⟩).2.op, by rw [h]; simp, ?_, ?_⟩
      · exact (duplicateAtIndices_op _ _ _ _).1
      · apply duplicateAtIndices_first_use _ _ is1 is2 i _ v hnd hop _ hfirst
        intro hmem
        rcases hsub v hmem with h' | h'
        · simp at h'
        · exact hvA h'
  · intro hs hseen
    rcases hloc with ⟨-, h, -⟩ | ⟨hA, tail, h, hsD⟩
    · exact absurd hs h
    · have hseen' : v ∈ stA.values ∨ ∃ j ∈ is1, getOperand o j = some v := by
        rcases hseen with h' | h'
        · exact Or.inl (hsup hA v (Or.inr h'))
        · exact Or.inr h'
      obtain ⟨n, hn, hget, cl, hcl, hid⟩ :=
        duplicateAtIndices_later_use _ _ is1 is2 i _ v hnd hop hseen' (hsD hs)
      refine ⟨(duplicateAtIndices preA B (is1 ++ i :: is2)
        ⟨[], o, stA.values, stA.nextId, stA.diags⟩).2.op, by rw [h]; simp,
        (duplicateAtIndices_op _ _ _ _).1, n, hget, ?_, cl, ?_, hid⟩
      · intro x hx
        have := hfr x hx
        simp only at hn
        omega
      · rw [h]; simp [hcl]

/-- Witness of `first_use_preserved`: in scenario A the slot of `X` is the
first use of `C` and keeps it, the slot of `Y` is a later use and holds the
result of a new operation. -/
theorem first_use_preserved_witness :
    (∃ o' ∈ (runOnOperation exampleClassifier scenarioA).2.1.flatten,
      o'.id = exX.id ∧ getOperand o' 0 = some (.opResult 1 0)) ∧
    (∃ o' ∈ (runOnOperation exampleClassifier scenarioA).2.1.flatten, o'.id = exY.id ∧
      ∃ n, getOperand o' 0 = some (.opResult n 0) ∧
        (∀ x ∈ scenarioA.flatten, x.id ≠ n) ∧
        ∃ cl ∈ (runOnOperation exampleClassifier scenarioA).2.1.flatten, cl.id = n) :=
  ⟨(first_use_preserved exampleClassifier scenarioA [exC] [exY] exX [] [] 0 (.opResult 1 0)
      (by decide) (by decide) (by decide) (by decide)).1 ⟨by decide, by decide⟩,
    (first_use_preserved exampleClassifier scenarioA [exC, exX] [] exY [] [] 0 (.opResult 1 0)
      (by decide) (by decide) (by decide) (by decide)).2 (by decide) (Or.inl (by decide))⟩

/-- C3 (counterexample). With a classifier that reports index 0 twice, the
only stateful slot holding the result of `C` in the input, operand 0 of `X`, is
a first use, yet after the (successful) pass the operation with the identity of
`X` holds the result of a clone there. -/
theorem first_use_lost_with_repeated_index :
    statefulIndices repeatingClassifier exX = [] ++ 0 :: [0] ∧
    getOperand exX 0 = some (.opResult 1 0) ∧
    Value.opResult 1 0 ∉ slotValues repeatingClassifier [exC] ∧
    (runOnOperation repeatingClassifier [[exC, exX]]).1 = .success ∧
    ¬ ∃ o' ∈ (runOnOperation repeatingClassifier [[exC, exX]]).2.1.flatten,
      o'.id = exX.id ∧ getOperand o' 0 = some (.opResult 1 0) := by
  decide

/-! ## The IR stays well formed -/

theorem IRInv_of_wellFormed {c : OperationName → Option (List Nat)} {ops : List Operation}
    (hwf : WellFormed ops) (hir : InRange c ops) (hnr : NonRepeating c ops) :
    IRInv c ops (freshId ops) :=
  ⟨hwf.1, fun o ho => ⟨hwf.2 o ho, hir o ho, hnr o ho, mentioned_lt_freshId ho⟩⟩

theorem IRInv.wellFormed {c : OperationName → Option (List Nat)} {ops : List Operation}
    {n : Nat} (h : IRInv c ops n) : WellFormed ops ∧ InRange c ops ∧ NonRepeating c ops :=
  ⟨⟨h.1, fun o ho => (h.2 o ho).1⟩, fun o ho => (h.2 o ho).2.1, fun o ho => (h.2 o ho).2.2.1⟩

theorem mem_mentionedIds_of_operand {o : Operation} {x : Value} {m : Nat}
    (hx : x ∈ o.operands) (hm : x.owner? = some m) : m ∈ mentionedIds o := by
  simp only [mentionedIds, List.mem_cons, List.mem_filterMap]
  exact Or.inr ⟨x, hx, hm⟩

theorem mem_operands_of_getOperand {o : Operation} {j : Nat} {x : Value}
    (h : getOperand o j = some x) : x ∈ o.operands :=
  List.getElem?_mem h

/-- An operation whose name and number of operands are those of `o`, and which
mentions nothing beyond `n'`, is fine when `o` is. -/
theorem OpOK_of_same {c : OperationName → Option (List Nat)} {n n' : Nat}
    {o : Operation} (o' : Operation) (h : OpOK c n o) (hname : o'.name = o.name)
    (hlen : o'.operands.length = o.operands.length)
    (hm : ∀ m ∈ mentionedIds o', m < n') : OpOK c n' o' := by
  obtain ⟨⟨hs1, hs2⟩, hr, hnd, -⟩ := h
  have hst : statefulIndices c o' = statefulIndices c o := by
    simp [statefulIndices, hname]
  refine ⟨⟨?_, ?_⟩, ?_, ?_, hm⟩
  · intro hc
    have : matchConstant o = true := by
      simpa [matchConstant, hname] using hc
    have h0 := hs1 this
    rw [h0] at hlen
    exact List.length_eq_zero.mp hlen
  · intro hd
    rw [hlen]; exact hs2 (hname ▸ hd)
  · rw [hst, hlen]; exact hr
  · rw [hst]; exact hnd

theorem mentionedIds_setOperand {o : Operation} {j n k m : Nat}
    (h : m ∈ mentionedIds (setOperand o j (.opResult n k))) : m ∈ mentionedIds o ∨ m = n := by
  simp only [mentionedIds, setOperand, List.mem_cons, List.mem_filterMap] at h ⊢
  rcases h with h | ⟨x, hx, hm⟩
  · exact Or.inl (Or.inl h)
  · rcases List.mem_or_eq_of_mem_set hx with hx | rfl
    · exact Or.inl (Or.inr ⟨x, hx, hm⟩)
    · right
      simp only [Value.owner?, Option.some.injEq] at hm
      exact hm.symm

/-- Inserting operations with new identities before `op` and replacing `op`
by an operation with its identity keeps the IR invariant. -/
theorem IRInv_insert {c : OperationName → Option (List Nat)} {X Y : List Operation}
    {op : Operation} {n : Nat} (dups : List Operation) (op' : Operation) (n' : Nat)
    (h : IRInv c (X ++ op :: Y) n) (hn : n ≤ n')
    (hid : op'.id = op.id) (hop' : OpOK c n' op')
    (hdn : (dups.map Operation.id).Nodup)
    (hd : ∀ d ∈ dups, n ≤ d.id ∧ OpOK c n' d) :
    IRInv c (X ++ dups ++ op' :: Y) n' := by
  obtain ⟨hids, hall⟩ := h
  constructor
  · have hperm : List.Perm ((X ++ dups ++ op' :: Y).map Operation.id)
        (dups.map Operation.id ++ (X ++ op :: Y).map Operation.id) := by
      simp only [List.map_append, List.map_cons, hid, List.append_assoc]
      exact List.perm_append_comm_assoc _ _ _
    rw [hperm.nodup_iff, List.nodup_append]
    refine ⟨hdn, hids, ?_⟩
    intro a ha hb
    obtain ⟨d', hd', rfl⟩ := List.mem_map.mp ha
    obtain ⟨o, ho, he⟩ := List.mem_map.mp hb
    have h1 := (hd d' hd').1
    have h2 := (hall o ho).2.2.2 o.id (by simp [mentionedIds])
    omega
  · intro o ho
    simp only [List.mem_append, List.mem_cons] at ho
    have hold : ∀ x ∈ X ++ op :: Y, OpOK c n' x := by
      intro x hx
      obtain ⟨a, b, c', e⟩ := hall x hx
      exact ⟨a, b, c', fun m hm => lt_of_lt_of_le (e m hm) hn⟩
    rcases ho with (ho | ho) | ho | ho
    · exact hold o (by simp [ho])
    · exact (hd o ho).2
    · rw [ho]; exact hop'
    · exact hold o (by simp [ho])

theorem getDefiningOp_mem {ir : List Operation} {v : Value} {p : Operation}
    (h : getDefiningOp ir v = some p) : p ∈ ir ∧ v.owner? = some p.id := by
  cases v with
  | blockArgument a => simp [getDefiningOp] at h
  | opResult owner k =>
    simp only [getDefiningOp] at h
    have h1 := List.find?_some h
    simp only [beq_iff_eq] at h1
    exact ⟨List.mem_of_find?_eq_some h, by simp [Value.owner?, h1]⟩

theorem OpOK_clone {c : OperationName → Option (List Nat)} {n n' k : Nat} {p : Operation}
    (h : OpOK c n p) (hk : k < n') (hn : n ≤ n') : OpOK c n' (clone p k) := by
  apply OpOK_of_same (clone p k) h rfl rfl
  intro m hm
  simp only [mentionedIds, clone, List.mem_cons] at hm
  rcases hm with rfl | hm
  · exact hk
  · exact lt_of_lt_of_le (h.2.2.2 m (by simp [mentionedIds, hm])) hn

theorem OpOK_setOperand {c : OperationName → Option (List Nat)} {n n' j k r : Nat}
    {o : Operation} (h : OpOK c n o) (hk : k < n') (hn : n ≤ n') :
    OpOK c n' (setOperand o j (.opResult k r)) := by
  apply OpOK_of_same (setOperand o j (.opResult k r)) h rfl (by simp [setOperand])
  intro m hm
  rcases mentionedIds_setOperand hm with hm | rfl
  · exact lt_of_lt_of_le (h.2.2.2 m hm) hn
  · exact hk

/-- The loop body keeps the IR invariant, whatever its outcome. -/
theorem duplicateAtIndex_IRInv (c : OperationName → Option (List Nat))
    (before after : List Operation) (i : Nat) (s : VisitState)
    (h : IRInv c (before ++ s.created ++ s.op :: after) s.nextId) :
    IRInv c (before ++ (duplicateAtIndex before after i s).2.created ++
      (duplicateAtIndex before after i s).2.op :: after)
      (duplicateAtIndex before after i s).2.nextId := by
  have hopok : OpOK c s.nextId s.op := h.2 s.op (by simp)
  rcases duplicateAtIndex_cases before after i s with ⟨-, e⟩ | ⟨v, -, -, e⟩ |
    ⟨v, -, -, -, r, dg, e, -⟩ | ⟨v, p, -, -, -, hp, -, e⟩ |
    ⟨v, D, w, Q, -, -, -, hD, -, -, -, hQ, -, e⟩
  · rw [e]; exact h
  · rw [e]; exact h
  · rw [e]; exact h
  · rw [e]
    have hpok := h.2 p (getDefiningOp_mem hp).1
    have := IRInv_insert [clone p s.nextId]
      (setOperand s.op i (.opResult s.nextId 0)) (s.nextId + 1) h (Nat.le_succ _) rfl
      (OpOK_setOperand hopok (Nat.lt_succ_self _) (Nat.le_succ _)) (by simp)
      (by
        intro d hd
        simp only [List.mem_singleton] at hd
        subst hd
        exact ⟨le_refl _, OpOK_clone hpok (Nat.lt_succ_self _) (Nat.le_succ _)⟩)
    simpa only [List.append_assoc] using this
  · rw [e]
    have hDok := h.2 D (getDefiningOp_mem hD).1
    have hQok := h.2 Q (getDefiningOp_mem hQ).1
    have := IRInv_insert
      [clone Q s.nextId, setOperand (clone D (s.nextId + 1)) 0 (.opResult s.nextId 0)]
      (setOperand s.op i (.opResult (s.nextId + 1) 0)) (s.nextId + 2)
      h (by omega) rfl
      (OpOK_setOperand hopok (by omega) (by omega)) (by simp [clone, setOperand])
      (by
        intro d hd
        simp only [List.mem_cons, List.mem_singleton, List.not_mem_nil, or_false] at hd
        rcases hd with rfl | rfl
        · exact ⟨le_refl _, OpOK_clone hQok (by omega) (by omega)⟩
        · refine ⟨by simp [clone, setOperand], ?_⟩
          have h1 : OpOK c (s.nextId + 2) (clone D (s.nextId + 1)) :=
            OpOK_clone hDok (by omega) (by omega)
          exact OpOK_setOperand h1 (by omega) (le_refl _))
    simpa only [List.append_assoc] using this

theorem duplicateAtIndices_IRInv (c : OperationName → Option (List Nat))
    (before after : List Operation) (idxs : List Nat) (s : VisitState)
    (h : IRInv c (before ++ s.created ++ s.op :: after) s.nextId) :
    IRInv c (before ++ (duplicateAtIndices before after idxs s).2.created ++
      (duplicateAtIndices before after idxs s).2.op :: after)
      (duplicateAtIndices before after idxs s).2.nextId :=
  duplicateAtIndices_rel
    (fun a b => IRInv c (before ++ a.created ++ a.op :: after) a.nextId →
      IRInv c (before ++ b.created ++ b.op :: after) b.nextId)
    (fun _ h => h) (fun _ _ _ h1 h2 h => h2 (h1 h)) before after idxs
    (fun i _ s => duplicateAtIndex_IRInv c before after i s) s h

/-- The traversal keeps the IR invariant, whatever its outcome. -/
theorem visitBlock_IRInv (c : OperationName → Option (List Nat)) (d l : List Operation) :
    ∀ (post pre : List Operation) (st : PassState),
      IRInv c (d ++ pre ++ post ++ l) st.nextId →
      IRInv c (d ++ (visitBlock c d l pre post st).2.1 ++ l)
        (visitBlock c d l pre post st).2.2.nextId := by
  intro post
  induction post with
  | nil => intro pre st h; simpa [visitBlock_nil] using h
  | cons op rest ih =>
    intro pre st h
    have h0 : IRInv c (d ++ pre ++ [] ++ op :: (rest ++ l)) st.nextId := by
      simpa only [List.append_assoc, List.cons_append, List.nil_append, List.append_nil] using h
    have h1 := duplicateAtIndices_IRInv c (d ++ pre) (rest ++ l) (statefulIndices c op)
      ⟨[], op, st.values, st.nextId, st.diags⟩ h0
    cases hD : DuplicateValueIfNeeded c (d ++ pre) (rest ++ l)
        ⟨[], op, st.values, st.nextId, st.diags⟩ with
    | mk r s =>
      have hD' := hD
      rw [DuplicateValueIfNeeded_eq] at hD'
      rw [hD'] at h1
      simp only at h1
      by_cases hr : r = .success
      · subst hr
        rw [visitBlock_cons_success hD]
        apply ih
        simpa only [List.append_assoc, List.cons_append, List.nil_append] using h1
      · rw [visitBlock_cons_stop hr hD]
        simpa only [List.append_assoc, List.cons_append, List.nil_append] using h1

/-! ## No two visited stateful slots hold the same value -/

theorem SlotInv_perm {n0 : Nat} {P P' values : List Value} (hp : List.Perm P' P)
    (h : SlotInv n0 P values) : SlotInv n0 P' values :=
  ⟨hp.nodup_iff.mpr h.1, fun x hx => h.2.1 x (hp.mem_iff.mp hx),
    fun x hx => hp.mem_iff.mpr (h.2.2 x hx)⟩

theorem SlotInv_add_new {n0 : Nat} {P values N : List Value} (h : SlotInv n0 P values)
    (hN : N.Nodup) (hnew : ∀ x ∈ N, isNew n0 x ∧ x ∉ P) : SlotInv n0 (P ++ N) values := by
  refine ⟨List.nodup_append.mpr ⟨h.1, hN, fun x hx hx' => (hnew x hx').2 hx⟩, ?_, ?_⟩
  · intro x hx
    rcases List.mem_append.mp hx with hx | hx
    · exact h.2.1 x hx
    · exact Or.inr (hnew x hx).1
  · intro x hx
    exact List.mem_append_left _ (h.2.2 x hx)

theorem SlotInv_add_fresh {n0 : Nat} {P values : List Value} {v : Value}
    (h : SlotInv n0 P values) (hv : v ∉ values) (hold : isOld n0 v) :
    SlotInv n0 (P ++ [v]) (v :: values) := by
  have hvP : v ∉ P := by
    intro hmem
    rcases h.2.1 v hmem with h1 | ⟨m, hm, hle⟩
    · exact hv h1
    · have := hold m hm; omega
  refine ⟨List.nodup_append.mpr ⟨h.1, List.nodup_singleton v, ?_⟩, ?_, ?_⟩
  · intro x hx hx'
    simp only [List.mem_singleton] at hx'
    subst hx'
    exact hvP hx
  · intro x hx
    rcases List.mem_append.mp hx with hx | hx
    · rcases h.2.1 x hx with h1 | h1
      · exact Or.inl (List.mem_cons_of_mem _ h1)
      · exact Or.inr h1
    · simp only [List.mem_singleton] at hx
      subst hx
      exact Or.inl (List.mem_cons_self _ _)
  · intro x hx
    rcases List.mem_cons.mp hx with rfl | hx
    · simp
    · exact List.mem_append_left _ (h.2.2 x hx)

theorem slotValues_no_operands (c : OperationName → Option (List Nat)) {o : Operation}
    (h : o.operands = []) : slotValues c [o] = [] := by
  simp only [slotValues, List.flatMap_cons, List.flatMap_nil, List.append_nil]
  rw [List.filterMap_eq_nil_iff]
  intro j _
  simp [getOperand, h]

/-- The stateful slots of an operation with the single operand `x` hold at most
`x`, once. -/
theorem slotValues_one_operand (c : OperationName → Option (List Nat)) {o : Operation}
    {x : Value} (h : o.operands = [x]) (hnd : (statefulIndices c o).Nodup) :
    (slotValues c [o]).Nodup ∧ ∀ y ∈ slotValues c [o], y = x := by
  simp only [slotValues, List.flatMap_cons, List.flatMap_nil, List.append_nil]
  constructor
  · apply List.Nodup.filterMap _ hnd
    intro a a' b hb hb'
    simp only [getOperand, h, Option.mem_def] at hb hb'
    have ha : a = 0 := by
      rcases a with _ | a
      · rfl
      · simp at hb
    have ha' : a' = 0 := by
      rcases a' with _ | a'
      · rfl
      · simp at hb'
    rw [ha, ha']
  · intro y hy
    obtain ⟨j, -, hj⟩ := List.mem_filterMap.mp hy
    simp only [getOperand, h] at hj
    rcases j with _ | j
    · simpa using hj.symm
    · simp at hj

/-- Every value held by a visited stateful slot is an operand of an operation
of the IR, so its owner has been allocated. -/
theorem visitedSlotValues_lt {c : OperationName → Option (List Nat)}
    {before after : List Operation} {s : VisitState} (ds : List Nat)
    (hIR : IRInv c (before ++ s.created ++ s.op :: after) s.nextId) :
    ∀ x ∈ visitedSlotValues c before s ds, ∀ m, x.owner? = some m → m < s.nextId := by
  intro x hx m hm
  simp only [visitedSlotValues, List.mem_append] at hx
  rcases hx with hx | hx
  · obtain ⟨o, ho, j, -, hj⟩ := mem_slotValues.mp hx
    exact (hIR.2 o (by simp only [List.mem_append] at ho ⊢; exact Or.inl ho)).2.2.2 m
      (mem_mentionedIds_of_operand (mem_operands_of_getOperand hj) hm)
  · obtain ⟨j, -, hj⟩ := List.mem_filterMap.mp hx
    exact (hIR.2 s.op (by simp)).2.2.2 m
      (mem_mentionedIds_of_operand (mem_operands_of_getOperand hj) hm)

theorem visitedSlotValues_fresh (c : OperationName → Option (List Nat))
    (before : List Operation) (s : VisitState) (ds : List Nat) (j : Nat) (v : Value)
    (vals : List Value) (hop : getOperand s.op j = some v) :
    visitedSlotValues c before { s with values := vals } (ds ++ [j]) =
      visitedSlotValues c before s ds ++ [v] := by
  simp [visitedSlotValues, List.filterMap_append, hop]

theorem visitedSlotValues_step (c : OperationName → Option (List Nat))
    (before : List Operation) (s : VisitState) (ds : List Nat) (j n : Nat) (v nv : Value)
    (dups : List Operation) (hop : getOperand s.op j = some v) (hj : j ∉ ds) :
    List.Perm
      (visitedSlotValues c before
        { s with created := s.created ++ dups, op := setOperand s.op j nv, nextId := n }
        (ds ++ [j]))
      (visitedSlotValues c before s ds ++ (slotValues c dups ++ [nv])) := by
  have h1 : ds.filterMap (getOperand (setOperand s.op j nv)) = ds.filterMap (getOperand s.op) := by
    apply List.filterMap_congr
    intro x hx
    exact getOperand_setOperand_ne (fun e => hj (e ▸ hx))
  simp only [visitedSlotValues, List.filterMap_append, h1, slotValues_append,
    List.filterMap_cons, List.filterMap_nil, getOperand_setOperand_same hop, List.append_assoc]
  exact List.Perm.append_left _ (List.Perm.append_left _ (List.perm_append_comm_assoc _ _ _))

/-- A successful run of the loop body keeps the slot invariant. -/
theorem duplicateAtIndex_SlotInv (c : OperationName → Option (List Nat)) (n0 : Nat)
    (before after : List Operation) (ds : List Nat) (j : Nat) (s : VisitState)
    (hIR : IRInv c (before ++ s.created ++ s.op :: after) s.nextId) (hn0 : n0 ≤ s.nextId)
    (hj : j ∉ ds) (hold : ∀ x, getOperand s.op j = some x → isOld n0 x)
    (hS : SlotInv n0 (visitedSlotValues c before s ds) s.values)
    (hsucc : (duplicateAtIndex before after j s).1 = .success) :
    SlotInv n0 (visitedSlotValues c before (duplicateAtIndex before after j s).2 (ds ++ [j]))
      (duplicateAtIndex before after j s).2.values := by
  have hlt := visitedSlotValues_lt ds hIR
  rcases duplicateAtIndex_cases before after j s with ⟨-, e⟩ | ⟨v, hop, hv, e⟩ |
    ⟨v, -, -, -, r, dg, e, hr⟩ | ⟨v, p, hop, -, -, hp, hpc, e⟩ |
    ⟨v, D, w, Q, hop, -, -, hD, -, hDq, hw, hQ, hQc, e⟩
  · rw [e] at hsucc; simp at hsucc
  · rw [e]
    simp only
    rw [visitedSlotValues_fresh c before s ds j v _ hop]
    exact SlotInv_add_fresh hS hv (hold v hop)
  · rw [e] at hsucc
    rcases hr with rfl | ⟨rfl, -⟩ <;> simp at hsucc
  · rw [e]
    simp only
    apply SlotInv_perm (visitedSlotValues_step c before s ds j _ v _ _ hop hj)
    have hpz : (clone p s.nextId).operands = [] :=
      (hIR.2 p (getDefiningOp_mem hp).1).1.1 hpc
    rw [slotValues_no_operands c hpz, List.nil_append]
    apply SlotInv_add_new hS (List.nodup_singleton _)
    intro x hx
    simp only [List.mem_singleton] at hx
    subst hx
    refine ⟨⟨s.nextId, rfl, hn0⟩, fun hmem => ?_⟩
    have := hlt _ hmem s.nextId rfl
    omega
  · rw [e]
    simp only
    apply SlotInv_perm (visitedSlotValues_step c before s ds j _ v _ _ hop hj)
    have hDok := hIR.2 D (getDefiningOp_mem hD).1
    have hQz : (clone Q s.nextId).operands = [] :=
      (hIR.2 Q (getDefiningOp_mem hQ).1).1.1 hQc
    have hD1 : (setOperand (clone D (s.nextId + 1)) 0 (.opResult s.nextId 0)).operands =
        [.opResult s.nextId 0] := by
      have hlen := hDok.1.2 hDq
      simp only [setOperand, clone]
      match hD' : D.operands, hlen with
      | [a], _ => rfl
    have hDnd : (statefulIndices c
        (setOperand (clone D (s.nextId + 1)) 0 (.opResult s.nextId 0))).Nodup := hDok.2.2.1
    obtain ⟨hE1, hE2⟩ := slotValues_one_operand c hD1 hDnd
    have hsplit : slotValues c [clone Q s.nextId,
        setOperand (clone D (s.nextId + 1)) 0 (.opResult s.nextId 0)] =
        slotValues c [setOperand (clone D (s.nextId + 1)) 0 (.opResult s.nextId 0)] := by
      show slotValues c ([clone Q s.nextId] ++
        [setOperand (clone D (s.nextId + 1)) 0 (.opResult s.nextId 0)]) = _
      rw [slotValues_append, slotValues_no_operands c hQz, List.nil_append]
    rw [hsplit]
    apply SlotInv_add_new hS
    · refine List.nodup_append.mpr ⟨hE1, List.nodup_singleton _, ?_⟩
      intro x hx hx'
      have := hE2 x hx
      simp only [List.mem_singleton] at hx'
      rw [this] at hx'
      simp at hx'
    · intro x hx
      rcases List.mem_append.mp hx with hx | hx
      · have := hE2 x hx
        subst this
        refine ⟨⟨s.nextId, rfl, hn0⟩, fun hmem => ?_⟩
        have := hlt _ hmem s.nextId rfl
        omega
      · simp only [List.mem_singleton] at hx
        subst hx
        refine ⟨⟨s.nextId + 1, rfl, by omega⟩, fun hmem => ?_⟩
        have := hlt _ hmem (s.nextId + 1) rfl
        omega

/-- A successful run of the loop over the indices keeps the slot invariant. -/
theorem duplicateAtIndices_SlotInv (c : OperationName → Option (List Nat)) (n0 : Nat)
    (before after : List Operation) :
    ∀ (rs ds : List Nat) (s : VisitState),
      IRInv c (before ++ s.created ++ s.op :: after) s.nextId → n0 ≤ s.nextId →
      (ds ++ rs).Nodup →
      (∀ j ∈ rs, ∀ x, getOperand s.op j = some x → isOld n0 x) →
      SlotInv n0 (visitedSlotValues c before s ds) s.values →
      (duplicateAtIndices before after rs s).1 = .success →
      SlotInv n0 (visitedSlotValues c before (duplicateAtIndices before after rs s).2 (ds ++ rs))
        (duplicateAtIndices before after rs s).2.values := by
  intro rs
  induction rs with
  | nil => intro ds s _ _ _ _ hS _; simpa [duplicateAtIndices_nil] using hS
  | cons j rest ih =>
    intro ds s hIR hn0 hnd hold hS hsucc
    have hnd' := List.nodup_append.mp hnd
    have hj : j ∉ ds := fun h => hnd'.2.2 h (List.mem_cons_self _ _)
    have hIR1 := duplicateAtIndex_IRInv c before after j s hIR
    have hn1 := (duplicateAtIndex_created before after j s).1
    have hoth := fun k hk => duplicateAtIndex_other before after j k hk s
    have hstep := duplicateAtIndex_SlotInv c n0 before after ds j s hIR hn0 hj
      (hold j (List.mem_cons_self _ _)) hS
    cases h : duplicateAtIndex before after j s with
    | mk r s1 =>
      rw [h] at hIR1 hn1 hoth hstep
      simp only at hIR1 hn1 hoth hstep
      by_cases hr : r = .success
      swap
      · rw [duplicateAtIndices_cons_stop hr h] at hsucc
        exact absurd hsucc hr
      subst hr
      rw [duplicateAtIndices_cons_success h] at hsucc ⊢
      have := ih (ds ++ [j]) s1 hIR1 (le_trans hn0 hn1)
        (by simpa only [List.append_assoc, List.singleton_append] using hnd)
        (by
          intro k hk x hx
          have hne : k ≠ j := fun e => (List.nodup_cons.mp hnd'.2.1).1 (e ▸ hk)
          rw [hoth k hne] at hx
          exact hold k (List.mem_cons_of_mem _ hk) x hx)
        (hstep rfl) hsucc
      simpa only [List.append_assoc, List.singleton_append] using this

/-- A successful traversal keeps the slot invariant: no two stateful slots of
the operations visited so far hold the same value. -/
theorem visitBlock_SlotInv (c : OperationName → Option (List Nat)) (n0 : Nat)
    (d l : List Operation) :
    ∀ (post pre : List Operation) (st : PassState),
      IRInv c (d ++ pre ++ post ++ l) st.nextId → n0 ≤ st.nextId →
      (∀ o ∈ post, ∀ x ∈ o.operands, isOld n0 x) →
      SlotInv n0 (slotValues c (d ++ pre)) st.values →
      (visitBlock c d l pre post st).1 = .success →
      SlotInv n0 (slotValues c (d ++ (visitBlock c d l pre post st).2.1))
        (visitBlock c d l pre post st).2.2.values := by
  intro post
  induction post with
  | nil => intro pre st _ _ _ hS _; simpa [visitBlock_nil] using hS
  | cons op rest ih =>
    intro pre st hIR hn0 hold hS hsucc
    have h0 : IRInv c (d ++ pre ++ [] ++ op :: (rest ++ l)) st.nextId := by
      simpa only [List.append_assoc, List.cons_append, List.nil_append, List.append_nil]
        using hIR
    have hIR1 := duplicateAtIndices_IRInv c (d ++ pre) (rest ++ l) (statefulIndices c op)
      ⟨[], op, st.values, st.nextId, st.diags⟩ h0
    have hn1 := (duplicateAtIndices_created (d ++ pre) (rest ++ l) (statefulIndices c op)
      ⟨[], op, st.values, st.nextId, st.diags⟩).1
    have hname := (duplicateAtIndices_op (d ++ pre) (rest ++ l) (statefulIndices c op)
      ⟨[], op, st.values, st.nextId, st.diags⟩).2.1
    have hstep := duplicateAtIndices_SlotInv c n0 (d ++ pre) (rest ++ l)
      (statefulIndices c op) [] ⟨[], op, st.values, st.nextId, st.diags⟩ h0 hn0
      (by simpa using (h0.2 op (by simp)).2.2.1)
      (fun j _ x hx => hold op (List.mem_cons_self _ _) x (mem_operands_of_getOperand hx))
      (by simpa [visitedSlotValues] using hS)
    cases hD : DuplicateValueIfNeeded c (d ++ pre) (rest ++ l)
        ⟨[], op, st.values, st.nextId, st.diags⟩ with
    | mk r s =>
      have hD' := hD
      rw [DuplicateValueIfNeeded_eq] at hD'
      rw [hD'] at hIR1 hn1 hname hstep
      simp only at hIR1 hn1 hname hstep
      by_cases hr : r = .success
      swap
      · rw [visitBlock_cons_stop hr hD] at hsucc
        exact absurd hsucc hr
      subst hr
      rw [visitBlock_cons_success hD] at hsucc ⊢
      apply ih (pre ++ s.created ++ [s.op]) ⟨s.values, s.nextId, s.diags⟩ _
        (le_trans hn0 hn1) (fun o ho => hold o (List.mem_cons_of_mem _ ho)) _ hsucc
      · simpa only [List.append_assoc, List.cons_append, List.nil_append] using hIR1
      · have hst : statefulIndices c s.op = statefulIndices c op := by
          simp [statefulIndices, hname]
        have := hstep rfl
        simpa [visitedSlotValues, slotValues_append, slotValues, hst] using this

/-- Two indices of a duplicate-free `filterMap` that give the same value are
equal. -/
theorem filterMap_nodup_inj {f : Nat → Option Value} :
    ∀ (idxs : List Nat), (idxs.filterMap f).Nodup →
      ∀ i ∈ idxs, ∀ j ∈ idxs, ∀ v, f i = some v → f j = some v → i = j := by
  intro idxs
  induction idxs with
  | nil => intro _ i hi; simp at hi
  | cons a rest ih =>
    intro hnd i hi j hj v hvi hvj
    cases ha : f a with
    | none =>
      rw [List.filterMap_cons_none ha] at hnd
      have hi' : i ∈ rest := by
        rcases List.mem_cons.mp hi with rfl | h
        · rw [ha] at hvi; simp at hvi
        · exact h
      have hj' : j ∈ rest := by
        rcases List.mem_cons.mp hj with rfl | h
        · rw [ha] at hvj; simp at hvj
        · exact h
      exact ih hnd i hi' j hj' v hvi hvj
    | some b =>
      rw [List.filterMap_cons_some ha] at hnd
      obtain ⟨hb, hnd'⟩ := List.nodup_cons.mp hnd
      rcases List.mem_cons.mp hi with rfl | hi' <;> rcases List.mem_cons.mp hj with rfl | hj'
      · rfl
      · exfalso
        rw [ha] at hvi
        simp only [Option.some.injEq] at hvi
        subst hvi
        exact hb (List.mem_filterMap.mpr ⟨j, hj', hvj⟩)
      · exfalso
        rw [ha] at hvj
        simp only [Option.some.injEq] at hvj
        subst hvj
        exact hb (List.mem_filterMap.mpr ⟨i, hi', hvi⟩)
      · exact ih hnd' i hi' j hj' v hvi hvj

/-- When the values held by the stateful slots of `ops` are pairwise distinct
as a list, two stateful slots holding the same value are the same slot. -/
theorem slots_eq_of_nodup {c : OperationName → Option (List Nat)} {ops : List Operation}
    (h : (slotValues c ops).Nodup) :
    ∀ o1 ∈ ops, ∀ o2 ∈ ops, ∀ i1 ∈ statefulIndices c o1, ∀ i2 ∈ statefulIndices c o2,
      ∀ v, getOperand o1 i1 = some v → getOperand o2 i2 = some v → o1 = o2 ∧ i1 = i2 := by
  intro o1 h1 o2 h2 i1 hi1 i2 hi2 v hv1 hv2
  obtain ⟨hin, hpw⟩ := List.nodup_flatMap.mp h
  have heq : o1 = o2 := by
    by_contra hne
    have hsym : Symmetric (Function.onFun List.Disjoint
        (fun o => (statefulIndices c o).filterMap (getOperand o))) :=
      fun a b hab => List.Disjoint.symm hab
    have := List.Pairwise.forall hsym hpw h1 h2 hne
    exact this (List.mem_filterMap.mpr ⟨i1, hi1, hv1⟩) (List.mem_filterMap.mpr ⟨i2, hi2, hv2⟩)
  subst heq
  exact ⟨rfl, filterMap_nodup_inj _ (hin o1 h1) i1 hi1 i2 hi2 v hv1 hv2⟩

/-- C1. No aliasing after success: on a well-formed function (distinct
identities, constants without operands, dequantize operations with their single
input) and with a classifier that returns in-range, non-repeating indices, when
the pass succeeds the operations of the output have distinct identities and two
stateful slots (operation, index) of the output function that hold the same
value are the same slot; this covers the slots of one operation, of operations
in different blocks and of the operations the pass inserted. -/
theorem no_aliasing_after_success (c : OperationName → Option (List Nat))
    (func : List (List Operation)) (hwf : WellFormed func.flatten)
    (hir : InRange c func.flatten) (hnr : NonRepeating c func.flatten)
    (hs : (runOnOperation c func).1 = .success) :
    ((runOnOperation c func).2.1.flatten.map Operation.id).Nodup ∧
    ∀ o1 ∈ (runOnOperation c func).2.1.flatten, ∀ o2 ∈ (runOnOperation c func).2.1.flatten,
      ∀ i1 ∈ statefulIndices c o1, ∀ i2 ∈ statefulIndices c o2, ∀ v,
        getOperand o1 i1 = some v → getOperand o2 i2 = some v → o1 = o2 ∧ i1 = i2 := by
  obtain ⟨hr, hout, -, -⟩ := runOnOperation_flat c func
  rw [hr] at hs
  rw [hout]
  have hIR0 : IRInv c ([] ++ [] ++ func.flatten ++ []) (freshId func.flatten) := by
    simpa using IRInv_of_wellFormed hwf hir hnr
  have hIR := visitBlock_IRInv c [] [] func.flatten [] ⟨[], freshId func.flatten, []⟩ hIR0
  have hS := visitBlock_SlotInv c (freshId func.flatten) [] [] func.flatten []
    ⟨[], freshId func.flatten, []⟩ hIR0 (le_refl _)
    (fun o ho x hx m hm => mentioned_lt_freshId ho m (mem_mentionedIds_of_operand hx hm))
    ⟨by simp [slotValues], by simp [slotValues], by simp⟩ hs
  simp only [List.nil_append, List.append_nil] at hIR hS
  exact ⟨hIR.1, slots_eq_of_nodup hS.1⟩

/-- Witness of `no_aliasing_after_success`: scenario B. -/
theorem no_aliasing_after_success_witness :
    ((runOnOperation exampleClassifier scenarioB).2.1.flatten.map Operation.id).Nodup ∧
    ∀ o1 ∈ (runOnOperation exampleClassifier scenarioB).2.1.flatten,
      ∀ o2 ∈ (runOnOperation exampleClassifier scenarioB).2.1.flatten,
      ∀ i1 ∈ statefulIndices exampleClassifier o1, ∀ i2 ∈ statefulIndices exampleClassifier o2,
      ∀ v, getOperand o1 i1 = some v → getOperand o2 i2 = some v → o1 = o2 ∧ i1 = i2 :=
  no_aliasing_after_success exampleClassifier scenarioB (by decide) (by decide) (by decide)
    (by decide)

/-! ## A traversal without collision changes nothing -/

theorem getOperand_of_lt {o : Operation} {i : Nat} (h : i < o.operands.length) :
    ∃ v, getOperand o i = some v :=
  ⟨o.operands[i], by simp [getOperand, h]⟩

/-- When the values at the indices are pairwise distinct and none is in the
seen set, the loop succeeds and only extends the seen set. -/
theorem duplicateAtIndices_nochange (before after : List Operation) :
    ∀ (idxs : List Nat) (s : VisitState),
      (∀ i ∈ idxs, i < s.op.operands.length) →
      (idxs.filterMap (getOperand s.op)).Nodup →
      (∀ x ∈ idxs.filterMap (getOperand s.op), x ∉ s.values) →
      duplicateAtIndices before after idxs s =
        (.success, { s with values := (idxs.filterMap (getOperand s.op)).reverse ++ s.values }) := by
  intro idxs
  induction idxs with
  | nil => intro s _ _ _; simp [duplicateAtIndices_nil]
  | cons i rest ih =>
    intro s hr hnd hdis
    obtain ⟨v, hv⟩ := getOperand_of_lt (hr i (List.mem_cons_self _ _))
    rw [List.filterMap_cons_some hv] at hnd hdis ⊢
    have hfresh : v ∉ s.values := hdis v (List.mem_cons_self _ _)
    rw [duplicateAtIndices_cons_success (duplicateAtIndex_fresh hv hfresh)]
    rw [ih { s with values := v :: s.values }
      (fun k hk => hr k (List.mem_cons_of_mem _ hk)) (List.nodup_cons.mp hnd).2]
    · simp
    · intro x hx hmem
      rcases List.mem_cons.mp hmem with rfl | hmem
      · exact (List.nodup_cons.mp hnd).1 hx
      · exact hdis x (List.mem_cons_of_mem _ hx) hmem

/-- When the values held by the stateful slots of `post` are pairwise distinct
and none is in the seen set, the traversal of `post` succeeds, inserts nothing
and rewires nothing. -/
theorem visitBlock_nochange (c : OperationName → Option (List Nat)) (d l : List Operation) :
    ∀ (post pre : List Operation) (st : PassState),
      InRange c post → (slotValues c post).Nodup →
      (∀ x ∈ slotValues c post, x ∉ st.values) →
      visitBlock c d l pre post st =
        (.success, pre ++ post,
          ⟨(slotValues c post).reverse ++ st.values, st.nextId, st.diags⟩) := by
  intro post
  induction post with
  | nil => intro pre st _ _ _; simp [visitBlock_nil, slotValues]
  | cons op rest ih =>
    intro pre st hr hnd hdis
    rw [slotValues_cons] at hnd hdis
    have hnd' := List.nodup_append.mp hnd
    have hD : DuplicateValueIfNeeded c (d ++ pre) (rest ++ l)
        ⟨[], op, st.values, st.nextId, st.diags⟩ =
        (.success, ⟨[], op,
          ((statefulIndices c op).filterMap (getOperand op)).reverse ++ st.values,
          st.nextId, st.diags⟩) := by
      rw [DuplicateValueIfNeeded_eq]
      exact duplicateAtIndices_nochange _ _ (statefulIndices c op)
        ⟨[], op, st.values, st.nextId, st.diags⟩ (hr op (List.mem_cons_self _ _)) hnd'.1
        (fun x hx => hdis x (List.mem_append_left _ hx))
    rw [visitBlock_cons_success hD]
    rw [ih _ _ (fun o ho => hr o (List.mem_cons_of_mem _ ho)) hnd'.2.1]
    · simp [slotValues_cons]
    · intro x hx hmem
      simp only [List.mem_append, List.mem_reverse] at hmem
      rcases hmem with hmem | hmem
      · exact hnd'.2.2 hmem hx
      · exact hdis x (List.mem_append_right _ hx) hmem

/-! ## Blocks keep their place -/

theorem visitBlock_length (c : OperationName → Option (List Nat)) (d l : List Operation) :
    ∀ (post pre : List Operation) (st : PassState),
      pre.length + post.length ≤ (visitBlock c d l pre post st).2.1.length := by
  intro post
  induction post with
  | nil => intro pre st; simp [visitBlock_nil]
  | cons op rest ih =>
    intro pre st
    cases hD : DuplicateValueIfNeeded c (d ++ pre) (rest ++ l)
        ⟨[], op, st.values, st.nextId, st.diags⟩ with
    | mk r s =>
      by_cases hr : r = .success
      · subst hr
        rw [visitBlock_cons_success hD]
        have := ih (pre ++ s.created ++ [s.op]) ⟨s.values, s.nextId, s.diags⟩
        simp only [List.length_append, List.length_cons, List.length_nil] at this ⊢
        omega
      · rw [visitBlock_cons_stop hr hD]
        simp only [List.length_append, List.length_cons]
        omega

/-- The output of the traversal has the blocks already done followed by one
block for each block to visit, none shorter than its original. -/
theorem visitBlocks_shape (c : OperationName → Option (List Nat)) :
    ∀ (todo done : List (List Operation)) (st : PassState),
      ∃ bs, (visitBlocks c done todo st).2.1 = done ++ bs ∧
        List.Forall₂ (fun b b' => b.length ≤ b'.length) todo bs := by
  intro todo
  induction todo with
  | nil => intro done st; exact ⟨[], by simp [visitBlocks], List.Forall₂.nil⟩
  | cons bb rest ih =>
    intro done st
    have hlen := visitBlock_length c done.flatten rest.flatten bb [] st
    have hrefl : List.Forall₂ (fun (b b' : List Operation) => b.length ≤ b'.length) rest rest :=
      List.forall₂_same.mpr (fun _ _ => le_refl _)
    cases hB : visitBlock c done.flatten rest.flatten [] bb st with
    | mk r p =>
      obtain ⟨bb', st'⟩ := p
      rw [hB] at hlen
      simp only [List.length_nil, Nat.zero_add] at hlen
      cases r with
      | success =>
        obtain ⟨bs, h1, h2⟩ := ih (done ++ [bb']) st'
        refine ⟨bb' :: bs, ?_, List.Forall₂.cons hlen h2⟩
        simp only [visitBlocks, hB]
        rw [h1]; simp
      | failure =>
        exact ⟨bb' :: rest, by simp only [visitBlocks, hB], List.Forall₂.cons hlen hrefl⟩
      | abort =>
        exact ⟨bb' :: rest, by simp only [visitBlocks, hB], List.Forall₂.cons hlen hrefl⟩

theorem forall₂_length_flatten_le {xs ys : List (List Operation)}
    (h : List.Forall₂ (fun b b' => b.length ≤ b'.length) xs ys) :
    xs.flatten.length ≤ ys.flatten.length := by
  induction h with
  | nil => simp
  | cons h1 _ ih => simp only [List.flatten_cons, List.length_append]; omega

/-- Blocks that did not get shorter and flatten to the same operations are the
same blocks. -/
theorem eq_of_forall₂_length_le {xs ys : List (List Operation)}
    (h : List.Forall₂ (fun b b' => b.length ≤ b'.length) xs ys)
    (hf : xs.flatten = ys.flatten) : xs = ys := by
  induction h with
  | nil => rfl
  | @cons b b' t t' h1 h2 ih =>
    simp only [List.flatten_cons] at hf
    have hl := forall₂_length_flatten_le h2
    have hlen := congrArg List.length hf
    simp only [List.length_append] at hlen
    have hb : b.length = b'.length := by omega
    obtain ⟨e1, e2⟩ := List.append_inj hf hb
    rw [e1, ih e2]

/-- When the traversal of the flattened function leaves it as it is, the pass
leaves the function as it is. -/
theorem runOnOperation_unchanged (c : OperationName → Option (List Nat))
    (func : List (List Operation))
    (h : (visitBlock c [] [] [] func.flatten ⟨[], freshId func.flatten, []⟩).2.1 =
      func.flatten) :
    (runOnOperation c func).2.1 = func := by
  obtain ⟨bs, h1, h2⟩ := visitBlocks_shape c func [] ⟨[], freshId func.flatten, []⟩
  have hout := (runOnOperation_flat c func).2.1
  unfold runOnOperation at hout ⊢
  rw [h1] at hout ⊢
  rw [h, List.nil_append] at hout
  rw [List.nil_append]
  exact (eq_of_forall₂_length_le h2 hout.symm).symm

theorem nodup_filterMap_of_inj {f : Nat → Option Value} :
    ∀ (idxs : List Nat), idxs.Nodup →
      (∀ i ∈ idxs, ∀ j ∈ idxs, ∀ v, f i = some v → f j = some v → i = j) →
      (idxs.filterMap f).Nodup := by
  intro idxs
  induction idxs with
  | nil => intro _ _; simp
  | cons a rest ih =>
    intro hnd hinj
    obtain ⟨ha, hnd'⟩ := List.nodup_cons.mp hnd
    have hrest := ih hnd' (fun i hi j hj v hvi hvj =>
      hinj i (List.mem_cons_of_mem _ hi) j (List.mem_cons_of_mem _ hj) v hvi hvj)
    cases hfa : f a with
    | none => rw [List.filterMap_cons_none hfa]; exact hrest
    | some b =>
      rw [List.filterMap_cons_some hfa]
      refine List.nodup_cons.mpr ⟨?_, hrest⟩
      intro hmem
      obtain ⟨j, hj, hjb⟩ := List.mem_filterMap.mp hmem
      have := hinj a (List.mem_cons_self _ _) j (List.mem_cons_of_mem _ hj) b hfa hjb
      exact ha (this ▸ hj)

/-- With distinct identities and non-repeating indices, a function in which no
two distinct stateful slots hold the same value has pairwise distinct slot
values. -/
theorem nodup_slotValues_of_noSharing {c : OperationName → Option (List Nat)}
    {ops : List Operation} (hid : (ops.map Operation.id).Nodup) (hnr : NonRepeating c ops)
    (hns : NoSharing c ops) : (slotValues c ops).Nodup := by
  have hops : ops.Nodup := List.Nodup.of_map _ hid
  refine List.nodup_flatMap.mpr ⟨?_, ?_⟩
  · intro o ho
    apply nodup_filterMap_of_inj _ (hnr o ho)
    intro i hi j hj v hvi hvj
    exact (hns o ho o ho i hi j hj (by simp [hvi]) (by rw [hvi, hvj])).2
  · refine List.Pairwise.imp_of_mem ?_ hops
    intro a b ha hb hne x hxa hxb
    obtain ⟨i, hi, hvi⟩ := List.mem_filterMap.mp hxa
    obtain ⟨j, hj, hvj⟩ := List.mem_filterMap.mp hxb
    exact hne (hns a ha b hb i hi j hj (by simp [hvi]) (by rw [hvi, hvj])).1

/-- C8 (amended). No collision, no change: on a function with distinct
operation identities in which no two distinct stateful slots hold the same
value, and with a classifier that returns in-range, non-repeating indices, the
pass succeeds, allocates no operation and returns the function as it was. -/
theorem no_collision_no_change (c : OperationName → Option (List Nat))
    (func : List (List Operation)) (hid : (func.flatten.map Operation.id).Nodup)
    (hir : InRange c func.flatten) (hnr : NonRepeating c func.flatten)
    (hns : NoSharing c func.flatten) :
    (runOnOperation c func).1 = .success ∧ (runOnOperation c func).2.1 = func ∧
    (runOnOperation c func).2.2.nextId = freshId func.flatten := by
  have hflat := visitBlock_nochange c [] [] func.flatten [] ⟨[], freshId func.flatten, []⟩ hir
    (nodup_slotValues_of_noSharing hid hnr hns) (by simp)
  obtain ⟨hr, -, -, hn⟩ := runOnOperation_flat c func
  refine ⟨by rw [hr, hflat], runOnOperation_unchanged c func (by rw [hflat]; simp), ?_⟩
  rw [hn, hflat]

/-- Witness of `no_collision_no_change`: the constant `C` is held by one
stateful slot, operand 0 of `X`. -/
theorem no_collision_no_change_witness :
    (runOnOperation exampleClassifier [[exC], [exX]]).1 = .success ∧
    (runOnOperation exampleClassifier [[exC], [exX]]).2.1 = [[exC], [exX]] ∧
    (runOnOperation exampleClassifier [[exC], [exX]]).2.2.nextId =
      freshId [[exC], [exX]].flatten :=
  no_collision_no_change exampleClassifier [[exC], [exX]] (by decide) (by decide) (by decide)
    (by decide)

/-- C8 (counterexample). With a classifier that reports index 0 twice, the
function has a single stateful slot, so no two distinct slots hold the same
value, and yet the pass inserts a clone and rewires the slot. -/
theorem change_without_collision_with_repeated_index :
    NoSharing repeatingClassifier [[exC, exX]].flatten ∧
    ([[exC, exX]].flatten.map Operation.id).Nodup ∧
    InRange repeatingClassifier [[exC, exX]].flatten ∧
    (runOnOperation repeatingClassifier [[exC, exX]]).2.1 ≠ [[exC, exX]] ∧
    (runOnOperation repeatingClassifier [[exC, exX]]).2.2.nextId ≠
      freshId [[exC, exX]].flatten := by
  decide

/-! ## Where a traversal stops -/

/-- A loop over the indices that does not succeed ran successfully over a
prefix of the indices and stopped in the loop body at the next index. -/
theorem duplicateAtIndices_stop (before after : List Operation) :
    ∀ (idxs : List Nat) (s : VisitState) (r : Outcome) (s' : VisitState),
      duplicateAtIndices before after idxs s = (r, s') → r ≠ .success →
      ∃ is1 j is2 s1, idxs = is1 ++ j :: is2 ∧
        duplicateAtIndices before after is1 s = (.success, s1) ∧
        duplicateAtIndex before after j s1 = (r, s') := by
  intro idxs
  induction idxs with
  | nil =>
    intro s r s' h hr
    rw [duplicateAtIndices_nil] at h
    simp only [Prod.mk.injEq] at h
    exact absurd h.1.symm hr
  | cons i rest ih =>
    intro s r s' h hr
    cases hstep : duplicateAtIndex before after i s with
    | mk r1 s1 =>
      by_cases hr1 : r1 = .success
      · subst hr1
        rw [duplicateAtIndices_cons_success hstep] at h
        obtain ⟨is1, j, is2, s2, e, h1, h2⟩ := ih s1 r s' h hr
        exact ⟨i :: is1, j, is2, s2, by rw [e]; rfl,
          by rw [duplicateAtIndices_cons_success hstep]; exact h1, h2⟩
      · rw [duplicateAtIndices_cons_stop hr1 hstep] at h
        simp only [Prod.mk.injEq] at h
        obtain ⟨rfl, rfl⟩ := h
        exact ⟨[], i, rest, s, rfl, rfl, hstep⟩

/-- A traversal that does not succeed visited successfully the operations `A`
before some operation `o` and stopped in the visit of `o`; the output is the
IR at that point. -/
theorem visitBlock_stop (c : OperationName → Option (List Nat)) (d l : List Operation) :
    ∀ (post pre : List Operation) (st : PassState) (r : Outcome) (out : List Operation)
      (st' : PassState),
      visitBlock c d l pre post st = (r, out, st') → r ≠ .success →
      ∃ A o B preA stA s', post = A ++ o :: B ∧
        visitBlock c d (o :: B ++ l) pre A st = (.success, preA, stA) ∧
        DuplicateValueIfNeeded c (d ++ preA) (B ++ l)
          ⟨[], o, stA.values, stA.nextId, stA.diags⟩ = (r, s') ∧
        out = preA ++ s'.created ++ s'.op :: B ∧ st' = ⟨s'.values, s'.nextId, s'.diags⟩ := by
  intro post
  induction post with
  | nil =>
    intro pre st r out st' h hr
    rw [visitBlock_nil] at h
    simp only [Prod.mk.injEq] at h
    exact absurd h.1.symm hr
  | cons op rest ih =>
    intro pre st r out st' h hr
    cases hD : DuplicateValueIfNeeded c (d ++ pre) (rest ++ l)
        ⟨[], op, st.values, st.nextId, st.diags⟩ with
    | mk r1 s =>
      by_cases hr1 : r1 = .success
      · subst hr1
        rw [visitBlock_cons_success hD] at h
        obtain ⟨A, o, B, preA, stA, s', e, h1, h2, h3, h4⟩ := ih _ _ r out st' h hr
        refine ⟨op :: A, o, B, preA, stA, s', by rw [e]; rfl, ?_, h2, h3, h4⟩
        have hD2 : DuplicateValueIfNeeded c (d ++ pre) (A ++ (o :: B ++ l))
            ⟨[], op, st.values, st.nextId, st.diags⟩ = (.success, s) := by
          rw [← hD, e]; simp
        rw [visitBlock_cons_success hD2]
        exact h1
      · rw [visitBlock_cons_stop hr1 hD] at h
        simp only [Prod.mk.injEq] at h
        obtain ⟨rfl, rfl, rfl⟩ := h
        exact ⟨[], op, rest, pre, st, s, rfl, rfl, hD, rfl, rfl⟩

/-- The configuration in which a traversal of the flattened function stops. -/
theorem visitBlock_stop_config (c : OperationName → Option (List Nat)) (ops : List Operation)
    (st : PassState) (hne : (visitBlock c [] [] [] ops st).1 ≠ .success) :
    ∃ A o B is1 j is2 preA stA s1 s2, ops = A ++ o :: B ∧
      statefulIndices c o = is1 ++ j :: is2 ∧
      visitBlock c [] (o :: B) [] A st = (.success, preA, stA) ∧
      duplicateAtIndices preA B is1 ⟨[], o, stA.values, stA.nextId, stA.diags⟩ =
        (.success, s1) ∧
      duplicateAtIndex preA B j s1 = ((visitBlock c [] [] [] ops st).1, s2) ∧
      visitBlock c [] [] [] ops st =
        ((visitBlock c [] [] [] ops st).1, preA ++ s2.created ++ s2.op :: B,
          ⟨s2.values, s2.nextId, s2.diags⟩) := by
  cases hv : visitBlock c [] [] [] ops st with
  | mk r p =>
    obtain ⟨out, st'⟩ := p
    rw [hv] at hne
    simp only at hne ⊢
    obtain ⟨A, o, B, preA, stA, s2, e, h1, h2, h3, h4⟩ :=
      visitBlock_stop c [] [] ops [] st r out st' hv hne
    simp only [List.append_nil, List.nil_append] at h1 h2
    rw [DuplicateValueIfNeeded_eq] at h2
    obtain ⟨is1, j, is2, s1, e2, h5, h6⟩ :=
      duplicateAtIndices_stop preA B _ _ r s2 h2 hne
    exact ⟨A, o, B, is1, j, is2, preA, stA, s1, s2, e, e2, h1, h5, h6, by rw [h3, h4]⟩

/-- C9 (amended). Failure is immediate and not rolled back. Assume the
classifier returns no index twice for an operation. When the pass fails, the
flattened function is `A ++ o :: B` and the stateful indices of `o` are
`is1 ++ j :: is2` such that: the operations `A` and then the indices `is1` of
`o` were processed successfully, reaching the state `s1`; operand `j` of `o`
still holds its input value `v`, which is in the seen set and not clonable; the
loop body at `j` fails without inserting an operation, rewiring an operand or
moving the allocator; the output is exactly the IR of `s1` (the collisions
resolved so far remain rewired to their clones) followed by the untouched
operations `B`; and the operands of `o` at the indices `is2` are as in the
input. -/
theorem failure_not_rolled_back (c : OperationName → Option (List Nat))
    (func : List (List Operation)) (hnr : NonRepeating c func.flatten)
    (hf : (runOnOperation c func).1 = .failure) :
    ∃ A o B is1 j is2 preA stA s1 v dg,
      func.flatten = A ++ o :: B ∧ statefulIndices c o = is1 ++ j :: is2 ∧
      visitBlock c [] (o :: B) [] A ⟨[], freshId func.flatten, []⟩ = (.success, preA, stA) ∧
      duplicateAtIndices preA B is1 ⟨[], o, stA.values, stA.nextId, stA.diags⟩ =
        (.success, s1) ∧
      getOperand s1.op j = some v ∧ getOperand o j = some v ∧ v ∈ s1.values ∧
      clonable (preA ++ s1.created ++ s1.op :: B) v = false ∧
      duplicateAtIndex preA B j s1 = (.failure, { s1 with diags := dg }) ∧
      (runOnOperation c func).2.1.flatten = preA ++ s1.created ++ s1.op :: B ∧
      (runOnOperation c func).2.2.nextId = s1.nextId ∧
      s1.op.id = o.id ∧
      ∀ i ∈ is2, getOperand s1.op i = getOperand o i := by
  obtain ⟨hr, hout, -, hn⟩ := runOnOperation_flat c func
  rw [hr] at hf
  rw [hout, hn]
  obtain ⟨A, o, B, is1, j, is2, preA, stA, s1, s2, e, e2, h1, h2, h3, h4⟩ :=
    visitBlock_stop_config c func.flatten ⟨[], freshId func.flatten, []⟩ (by rw [hf]; simp)
  rw [hf] at h3 h4
  have hnd : (is1 ++ j :: is2).Nodup := by
    rw [← e2]; exact hnr o (by rw [e]; simp)
  have hnd' := List.nodup_append.mp hnd
  have hoth := fun k hk => duplicateAtIndices_other preA B is1 k hk
    ⟨[], o, stA.values, stA.nextId, stA.diags⟩
  have hid := (duplicateAtIndices_op preA B is1 ⟨[], o, stA.values, stA.nextId, stA.diags⟩).1
  rw [h2] at hoth hid
  simp only at hoth hid
  have hj : j ∉ is1 := fun h => hnd'.2.2 h (List.mem_cons_self _ _)
  rcases duplicateAtIndex_cases preA B j s1 with ⟨-, e3⟩ | ⟨v, -, -, e3⟩ |
    ⟨v, hop, hv, hcl, r, dg, e3, -⟩ | ⟨v, p, -, -, -, -, -, e3⟩ |
    ⟨v, D, w, Q, -, -, -, -, -, -, -, -, -, e3⟩
  · rw [h3] at e3; simp at e3
  · rw [h3] at e3; simp at e3
  · rw [h3] at e3
    simp only [Prod.mk.injEq] at e3
    obtain ⟨rfl, rfl⟩ := e3
    refine ⟨A, o, B, is1, j, is2, preA, stA, s1, v, dg, e, e2, h1, h2, hop, ?_, hv, hcl, h3,
      by rw [h4], by rw [h4], hid, ?_⟩
    · rw [← hoth j hj]; exact hop
    · intro i hi
      exact hoth i (fun h => hnd'.2.2 h (List.mem_cons_of_mem _ hi))
  · rw [h3] at e3; simp at e3
  · rw [h3] at e3; simp at e3

/-- Witness of `failure_not_rolled_back`: a block argument feeds the stateful
operand 0 of two operations (scenario C). -/
theorem failure_not_rolled_back_witness :
    ∃ A o B is1 j is2 preA stA s1 v dg,
      [[exW], [⟨3, .other 7, 0, [.blockArgument 0]⟩]].flatten = A ++ o :: B ∧
      statefulIndices exampleClassifier o = is1 ++ j :: is2 ∧
      visitBlock exampleClassifier [] (o :: B) [] A
        ⟨[], freshId [[exW], [⟨3, .other 7, 0, [.blockArgument 0]⟩]].flatten, []⟩ =
        (.success, preA, stA) ∧
      duplicateAtIndices preA B is1 ⟨[], o, stA.values, stA.nextId, stA.diags⟩ =
        (.success, s1) ∧
      getOperand s1.op j = some v ∧ getOperand o j = some v ∧ v ∈ s1.values ∧
      clonable (preA ++ s1.created ++ s1.op :: B) v = false ∧
      duplicateAtIndex preA B j s1 = (.failure, { s1 with diags := dg }) ∧
      (runOnOperation exampleClassifier
        [[exW], [⟨3, .other 7, 0, [.blockArgument 0]⟩]]).2.1.flatten =
        preA ++ s1.created ++ s1.op :: B ∧
      (runOnOperation exampleClassifier
        [[exW], [⟨3, .other 7, 0, [.blockArgument 0]⟩]]).2.2.nextId = s1.nextId ∧
      s1.op.id = o.id ∧
      ∀ i ∈ is2, getOperand s1.op i = getOperand o i :=
  failure_not_rolled_back exampleClassifier [[exW], [⟨3, .other 7, 0, [.blockArgument 0]⟩]]
    (by decide) (by decide)

/-- C9 (counterexample). The classifier reports the indices 1, 1, 0, 1 for the
last operation. The pass fails at its third entry, index 0 (a block argument
seen before); the entry after it is index 1, which the second entry had
already rewired to a clone, so it is not as in the input. -/
theorem later_index_changed_with_repeated_index :
    (runOnOperation repeatingClassifier2 [[exC, exW, exZ9]]).1 = .failure ∧
    statefulIndices repeatingClassifier2 exZ9 = [1, 1] ++ 0 :: [1] ∧
    visitBlock repeatingClassifier2 [] [exZ9] [] [exC, exW]
      ⟨[], freshId [[exC, exW, exZ9]].flatten, []⟩ =
      (.success, [exC, exW], ⟨[.blockArgument 0], 4, []⟩) ∧
    (duplicateAtIndices [exC, exW] [] [1, 1]
      ⟨[], exZ9, [.blockArgument 0], 4, []⟩).1 = .success ∧
    (duplicateAtIndex [exC, exW] [] 0
      (duplicateAtIndices [exC, exW] [] [1, 1]
        ⟨[], exZ9, [.blockArgument 0], 4, []⟩).2).1 = .failure ∧
    ∀ o' ∈ (runOnOperation repeatingClassifier2 [[exC, exW, exZ9]]).2.1.flatten,
      o'.id = exZ9.id → getOperand o' 1 ≠ getOperand exZ9 1 := by
  decide

/-! ## Running the pass again -/

/-- On a seen value that is not clonable the loop body fails and changes only
the diagnostics, provided every dequantize has its input operand. -/
theorem duplicateAtIndex_unclonable (before after : List Operation) (j : Nat) (s : VisitState)
    {w : Value} (hop : getOperand s.op j = some w) (hseen : w ∈ s.values)
    (hcl : clonable (before ++ s.created ++ s.op :: after) w = false)
    (hshape : ∀ p ∈ before ++ s.created ++ s.op :: after,
      p.name = .dequantize → getOperand p 0 ≠ none) :
    ∃ dg, duplicateAtIndex before after j s = (.failure, { s with diags := dg }) := by
  rcases duplicateAtIndex_cases before after j s with ⟨h0, -⟩ | ⟨v, h0, hv, -⟩ |
    ⟨v, h0, -, -, r, dg, e, hr⟩ | ⟨v, p, h0, -, hc, -, -, -⟩ |
    ⟨v, D, w', Q, h0, -, hc, -, -, -, -, -, -, -⟩
  · rw [hop] at h0; simp at h0
  · rw [hop] at h0
    simp only [Option.some.injEq] at h0
    subst h0
    exact absurd hseen hv
  · rcases hr with rfl | ⟨-, p, hp, hd, hnone⟩
    · exact ⟨dg, e⟩
    · exact absurd hnone (hshape p (getDefiningOp_mem hp).1 hd)
  · rw [hop] at h0
    simp only [Option.some.injEq] at h0
    subst h0
    rw [hcl] at hc; simp at hc
  · rw [hop] at h0
    simp only [Option.some.injEq] at h0
    subst h0
    rw [hcl] at hc; simp at hc

/-- A traversal that meets its first collision at slot `(o, j)`, on a value
that is not clonable, fails there and leaves the IR as it is. -/
theorem visitBlock_nochange_fail (c : OperationName → Option (List Nat))
    (A B : List Operation) (o : Operation) (is1 is2 : List Nat) (j : Nat) (w : Value)
    (st : PassState) (hirA : InRange c A) (hir1 : ∀ i ∈ is1, i < o.operands.length)
    (hidx : statefulIndices c o = is1 ++ j :: is2)
    (hnd : (slotValues c A ++ is1.filterMap (getOperand o)).Nodup)
    (hdis : ∀ x ∈ slotValues c A ++ is1.filterMap (getOperand o), x ∉ st.values)
    (hw : getOperand o j = some w)
    (hseen : w ∈ st.values ∨ w ∈ slotValues c A ++ is1.filterMap (getOperand o))
    (hcl : clonable (A ++ o :: B) w = false)
    (hshape : ∀ p ∈ A ++ o :: B, p.name = .dequantize → getOperand p 0 ≠ none) :
    (visitBlock c [] [] [] (A ++ o :: B) st).1 = .failure ∧
    (visitBlock c [] [] [] (A ++ o :: B) st).2.1 = A ++ o :: B ∧
    (visitBlock c [] [] [] (A ++ o :: B) st).2.2.nextId = st.nextId := by
  have hnd' := List.nodup_append.mp hnd
  have hA := visitBlock_nochange c [] (o :: B ++ []) A [] st hirA hnd'.1
    (fun x hx => hdis x (List.mem_append_left _ hx))
  have h1 := duplicateAtIndices_nochange ([] ++ ([] ++ A)) (B ++ []) is1
    ⟨[], o, (slotValues c A).reverse ++ st.values, st.nextId, st.diags⟩ hir1 hnd'.2.1
    (by
      intro x hx hmem
      simp only [List.mem_append, List.mem_reverse] at hmem
      rcases hmem with hmem | hmem
      · exact hnd'.2.2 hmem hx
      · exact hdis x (List.mem_append_right _ hx) hmem)
  obtain ⟨dg, h2⟩ := duplicateAtIndex_unclonable
    ([] ++ ([] ++ A)) (B ++ []) j
    ⟨[], o, (is1.filterMap (getOperand o)).reverse ++
      ((slotValues c A).reverse ++ st.values), st.nextId, st.diags⟩
    hw
    (by
      simp only [List.mem_append, List.mem_reverse] at hseen ⊢
      tauto)
    (by simpa using hcl) (by simpa using hshape)
  have hD : DuplicateValueIfNeeded c ([] ++ ([] ++ A)) (B ++ [])
      ⟨[], o, (slotValues c A).reverse ++ st.values, st.nextId, st.diags⟩ =
      (.failure, ⟨[], o, (is1.filterMap (getOperand o)).reverse ++
        ((slotValues c A).reverse ++ st.values), st.nextId, dg⟩) := by
    rw [DuplicateValueIfNeeded_eq]
    simp only [hidx]
    rw [duplicateAtIndices_append, h1]
    simp only
    rw [duplicateAtIndices_cons_stop (by simp) h2]
  rw [visitBlock_append, hA]
  simp only
  rw [visitBlock_cons_stop (by simp) hD]
  simp

/-- The invariants at the point the traversal has reached after visiting the
operations `A` and the indices `is1` of the next operation `o`. -/
theorem reached_invariants (c : OperationName → Option (List Nat)) (n0 : Nat)
    (A B preA : List Operation) (o : Operation) (is1 : List Nat) (st stA : PassState)
    (s1 : VisitState) (hIR : IRInv c (A ++ o :: B) st.nextId) (hn0 : n0 ≤ st.nextId)
    (hold : ∀ x ∈ A ++ o :: B, ∀ y ∈ x.operands, isOld n0 y) (hv : st.values = [])
    (hA : visitBlock c [] (o :: B) [] A st = (.success, preA, stA)) (hnd : is1.Nodup)
    (h1 : duplicateAtIndices preA B is1 ⟨[], o, stA.values, stA.nextId, stA.diags⟩ =
      (.success, s1)) :
    IRInv c (preA ++ s1.created ++ s1.op :: B) s1.nextId ∧
    SlotInv n0 (visitedSlotValues c preA s1 is1) s1.values := by
  have hIR0 : IRInv c ([] ++ [] ++ A ++ (o :: B)) st.nextId := by simpa using hIR
  have hIRA := visitBlock_IRInv c [] (o :: B) A [] st hIR0
  have hSA := visitBlock_SlotInv c n0 [] (o :: B) A [] st hIR0 hn0
    (fun x hx => hold x (List.mem_append_left _ hx))
    ⟨by simp [slotValues], by simp [slotValues], by simp [hv]⟩
  have hnA := visitBlock_nextId c [] (o :: B) A [] st
  rw [hA] at hIRA hSA hnA
  simp only [List.nil_append] at hIRA hSA hnA
  have hIRA' : IRInv c (preA ++ [] ++ o :: B) stA.nextId := by simpa using hIRA
  have hIR1 := duplicateAtIndices_IRInv c preA B is1
    ⟨[], o, stA.values, stA.nextId, stA.diags⟩ hIRA'
  have hS1 := duplicateAtIndices_SlotInv c n0 preA B is1 []
    ⟨[], o, stA.values, stA.nextId, stA.diags⟩ hIRA' (le_trans hn0 hnA) (by simpa using hnd)
    (fun j _ x hx => hold o (by simp) x (mem_operands_of_getOperand hx))
    (by simpa [visitedSlotValues] using hSA trivial)
  rw [h1] at hIR1 hS1
  exact ⟨hIR1, by simpa using hS1 rfl⟩

/-- On a well-formed IR with in-range indices no operand access is out of
range: the traversal does not abort. -/
theorem visitBlock_no_abort (c : OperationName → Option (List Nat)) (ops : List Operation)
    (st : PassState) (hIR : IRInv c ops st.nextId) :
    (visitBlock c [] [] [] ops st).1 ≠ .abort := by
  intro habort
  obtain ⟨A, o, B, is1, j, is2, preA, stA, s1, s2, e, e2, h1, h2, h3, -⟩ :=
    visitBlock_stop_config c ops st (by rw [habort]; simp)
  rw [habort] at h3
  have hIR0 : IRInv c ([] ++ [] ++ A ++ (o :: B)) st.nextId := by simpa [e] using hIR
  have hIRA := visitBlock_IRInv c [] (o :: B) A [] st hIR0
  rw [h1] at hIRA
  have hIRA' : IRInv c (preA ++ [] ++ o :: B) stA.nextId := by simpa using hIRA
  have hIR1 := duplicateAtIndices_IRInv c preA B is1
    ⟨[], o, stA.values, stA.nextId, stA.diags⟩ hIRA'
  have hname := (duplicateAtIndices_op preA B is1
    ⟨[], o, stA.values, stA.nextId, stA.diags⟩).2.1
  rw [h2] at hIR1 hname
  simp only at hIR1 hname
  have hok := hIR1.2 s1.op (by simp)
  have hst : statefulIndices c s1.op = is1 ++ j :: is2 := by
    rw [← e2]; simp [statefulIndices, hname]
  rcases duplicateAtIndex_cases preA B j s1 with ⟨h0, -⟩ | ⟨v, -, -, e3⟩ |
    ⟨v, -, -, -, r, dg, e3, hr⟩ | ⟨v, p, -, -, -, -, -, e3⟩ |
    ⟨v, D, w, Q, -, -, -, -, -, -, -, -, -, e3⟩
  · have := hok.2.1 j (by rw [hst]; simp)
    obtain ⟨v, hv⟩ := getOperand_of_lt this
    rw [hv] at h0; simp at h0
  · rw [h3] at e3; simp at e3
  · rw [h3] at e3
    simp only [Prod.mk.injEq] at e3
    rcases hr with rfl | ⟨-, p, hp, hd, hnone⟩
    · simp at e3
    · have hpok := hIR1.2 p (getDefiningOp_mem hp).1
      have hlen := hpok.1.2 hd
      obtain ⟨x, hx⟩ := getOperand_of_lt (o := p) (i := 0) (by omega)
      rw [hx] at hnone; simp at hnone
  · rw [h3] at e3; simp at e3
  · rw [h3] at e3; simp at e3

theorem isOld_of_mem_freshId {ops : List Operation} :
    ∀ x ∈ ops, ∀ y ∈ x.operands, isOld (freshId ops) y :=
  fun _ hx _ hy m hm => mentioned_lt_freshId hx m (mem_mentionedIds_of_operand hy hm)

/-- From what the traversal of the flattened output does to what the pass does
on the output. -/
theorem runOnOperation_again (c : OperationName → Option (List Nat))
    (out : List (List Operation)) (r : Outcome)
    (h1 : (visitBlock c [] [] [] out.flatten ⟨[], freshId out.flatten, []⟩).1 = r)
    (h2 : (visitBlock c [] [] [] out.flatten ⟨[], freshId out.flatten, []⟩).2.1 = out.flatten)
    (h3 : (visitBlock c [] [] [] out.flatten ⟨[], freshId out.flatten, []⟩).2.2.nextId =
      freshId out.flatten) :
    (runOnOperation c out).2.1 = out ∧
    (runOnOperation c out).2.2.nextId = freshId out.flatten ∧
    (runOnOperation c out).1 = r := by
  obtain ⟨hr, -, -, hn⟩ := runOnOperation_flat c out
  exact ⟨runOnOperation_unchanged c out h2, by rw [hn, h3], by rw [hr, h1]⟩

/-- C7. Idempotence: on a well-formed function and with a classifier (a
function of the operation kind) that returns in-range, non-repeating indices,
running the pass on the output of a first run returns that output unchanged
(no operand rewired, no operation inserted), allocates no operation, and has
the outcome of the first run. -/
theorem idempotent (c : OperationName → Option (List Nat)) (func : List (List Operation))
    (hwf : WellFormed func.flatten) (hir : InRange c func.flatten)
    (hnr : NonRepeating c func.flatten) :
    (runOnOperation c (runOnOperation c func).2.1).2.1 = (runOnOperation c func).2.1 ∧
    (runOnOperation c (runOnOperation c func).2.1).2.2.nextId =
      freshId (runOnOperation c func).2.1.flatten ∧
    (runOnOperation c (runOnOperation c func).2.1).1 = (runOnOperation c func).1 := by
  obtain ⟨hr1, hout1, -, -⟩ := runOnOperation_flat c func
  have hIRw := IRInv_of_wellFormed hwf hir hnr
  have hIR0 : IRInv c ([] ++ [] ++ func.flatten ++ []) (freshId func.flatten) := by
    simpa using hIRw
  have hIRout := visitBlock_IRInv c [] [] func.flatten [] ⟨[], freshId func.flatten, []⟩ hIR0
  simp only [List.nil_append, List.append_nil] at hIRout
  have hnoabort := visitBlock_no_abort c func.flatten ⟨[], freshId func.flatten, []⟩ hIRw
  rw [hr1]
  apply runOnOperation_again
  all_goals rw [hout1]
  all_goals generalize freshId (visitBlock c [] [] [] func.flatten
    ⟨[], freshId func.flatten, []⟩).2.1 = n2
  all_goals
    cases hres : (visitBlock c [] [] [] func.flatten ⟨[], freshId func.flatten, []⟩).1 with
    | abort => exact absurd hres hnoabort
    | success =>
      have hS := visitBlock_SlotInv c (freshId func.flatten) [] [] func.flatten []
        ⟨[], freshId func.flatten, []⟩ hIR0 (le_refl _) isOld_of_mem_freshId
        ⟨by simp [slotValues], by simp [slotValues], by simp⟩ hres
      simp only [List.nil_append] at hS
      rw [visitBlock_nochange c [] [] _ [] ⟨[], n2, []⟩ hIRout.wellFormed.2.1 hS.1 (by simp)]
      try simp
    | failure =>
      obtain ⟨A, o, B, is1, j, is2, preA, stA, s1, s2, e, e2, h1, h2, h3, h4⟩ :=
        visitBlock_stop_config c func.flatten ⟨[], freshId func.flatten, []⟩
          (by rw [hres]; simp)
      rw [hres] at h3 h4
      have hnd : (is1 ++ j :: is2).Nodup := by
        rw [← e2]; exact hnr o (by rw [e]; simp)
      obtain ⟨hIR1, hS1⟩ := reached_invariants c (freshId func.flatten) A B preA o is1
        ⟨[], freshId func.flatten, []⟩ stA s1 (by rw [← e]; exact hIRw) (le_refl _)
        (by rw [← e]; exact isOld_of_mem_freshId) rfl h1 (List.nodup_append.mp hnd).1 h2
      have hname := (duplicateAtIndices_op preA B is1
        ⟨[], o, stA.values, stA.nextId, stA.diags⟩).2.1
      rw [h2] at hname
      simp only at hname
      have hst : statefulIndices c s1.op = is1 ++ j :: is2 := by
        rw [← e2]; simp [statefulIndices, hname]
      rcases duplicateAtIndex_cases preA B j s1 with ⟨-, e3⟩ | ⟨v, -, -, e3⟩ |
        ⟨v, hop, hv, hcl, r, dg, e3, -⟩ | ⟨v, p, -, -, -, -, -, e3⟩ |
        ⟨v, D, w, Q, -, -, -, -, -, -, -, -, -, e3⟩
      · rw [h3] at e3; simp at e3
      · rw [h3] at e3; simp at e3
      · rw [h3] at e3
        simp only [Prod.mk.injEq] at e3
        obtain ⟨rfl, rfl⟩ := e3
        rw [h4]
        simp only
        have hfail := visitBlock_nochange_fail c (preA ++ s1.created) B s1.op is1 is2 j v
          ⟨[], n2, []⟩
          (fun x hx => (hIR1.2 x (by simp only [List.mem_append] at hx ⊢; tauto)).2.1)
          (fun i hi => (hIR1.2 s1.op (by simp)).2.1 i (by rw [hst]; simp [hi]))
          hst hS1.1 (by simp) hop (Or.inr (hS1.2.2 v hv)) hcl
          (by
            intro p hp hd
            have hlen := (hIR1.2 p hp).1.2 hd
            obtain ⟨x, hx⟩ := getOperand_of_lt (o := p) (i := 0) (by omega)
            rw [hx]; simp)
        first | exact hfail.1 | exact hfail.2.1 | exact hfail.2.2
      · rw [h3] at e3; simp at e3
      · rw [h3] at e3; simp at e3

/-- Witness of `idempotent`: scenario B, where the first run inserts a cloned
constant and a cloned dequantize. -/
theorem idempotent_witness :
    (runOnOperation exampleClassifier (runOnOperation exampleClassifier scenarioB).2.1).2.1 =
      (runOnOperation exampleClassifier scenarioB).2.1 ∧
    (runOnOperation exampleClassifier (runOnOperation exampleClassifier scenarioB).2.1).2.2.nextId =
      freshId (runOnOperation exampleClassifier scenarioB).2.1.flatten ∧
    (runOnOperation exampleClassifier (runOnOperation exampleClassifier scenarioB).2.1).1 =
      (runOnOperation exampleClassifier scenarioB).1 :=
  idempotent exampleClassifier scenarioB (by decide) (by decide) (by decide)

/-! ## The producers keep their kind -/

theorem unclonable_iff (ir : List Operation) (v : Value) :
    Unclonable ir v ↔ clonable ir v = false := by
  unfold Unclonable clonable
  cases hg : getDefiningOp ir v with
  | none => simp
  | some p =>
    cases hc : matchConstant p with
    | true => simp [hc]
    | false =>
      by_cases hd : p.name = .dequantize
      · cases hw : getOperand p 0 with
        | none => simp [hc, hd, hw]
        | some w => simp [hc, hd, hw]
      · simp [hc, hd]

/-- Looking up an identity allocated before the step that finds nothing. -/
theorem find_after_step_none {before created after : List Operation} {op : Operation}
    {owner n : Nat} (dups : List Operation) (op' : Operation) (hlt : owner < n)
    (hd : ∀ d ∈ dups, n ≤ d.id) (hid : op'.id = op.id)
    (h : (before ++ created ++ op :: after).find? (fun o => o.id == owner) = none) :
    (before ++ (created ++ dups) ++ op' :: after).find? (fun o => o.id == owner) = none := by
  rw [List.find?_eq_none] at h ⊢
  intro x hx
  simp only [List.mem_append, List.mem_cons] at hx
  rcases hx with (hx | hx | hx) | hx | hx
  · exact h x (by simp [hx])
  · exact h x (by simp [hx])
  · have := hd x hx
    simp; omega
  · have := h op (by simp)
    rw [hx, hid]; exact this
  · exact h x (by simp [hx])

/-- Looking up the identity of the first inserted operation. -/
theorem find_new_first {X Z : List Operation} {n : Nat} (a : Operation)
    (hX : ∀ o ∈ X, o.id < n) (ha : a.id = n) :
    (X ++ [a] ++ Z).find? (fun o => o.id == n) = some a := by
  have hnone : X.find? (fun o => o.id == n) = none := by
    rw [List.find?_eq_none]
    intro x hx
    have := hX x hx
    simp; omega
  simp [List.find?_append, hnone, List.find?_cons, ha]

/-- Looking up the identity of the second inserted operation. -/
theorem find_new_second {X Z : List Operation} {n : Nat} (a b : Operation)
    (hX : ∀ o ∈ X, o.id < n) (ha : a.id = n) (hb : b.id = n + 1) :
    (X ++ [a, b] ++ Z).find? (fun o => o.id == n + 1) = some b := by
  have hnone : X.find? (fun o => o.id == n + 1) = none := by
    rw [List.find?_eq_none]
    intro x hx
    have := hX x hx
    simp; omega
  simp [List.find?_append, hnone, List.find?_cons, ha, hb]

theorem find_insert_some {X Y : List Operation} {op p : Operation} {owner n : Nat}
    (dups : List Operation) (op' : Operation) (hfresh : ∀ o ∈ X ++ op :: Y, o.id < n)
    (hd : ∀ d ∈ dups, n ≤ d.id) (hid : op'.id = op.id)
    (h : (X ++ op :: Y).find? (fun o => o.id == owner) = some p) :
    (X ++ dups ++ op' :: Y).find? (fun o => o.id == owner) = some p ∨
    (p = op ∧ (X ++ dups ++ op' :: Y).find? (fun o => o.id == owner) = some op') := by
  have := @find_after_step X [] Y op p owner n dups op'
    (by simpa using hfresh) hd hid (by simpa using h)
  simpa using this

theorem find_insert_none {X Y : List Operation} {op : Operation} {owner n : Nat}
    (dups : List Operation) (op' : Operation) (hlt : owner < n)
    (hd : ∀ d ∈ dups, n ≤ d.id) (hid : op'.id = op.id)
    (h : (X ++ op :: Y).find? (fun o => o.id == owner) = none) :
    (X ++ dups ++ op' :: Y).find? (fun o => o.id == owner) = none := by
  have := @find_after_step_none X [] Y op owner n dups op' hlt hd hid
    (by simpa using h)
  simpa using this

/-- Inserting operations with new identities before `op` and replacing `op` by
an operation with its identity and name keeps the answer of `m_Constant` on
every value allocated before. -/
theorem matchConstantValue_insert {X Y : List Operation} {op : Operation} {n : Nat}
    (dups : List Operation) (op' : Operation) (hfresh : ∀ o ∈ X ++ op :: Y, o.id < n)
    (hd : ∀ d ∈ dups, n ≤ d.id) (hid : op'.id = op.id) (hname : op'.name = op.name)
    (x : Value) (hx : ∀ m, x.owner? = some m → m < n) :
    matchConstantValue (X ++ dups ++ op' :: Y) x = matchConstantValue (X ++ op :: Y) x := by
  cases x with
  | blockArgument a => simp [matchConstantValue, getDefiningOp]
  | opResult owner k =>
    have hlt : owner < n := hx owner rfl
    simp only [matchConstantValue, getDefiningOp]
    cases hf : (X ++ op :: Y).find? (fun o => o.id == owner) with
    | none => rw [find_insert_none dups op' hlt hd hid hf]
    | some p =>
      rcases find_insert_some dups op' hfresh hd hid hf with h | ⟨rfl, h⟩
      · rw [h]
      · rw [h]; simp [matchConstant, hname]

/-- The same for the question whether the producer can be cloned, when operand
0 of a dequantize `op` is replaced by a value with a producer of the same kind. -/
theorem sameProducers_insert {X Y : List Operation} {op : Operation} {n : Nat}
    (dups : List Operation) (op' : Operation) (hfresh : ∀ o ∈ X ++ op :: Y, o.id < n)
    (hment : ∀ o ∈ X ++ op :: Y, ∀ m ∈ mentionedIds o, m < n)
    (hd : ∀ d ∈ dups, n ≤ d.id) (hid : op'.id = op.id) (hname : op'.name = op.name)
    (hop0 : op.name = .dequantize →
      (match getOperand op' 0 with
        | none => false
        | some w => matchConstantValue (X ++ dups ++ op' :: Y) w) =
      (match getOperand op 0 with
        | none => false
        | some w => matchConstantValue (X ++ op :: Y) w)) :
    SameProducers n (X ++ op :: Y) (X ++ dups ++ op' :: Y) := by
  intro x hx
  refine ⟨matchConstantValue_insert dups op' hfresh hd hid hname x hx, ?_⟩
  cases x with
  | blockArgument a => simp [clonable, getDefiningOp]
  | opResult owner k =>
    have hlt : owner < n := hx owner rfl
    simp only [clonable, getDefiningOp]
    cases hf : (X ++ op :: Y).find? (fun o => o.id == owner) with
    | none => rw [find_insert_none dups op' hlt hd hid hf]
    | some p =>
      have hp : p ∈ X ++ op :: Y := List.mem_of_find?_eq_some hf
      rcases find_insert_some dups op' hfresh hd hid hf with h | ⟨rfl, h⟩
      · rw [h]
        simp only
        cases hw : getOperand p 0 with
        | none => rfl
        | some w =>
          simp only
          rw [matchConstantValue_insert dups op' hfresh hd hid hname w
            (fun m hm => hment p hp m
              (mem_mentionedIds_of_operand (mem_operands_of_getOperand hw) hm))]
      · rw [h]
        simp only
        have hmc : matchConstant op' = matchConstant p := by simp [matchConstant, hname]
        rw [hmc, hname]
        by_cases hdq : p.name = .dequantize
        · rw [hop0 hdq]
        · simp [hdq]

theorem SameProducers.refl (n : Nat) (cur : List Operation) : SameProducers n cur cur :=
  fun _ _ => ⟨rfl, rfl⟩

theorem SameProducers.trans {n n' : Nat} {a b c : List Operation} (hn : n ≤ n')
    (h1 : SameProducers n a b) (h2 : SameProducers n' b c) : SameProducers n a c := by
  intro x hx
  have hx' : ∀ m, x.owner? = some m → m < n' := fun m hm => lt_of_lt_of_le (hx m hm) hn
  exact ⟨(h2 x hx').1.trans (h1 x hx).1, (h2 x hx').2.trans (h1 x hx).2⟩

theorem index_zero_of_dequantize {c : OperationName → Option (List Nat)} {n i : Nat}
    {op : Operation} {v : Value} (hok : OpOK c n op) (hd : op.name = .dequantize)
    (hv : getOperand op i = some v) : i = 0 := by
  have hlen := hok.1.2 hd
  unfold getOperand at hv
  obtain ⟨hlt, -⟩ := List.getElem?_eq_some_iff.mp hv
  omega

/-- The loop body keeps the kind of the producers of the values allocated
before it. -/
theorem duplicateAtIndex_sameProducers (c : OperationName → Option (List Nat))
    (before after : List Operation) (i : Nat) (s : VisitState)
    (hIR : IRInv c (before ++ s.created ++ s.op :: after) s.nextId) :
    SameProducers s.nextId (before ++ s.created ++ s.op :: after)
      (before ++ (duplicateAtIndex before after i s).2.created ++
        (duplicateAtIndex before after i s).2.op :: after) := by
  have hfresh : ∀ o ∈ before ++ s.created ++ s.op :: after, o.id < s.nextId :=
    fun o ho => (hIR.2 o ho).2.2.2 o.id (by simp [mentionedIds])
  have hment : ∀ o ∈ before ++ s.created ++ s.op :: after, ∀ m ∈ mentionedIds o,
      m < s.nextId := fun o ho => (hIR.2 o ho).2.2.2
  have hX : ∀ o ∈ before ++ s.created, o.id < s.nextId :=
    fun o ho => hfresh o (List.mem_append_left _ ho)
  have hopok := hIR.2 s.op (by simp)
  rcases duplicateAtIndex_cases before after i s with ⟨-, e⟩ | ⟨v, -, -, e⟩ |
    ⟨v, -, -, -, r, dg, e, -⟩ | ⟨v, p, hop, -, -, hp, hpc, e⟩ |
    ⟨v, D, w, Q, hop, -, -, hD, hDc, hDq, hw, hQ, hQc, e⟩
  · rw [e]; exact SameProducers.refl _ _
  · rw [e]; exact SameProducers.refl _ _
  · rw [e]; exact SameProducers.refl _ _
  · rw [e]
    simp only
    rw [← List.append_assoc before]
    apply sameProducers_insert [clone p s.nextId] (setOperand s.op i (.opResult s.nextId 0))
      hfresh hment (by simp [clone]) rfl rfl
    intro hd
    have hi := index_zero_of_dequantize hopok hd hop
    subst hi
    rw [getOperand_setOperand_same hop, hop]
    have hnew : getDefiningOp (before ++ s.created ++ [clone p s.nextId] ++
        setOperand s.op 0 (.opResult s.nextId 0) :: after) (.opResult s.nextId 0) =
        some (clone p s.nextId) := find_new_first (clone p s.nextId) hX rfl
    simp only [matchConstantValue, hp, hnew]
    simp only [matchConstant, clone] at hpc ⊢
  · rw [e]
    simp only
    rw [← List.append_assoc before]
    apply sameProducers_insert
      [clone Q s.nextId, setOperand (clone D (s.nextId + 1)) 0 (.opResult s.nextId 0)]
      (setOperand s.op i (.opResult (s.nextId + 1) 0))
      hfresh hment (by simp [clone, setOperand]) rfl rfl
    intro hd
    have hi := index_zero_of_dequantize hopok hd hop
    subst hi
    rw [getOperand_setOperand_same hop, hop]
    have hnew : getDefiningOp (before ++ s.created ++
        [clone Q s.nextId, setOperand (clone D (s.nextId + 1)) 0 (.opResult s.nextId 0)] ++
        setOperand s.op 0 (.opResult (s.nextId + 1) 0) :: after) (.opResult (s.nextId + 1) 0) =
        some (setOperand (clone D (s.nextId + 1)) 0 (.opResult s.nextId 0)) :=
      find_new_second (clone Q s.nextId) _ hX rfl rfl
    simp only [matchConstantValue, hD, hnew]
    simp only [matchConstant, clone, setOperand] at hDc ⊢

theorem duplicateAtIndices_sameProducers (c : OperationName → Option (List Nat))
    (before after : List Operation) (idxs : List Nat) (s : VisitState)
    (hIR : IRInv c (before ++ s.created ++ s.op :: after) s.nextId) :
    SameProducers s.nextId (before ++ s.created ++ s.op :: after)
      (before ++ (duplicateAtIndices before after idxs s).2.created ++
        (duplicateAtIndices before after idxs s).2.op :: after) :=
  (duplicateAtIndices_rel
    (fun a b => IRInv c (before ++ a.created ++ a.op :: after) a.nextId →
      (IRInv c (before ++ b.created ++ b.op :: after) b.nextId ∧ a.nextId ≤ b.nextId ∧
        SameProducers a.nextId (before ++ a.created ++ a.op :: after)
          (before ++ b.created ++ b.op :: after)))
    (fun _ h => ⟨h, le_refl _, SameProducers.refl _ _⟩)
    (fun _ _ _ h1 h2 h =>
      ⟨(h2 (h1 h).1).1, le_trans (h1 h).2.1 (h2 (h1 h).1).2.1,
        SameProducers.trans (h1 h).2.1 (h1 h).2.2 (h2 (h1 h).1).2.2⟩)
    before after idxs
    (fun i _ s h => ⟨duplicateAtIndex_IRInv c before after i s h,
      (duplicateAtIndex_created before after i s).1,
      duplicateAtIndex_sameProducers c before after i s h⟩) s hIR).2.2

/-- The traversal keeps the kind of the producers of the values allocated
before it. -/
theorem visitBlock_sameProducers (c : OperationName → Option (List Nat)) (d l : List Operation) :
    ∀ (post pre : List Operation) (st : PassState),
      IRInv c (d ++ pre ++ post ++ l) st.nextId →
      SameProducers st.nextId (d ++ pre ++ post ++ l)
        (d ++ (visitBlock c d l pre post st).2.1 ++ l) := by
  intro post
  induction post with
  | nil => intro pre st _; simpa [visitBlock_nil] using SameProducers.refl _ _
  | cons op rest ih =>
    intro pre st hIR
    have h0 : IRInv c (d ++ pre ++ [] ++ op :: (rest ++ l)) st.nextId := by
      simpa only [List.append_assoc, List.cons_append, List.nil_append, List.append_nil]
        using hIR
    have hIR1 := duplicateAtIndices_IRInv c (d ++ pre) (rest ++ l) (statefulIndices c op)
      ⟨[], op, st.values, st.nextId, st.diags⟩ h0
    have hn1 := (duplicateAtIndices_created (d ++ pre) (rest ++ l) (statefulIndices c op)
      ⟨[], op, st.values, st.nextId, st.diags⟩).1
    have hK1 := duplicateAtIndices_sameProducers c (d ++ pre) (rest ++ l)
      (statefulIndices c op) ⟨[], op, st.values, st.nextId, st.diags⟩ h0
    cases hD : DuplicateValueIfNeeded c (d ++ pre) (rest ++ l)
        ⟨[], op, st.values, st.nextId, st.diags⟩ with
    | mk r s =>
      have hD' := hD
      rw [DuplicateValueIfNeeded_eq] at hD'
      rw [hD'] at hIR1 hn1 hK1
      simp only at hIR1 hn1 hK1
      have hK1' : SameProducers st.nextId (d ++ pre ++ (op :: rest) ++ l)
          (d ++ (pre ++ s.created ++ [s.op]) ++ rest ++ l) := by
        simpa only [List.append_assoc, List.cons_append, List.nil_append, List.append_nil]
          using hK1
      by_cases hr : r = .success
      · subst hr
        rw [visitBlock_cons_success hD]
        have hIR1' : IRInv c (d ++ (pre ++ s.created ++ [s.op]) ++ rest ++ l) s.nextId := by
          simpa only [List.append_assoc, List.cons_append, List.nil_append] using hIR1
        exact SameProducers.trans hn1 hK1'
          (ih (pre ++ s.created ++ [s.op]) ⟨s.values, s.nextId, s.diags⟩ hIR1')
      · rw [visitBlock_cons_stop hr hD]
        simpa only [List.append_assoc, List.cons_append, List.nil_append, List.append_nil]
          using hK1'

/-- The producers at the point the traversal has reached after visiting the
operations `A` and the indices `is1` of the next operation `o`. -/
theorem reached_sameProducers (c : OperationName → Option (List Nat))
    (A B preA : List Operation) (o : Operation) (is1 : List Nat) (st stA : PassState)
    (s1 : VisitState) (hIR : IRInv c (A ++ o :: B) st.nextId)
    (hA : visitBlock c [] (o :: B) [] A st = (.success, preA, stA))
    (h1 : duplicateAtIndices preA B is1 ⟨[], o, stA.values, stA.nextId, stA.diags⟩ =
      (.success, s1)) :
    SameProducers st.nextId (A ++ o :: B) (preA ++ s1.created ++ s1.op :: B) := by
  have hIR0 : IRInv c ([] ++ [] ++ A ++ (o :: B)) st.nextId := by simpa using hIR
  have hIRA := visitBlock_IRInv c [] (o :: B) A [] st hIR0
  have hKA := visitBlock_sameProducers c [] (o :: B) A [] st hIR0
  have hnA := visitBlock_nextId c [] (o :: B) A [] st
  rw [hA] at hIRA hKA hnA
  simp only [List.nil_append] at hIRA hKA hnA
  have hIRA' : IRInv c (preA ++ [] ++ o :: B) stA.nextId := by simpa using hIRA
  have hK1 := duplicateAtIndices_sameProducers c preA B is1
    ⟨[], o, stA.values, stA.nextId, stA.diags⟩ hIRA'
  rw [h1] at hK1
  simp only [List.append_nil] at hK1
  exact SameProducers.trans hnA hKA hK1

/-! ## When the pass fails -/

theorem two_mem_split {α : Type} {l : List α} {a b : α} (ha : a ∈ l) (hb : b ∈ l)
    (hne : a ≠ b) :
    (∃ X Y Z, l = X ++ a :: Y ++ b :: Z) ∨ (∃ X Y Z, l = X ++ b :: Y ++ a :: Z) := by
  obtain ⟨X, R, rfl⟩ := List.append_of_mem ha
  simp only [List.mem_append, List.mem_cons] at hb
  rcases hb with hb | hb | hb
  · obtain ⟨X1, X2, rfl⟩ := List.append_of_mem hb
    exact Or.inr ⟨X1, X2, R, by simp⟩
  · exact absurd hb.symm hne
  · obtain ⟨Y, Z, rfl⟩ := List.append_of_mem hb
    exact Or.inl ⟨X, Y, Z, by simp⟩

/-- Of two distinct stateful slots holding `v`, one comes later in traversal
order: it is slot `i` of an operation `o` with `v` held by a slot of the
operations before `o` or by an earlier index of `o`. -/
theorem later_slot_of_pair {c : OperationName → Option (List Nat)} {ops : List Operation}
    {o1 o2 : Operation} {i1 i2 : Nat} {v : Value} (h1 : o1 ∈ ops) (h2 : o2 ∈ ops)
    (hi1 : i1 ∈ statefulIndices c o1) (hi2 : i2 ∈ statefulIndices c o2)
    (hne : o1 ≠ o2 ∨ i1 ≠ i2) (hv1 : getOperand o1 i1 = some v)
    (hv2 : getOperand o2 i2 = some v) :
    ∃ A o B is1 i is2, ops = A ++ o :: B ∧ statefulIndices c o = is1 ++ i :: is2 ∧
      getOperand o i = some v ∧
      (v ∈ slotValues c A ∨ ∃ j ∈ is1, getOperand o j = some v) := by
  by_cases ho : o1 = o2
  · subst ho
    have hi : i1 ≠ i2 := by
      rcases hne with h | h
      · exact absurd rfl h
      · exact h
    obtain ⟨A, B, rfl⟩ := List.append_of_mem h1
    rcases two_mem_split hi1 hi2 hi with ⟨X, Y, Z, e⟩ | ⟨X, Y, Z, e⟩
    · exact ⟨A, o1, B, X ++ i1 :: Y, i2, Z, rfl, by rw [e], hv2, Or.inr ⟨i1, by simp, hv1⟩⟩
    · exact ⟨A, o1, B, X ++ i2 :: Y, i1, Z, rfl, by rw [e], hv1, Or.inr ⟨i2, by simp, hv2⟩⟩
  · rcases two_mem_split h1 h2 ho with ⟨X, Y, Z, e⟩ | ⟨X, Y, Z, e⟩
    · obtain ⟨J, K, e2⟩ := List.append_of_mem hi2
      exact ⟨X ++ o1 :: Y, o2, Z, J, i2, K, e, e2, hv2,
        Or.inl (mem_slotValues.mpr ⟨o1, by simp, i1, hi1, hv1⟩)⟩
    · obtain ⟨J, K, e2⟩ := List.append_of_mem hi1
      exact ⟨X ++ o2 :: Y, o1, Z, J, i1, K, e, e2, hv1,
        Or.inl (mem_slotValues.mpr ⟨o2, by simp, i2, hi2, hv2⟩)⟩

/-- When the traversal succeeds, the value of a stateful slot that an earlier
slot holds too is clonable. -/
theorem later_slot_clonable (c : OperationName → Option (List Nat)) (A B : List Operation)
    (o : Operation) (is1 is2 : List Nat) (i : Nat) (v : Value) (st : PassState)
    (hIR : IRInv c (A ++ o :: B) st.nextId)
    (hold : ∀ x ∈ A ++ o :: B, ∀ y ∈ x.operands, isOld st.nextId y)
    (hidx : statefulIndices c o = is1 ++ i :: is2) (hop : getOperand o i = some v)
    (hseen : v ∈ slotValues c A ∨ ∃ j ∈ is1, getOperand o j = some v)
    (hs : (visitBlock c [] [] [] (A ++ o :: B) st).1 = .success) :
    clonable (A ++ o :: B) v = true := by
  have hwf := hIR.wellFormed
  have hnrA : NonRepeating c A := fun x hx => hwf.2.2 x (by simp [hx])
  have hnd : (is1 ++ i :: is2).Nodup := by rw [← hidx]; exact hwf.2.2 o (by simp)
  have hnd' := List.nodup_append.mp hnd
  have hi1 : i ∉ is1 := fun h => hnd'.2.2 h (List.mem_cons_self _ _)
  have hsup := visitBlock_values_sup c [] (o :: B ++ []) A [] st hnrA
  have hloc := visitBlock_locate c [] [] A B [] o st
  rcases hloc with ⟨-, h, -⟩ | ⟨hA, tail, -, hsD⟩
  · exact absurd hs h
  have hsD := hsD hs
  simp only [List.append_nil] at hsup hA hsD
  cases hRA : visitBlock c [] (o :: B) [] A st with
  | mk rA p =>
    obtain ⟨preA, stA⟩ := p
    rw [hRA] at hsup hA hsD
    simp only [List.nil_append] at hsup hA hsD
    subst hA
    rw [DuplicateValueIfNeeded_eq] at hsD
    simp only [hidx] at hsD
    obtain ⟨hs1, e1⟩ := duplicateAtIndices_append_success hsD
    rw [e1] at hsD
    have hop1 := duplicateAtIndices_other preA B is1 i hi1
      ⟨[], o, stA.values, stA.nextId, stA.diags⟩
    have hmono := duplicateAtIndices_values_mono preA B is1
      ⟨[], o, stA.values, stA.nextId, stA.diags⟩
    have hsup1 := duplicateAtIndices_values_sup preA B is1 hnd'.1
      ⟨[], o, stA.values, stA.nextId, stA.diags⟩ hs1
    cases h1 : duplicateAtIndices preA B is1 ⟨[], o, stA.values, stA.nextId, stA.diags⟩ with
    | mk r1 s1 =>
      rw [h1] at hs1 hsD hop1 hmono hsup1
      simp only at hs1 hsD hop1 hmono hsup1
      subst hs1
      have hK := reached_sameProducers c A B preA o is1 st stA s1 hIR hRA h1
      have hvold : ∀ m, v.owner? = some m → m < st.nextId :=
        hold o (by simp) v (mem_operands_of_getOperand hop)
      have hv1 : v ∈ s1.values := by
        rcases hseen with h | ⟨j, hj, h⟩
        · exact hmono v (hsup rfl v (Or.inr h))
        · exact hsup1 j hj v h
      rw [← (hK v hvold).2]
      rcases duplicateAtIndex_cases preA B i s1 with ⟨h0, -⟩ | ⟨w, h0, hw, -⟩ |
        ⟨w, -, -, -, r, dg, e, hr⟩ | ⟨w, p, h0, -, hc, -, -, -⟩ |
        ⟨w, D, w', Q, h0, -, hc, -, -, -, -, -, -, -⟩
      · rw [hop1, hop] at h0; simp at h0
      · rw [hop1, hop] at h0
        simp only [Option.some.injEq] at h0
        subst h0
        exact absurd hv1 hw
      · exfalso
        have hne : r ≠ .success := by
          rcases hr with rfl | ⟨rfl, -⟩ <;> simp
        rw [duplicateAtIndices_cons_stop hne e] at hsD
        exact hne hsD
      · rw [hop1, hop] at h0
        simp only [Option.some.injEq] at h0
        subst h0
        exact hc
      · rw [hop1, hop] at h0
        simp only [Option.some.injEq] at h0
        subst h0
        exact hc

/-- C2. Failure characterisation on the input: on a well-formed function and
with in-range, non-repeating classifier indices, the pass reports failure if
and only if the input function has two distinct stateful slots holding the same
value `v` such that `v` has no defining operation or its defining operation is
neither a constant nor a dequantize whose input is produced by a constant; in
every other case the pass returns success. -/
theorem failure_iff_unclonable_collision (c : OperationName → Option (List Nat))
    (func : List (List Operation)) (hwf : WellFormed func.flatten)
    (hir : InRange c func.flatten) (hnr : NonRepeating c func.flatten) :
    ((runOnOperation c func).1 = .failure ↔ UnclonableCollision c func.flatten) ∧
    (¬ UnclonableCollision c func.flatten → (runOnOperation c func).1 = .success) := by
  obtain ⟨hr, -, -, -⟩ := runOnOperation_flat c func
  rw [hr]
  have hIRw := IRInv_of_wellFormed hwf hir hnr
  have hnoabort := visitBlock_no_abort c func.flatten ⟨[], freshId func.flatten, []⟩ hIRw
  have hops : func.flatten.Nodup := List.Nodup.of_map _ hwf.1
  have hiff : (visitBlock c [] [] [] func.flatten ⟨[], freshId func.flatten, []⟩).1 = .failure ↔
      UnclonableCollision c func.flatten := by
    constructor
    · intro hf
      obtain ⟨A, o, B, is1, j, is2, preA, stA, s1, s2, e, e2, h1, h2, h3, -⟩ :=
        visitBlock_stop_config c func.flatten ⟨[], freshId func.flatten, []⟩
          (by rw [hf]; simp)
      rw [hf] at h3
      have hnd : (is1 ++ j :: is2).Nodup := by
        rw [← e2]; exact hnr o (by rw [e]; simp)
      have hnd' := List.nodup_append.mp hnd
      have hj : j ∉ is1 := fun h => hnd'.2.2 h (List.mem_cons_self _ _)
      have hoth := duplicateAtIndices_other preA B is1 j hj
        ⟨[], o, stA.values, stA.nextId, stA.diags⟩
      have hsub1 := duplicateAtIndices_values_sub preA B is1 hnd'.1
        ⟨[], o, stA.values, stA.nextId, stA.diags⟩
      have hsubA := visitBlock_values_sub c [] (o :: B) A [] ⟨[], freshId func.flatten, []⟩
        (fun x hx => hnr x (by rw [e]; simp [hx]))
      have hK := reached_sameProducers c A B preA o is1 ⟨[], freshId func.flatten, []⟩ stA s1
        (by rw [← e]; exact hIRw) h1 h2
      rw [h2] at hoth hsub1
      rw [h1] at hsubA
      simp only at hoth hsub1 hsubA
      rcases duplicateAtIndex_cases preA B j s1 with ⟨-, e3⟩ | ⟨v, -, -, e3⟩ |
        ⟨v, hop, hv, hcl, r, dg, e3, -⟩ | ⟨v, p, -, -, -, -, -, e3⟩ |
        ⟨v, D, w, Q, -, -, -, -, -, -, -, -, -, e3⟩
      · rw [h3] at e3; simp at e3
      · rw [h3] at e3; simp at e3
      · have hjo : j ∈ statefulIndices c o := by rw [e2]; simp
        have ho : o ∈ func.flatten := by rw [e]; simp
        have hopo : getOperand o j = some v := by rw [← hoth]; exact hop
        have hun : Unclonable func.flatten v := by
          rw [unclonable_iff]
          have hvold : ∀ m, v.owner? = some m → m < freshId func.flatten :=
            isOld_of_mem_freshId o ho v (mem_operands_of_getOperand hopo)
          have := (hK v hvold).2
          rw [← e] at this
          rw [← this]; exact hcl
        rcases hsub1 v hv with hvA | ⟨i1, hi1, hvi1⟩
        · rcases hsubA v hvA with h | h
          · simp at h
          · obtain ⟨o1, ho1, i1, hi1, hvi1⟩ := mem_slotValues.mp h
            refine ⟨o1, by rw [e]; simp [ho1], o, ho, i1, hi1, j, hjo, v, Or.inl ?_, hvi1,
              hopo, hun⟩
            rintro rfl
            rw [e] at hops
            exact (List.nodup_append.mp hops).2.2 ho1 (List.mem_cons_self _ _)
        · refine ⟨o, ho, o, ho, i1, by rw [e2]; simp [hi1], j, hjo, v, Or.inr ?_, hvi1,
            hopo, hun⟩
          rintro rfl
          exact hj hi1
      · rw [h3] at e3; simp at e3
      · rw [h3] at e3; simp at e3
    · rintro ⟨o1, h1, o2, h2, i1, hi1, i2, hi2, v, hne, hv1, hv2, hun⟩
      obtain ⟨A, o, B, is1, i, is2, e, e2, hop, hseen⟩ :=
        later_slot_of_pair h1 h2 hi1 hi2 hne hv1 hv2
      rw [unclonable_iff] at hun
      cases hres : (visitBlock c [] [] [] func.flatten ⟨[], freshId func.flatten, []⟩).1 with
      | failure => rfl
      | abort => exact absurd hres hnoabort
      | success =>
        exfalso
        have hold : ∀ x ∈ func.flatten, ∀ y ∈ x.operands, isOld (freshId func.flatten) y :=
          isOld_of_mem_freshId
        generalize freshId func.flatten = n0 at hIRw hres hold
        rw [e] at hIRw hres hold hun
        have := later_slot_clonable c A B o is1 is2 i v ⟨[], n0, []⟩ hIRw hold e2 hop hseen hres
        rw [this] at hun
        simp at hun
  refine ⟨hiff, fun hno => ?_⟩
  cases hres : (visitBlock c [] [] [] func.flatten ⟨[], freshId func.flatten, []⟩).1 with
  | failure => exact absurd (hiff.mp hres) hno
  | abort => exact absurd hres hnoabort
  | success => rfl

/-- Witness of `failure_iff_unclonable_collision`: the pass fails on scenario
D, which therefore has an unclonable collision, and succeeds on scenario A,
which has none. -/
theorem failure_iff_unclonable_collision_witness :
    UnclonableCollision exampleClassifier scenarioD.flatten ∧
    ¬ UnclonableCollision exampleClassifier scenarioA.flatten :=
  ⟨(failure_iff_unclonable_collision exampleClassifier scenarioD (by decide) (by decide)
      (by decide)).1.mp (by decide),
    fun h => absurd
      ((failure_iff_unclonable_collision exampleClassifier scenarioA (by decide) (by decide)
        (by decide)).1.mpr h) (by decide)⟩

/-! ## The diagnostics of a failing pass -/

theorem duplicateAtIndex_diags_success (before after : List Operation) (i : Nat)
    (s : VisitState) (h : (duplicateAtIndex before after i s).1 = .success) :
    (duplicateAtIndex before after i s).2.diags = s.diags := by
  rcases duplicateAtIndex_cases before after i s with ⟨-, e⟩ | ⟨v, -, -, e⟩ |
    ⟨v, -, -, -, r, dg, e, hr⟩ | ⟨v, p, -, -, -, -, -, e⟩ |
    ⟨v, D, w, Q, -, -, -, -, -, -, -, -, -, e⟩
  · rw [e] at h; simp at h
  · rw [e]
  · rw [e] at h
    rcases hr with rfl | ⟨rfl, -⟩ <;> simp at h
  · rw [e]
  · rw [e]

theorem duplicateAtIndices_diags_success (before after : List Operation) :
    ∀ (idxs : List Nat) (s : VisitState),
      (duplicateAtIndices before after idxs s).1 = .success →
      (duplicateAtIndices before after idxs s).2.diags = s.diags := by
  intro idxs
  induction idxs with
  | nil => intro s _; rfl
  | cons i rest ih =>
    intro s h
    have h1 := duplicateAtIndex_diags_success before after i s
    cases hs : duplicateAtIndex before after i s with
    | mk r s' =>
      rw [hs] at h1
      by_cases hr : r = .success
      · subst hr
        rw [duplicateAtIndices_cons_success hs] at h ⊢
        rw [ih s' h]
        exact h1 rfl
      · rw [duplicateAtIndices_cons_stop hr hs] at h
        exact absurd h hr

/-- A successful traversal emits no diagnostic. -/
theorem visitBlock_diags_success (c : OperationName → Option (List Nat)) (d l : List Operation) :
    ∀ (post pre : List Operation) (st : PassState),
      (visitBlock c d l pre post st).1 = .success →
      (visitBlock c d l pre post st).2.2.diags = st.diags := by
  intro post
  induction post with
  | nil => intro pre st _; rfl
  | cons op rest ih =>
    intro pre st h
    have h1 := duplicateAtIndices_diags_success (d ++ pre) (rest ++ l) (statefulIndices c op)
      ⟨[], op, st.values, st.nextId, st.diags⟩
    cases hD : DuplicateValueIfNeeded c (d ++ pre) (rest ++ l)
        ⟨[], op, st.values, st.nextId, st.diags⟩ with
    | mk r s =>
      have hD' := hD
      rw [DuplicateValueIfNeeded_eq] at hD'
      rw [hD'] at h1
      by_cases hr : r = .success
      · subst hr
        rw [visitBlock_cons_success hD] at h ⊢
        rw [ih _ _ h]
        exact h1 rfl
      · rw [visitBlock_cons_stop hr hD] at h
        exact absurd h hr

/-- The traversal that visits `A` successfully, then the indices `is1` of `o`
successfully, and stops in the loop body at the next index `j`, returns the IR
and the state of that point. -/
theorem visitBlock_at_stop (c : OperationName → Option (List Nat)) (A B preA : List Operation)
    (o : Operation) (is1 is2 : List Nat) (j : Nat) (st stA : PassState) (s1 s2 : VisitState)
    (r : Outcome) (hidx : statefulIndices c o = is1 ++ j :: is2)
    (hA : visitBlock c [] (o :: B) [] A st = (.success, preA, stA))
    (h1 : duplicateAtIndices preA B is1 ⟨[], o, stA.values, stA.nextId, stA.diags⟩ =
      (.success, s1))
    (h2 : duplicateAtIndex preA B j s1 = (r, s2)) (hr : r ≠ .success) :
    visitBlock c [] [] [] (A ++ o :: B) st =
      (r, preA ++ s2.created ++ s2.op :: B, ⟨s2.values, s2.nextId, s2.diags⟩) := by
  have hD : DuplicateValueIfNeeded c ([] ++ preA) (B ++ [])
      ⟨[], o, stA.values, stA.nextId, stA.diags⟩ = (r, s2) := by
    rw [DuplicateValueIfNeeded_eq]
    simp only [hidx, List.nil_append, List.append_nil]
    rw [duplicateAtIndices_append, h1]
    simp only
    rw [duplicateAtIndices_cons_stop hr h2]
  rw [visitBlock_append]
  simp only [List.append_nil]
  rw [hA]
  simp only
  rw [visitBlock_cons_stop hr hD]

/-- The loop body on a seen value without defining operation: failure, and
nothing else happens (no diagnostic). -/
theorem duplicateAtIndex_missing_producer {before after : List Operation} {j : Nat}
    {s : VisitState} {v : Value} (hop : getOperand s.op j = some v) (hseen : v ∈ s.values)
    (hdef : getDefiningOp (before ++ s.created ++ s.op :: after) v = none) :
    duplicateAtIndex before after j s = (.failure, s) := by
  simp only [duplicateAtIndex, hop, hseen, hdef, if_true]

/-- The loop body on a seen value whose producer is not clonable: failure after
one diagnostic on the consuming operation. -/
theorem duplicateAtIndex_not_constant {before after : List Operation} {j : Nat}
    {s : VisitState} {v : Value} {p : Operation} (hop : getOperand s.op j = some v)
    (hseen : v ∈ s.values)
    (hdef : getDefiningOp (before ++ s.created ++ s.op :: after) v = some p)
    (hnc : matchConstant p = false)
    (hdq : p.name = .dequantize → ∃ w, getOperand p 0 = some w ∧
      matchConstantValue (before ++ s.created ++ s.op :: after) w = false) :
    duplicateAtIndex before after j s =
      (.failure, { s with diags := s.diags ++ [⟨some s.op.id, notConstantMessage⟩] }) := by
  simp only [duplicateAtIndex, hop, hseen, hdef, hnc, if_true]
  by_cases hd : p.name = .dequantize
  · obtain ⟨w, hw, hm⟩ := hdq hd
    simp only [hd, hw, if_true]
    unfold matchConstantValue at hm
    cases hg : getDefiningOp (before ++ s.created ++ s.op :: after) w with
    | none => simp [emitNotConstant]
    | some inner =>
      rw [hg] at hm
      have hm2 : matchConstant inner = false := hm
      simp [hm2, emitNotConstant]
  · simp [hd, emitNotConstant]

theorem runOnOperation_diags (c : OperationName → Option (List Nat))
    (func : List (List Operation)) :
    (runOnOperation c func).2.2.diags =
      (visitBlock c [] [] [] func.flatten ⟨[], freshId func.flatten, []⟩).2.2.diags ++
        (if (runOnOperation c func).1 = .failure then [⟨none, failedMessage⟩] else []) := by
  have h := visitBlocks_flat c func [] ⟨[], freshId func.flatten, []⟩
  simp only [List.flatten_nil] at h
  exact h.2.2.2.2

/-- C11 (amended). A failure carries no error kind. Let the pass have visited
successfully the operations `A` before `o` and the stateful indices `is1` of
`o`, and let operand `j` of `o`, the next stateful index, hold a value `v` of
the seen set. If `v` has no defining operation (a block argument), the pass
returns `failure` and its only diagnostic is the one on the function. If `v`
is defined by an operation that is neither a constant nor a dequantize with a
constant input, the pass returns the same `failure` and emits the diagnostic on
the consuming operation before the one on the function. The two cases differ
in the diagnostics only. -/
theorem failure_without_error_kind (c : OperationName → Option (List Nat))
    (func : List (List Operation)) (A B preA : List Operation) (o : Operation)
    (is1 is2 : List Nat) (j : Nat) (stA : PassState) (s1 : VisitState) (v : Value)
    (hsplit : func.flatten = A ++ o :: B) (hidx : statefulIndices c o = is1 ++ j :: is2)
    (hA : visitBlock c [] (o :: B) [] A ⟨[], freshId func.flatten, []⟩ = (.success, preA, stA))
    (h1 : duplicateAtIndices preA B is1 ⟨[], o, stA.values, stA.nextId, stA.diags⟩ =
      (.success, s1))
    (hop : getOperand s1.op j = some v) (hseen : v ∈ s1.values) :
    (getDefiningOp (preA ++ s1.created ++ s1.op :: B) v = none →
      (runOnOperation c func).1 = .failure ∧
      (runOnOperation c func).2.2.diags = [⟨none, failedMessage⟩]) ∧
    (∀ p, getDefiningOp (preA ++ s1.created ++ s1.op :: B) v = some p →
      matchConstant p = false →
      (p.name = .dequantize → ∃ w, getOperand p 0 = some w ∧
        matchConstantValue (preA ++ s1.created ++ s1.op :: B) w = false) →
      (runOnOperation c func).1 = .failure ∧
      (runOnOperation c func).2.2.diags =
        [⟨some o.id, notConstantMessage⟩, ⟨none, failedMessage⟩]) := by
  have hr := (runOnOperation_flat c func).1
  have hd := runOnOperation_diags c func
  generalize freshId func.flatten = n0 at hr hd hA
  have hdA := visitBlock_diags_success c [] (o :: B) A [] ⟨[], n0, []⟩ (by rw [hA])
  have hd1 := duplicateAtIndices_diags_success preA B is1
    ⟨[], o, stA.values, stA.nextId, stA.diags⟩ (by rw [h1])
  have hid := (duplicateAtIndices_op preA B is1 ⟨[], o, stA.values, stA.nextId, stA.diags⟩).1
  rw [hA] at hdA
  rw [h1] at hd1 hid
  simp only at hdA hd1 hid
  have hs1 : s1.diags = [] := by rw [hd1, hdA]
  rw [hsplit] at hr hd
  refine ⟨?_, ?_⟩
  · intro hdef
    have hstop := visitBlock_at_stop c A B preA o is1 is2 j ⟨[], n0, []⟩ stA
      s1 s1 .failure hidx hA h1 (duplicateAtIndex_missing_producer hop hseen hdef) (by simp)
    rw [hstop] at hr hd
    rw [hr] at hd
    exact ⟨hr, by rw [hd, hs1]; rfl⟩
  · intro p hdef hnc hdq
    have hstop := visitBlock_at_stop c A B preA o is1 is2 j ⟨[], n0, []⟩ stA
      s1 _ .failure hidx hA h1 (duplicateAtIndex_not_constant hop hseen hdef hnc hdq)
      (by simp)
    rw [hstop] at hr hd
    rw [hr] at hd
    exact ⟨hr, by rw [hd]; simp [hs1, hid]⟩

theorem failure_without_error_kind_witness :
    (runOnOperation exampleClassifier scenarioC).1 = .failure ∧
    (runOnOperation exampleClassifier scenarioC).2.2.diags = [⟨none, failedMessage⟩] :=
  (failure_without_error_kind exampleClassifier scenarioC [exW] [] [exW]
    ⟨3, .other 7, 0, [.blockArgument 0]⟩ [] [] 0 ⟨[.blockArgument 0], 4, []⟩
    ⟨[], ⟨3, .other 7, 0, [.blockArgument 0]⟩, [.blockArgument 0], 4, []⟩ (.blockArgument 0)
    (by decide) (by decide) (by decide) (by decide) (by decide) (by decide)).1 (by decide)

/-- C11, counterexample. The pass fails on a shared block argument (scenario
C) and on a shared non-constant producer (scenario D) with the same result;
the resolver returns the same value in both cases; and the failure on the
block argument emits nothing that the other failure does not emit: no error
kind, and no diagnostic, names a missing producer. -/
theorem missing_producer_has_no_error_kind :
    (runOnOperation exampleClassifier scenarioC).1 = .failure ∧
    (runOnOperation exampleClassifier scenarioD).1 = .failure ∧
    (runOnOperation exampleClassifier scenarioC).1 =
      (runOnOperation exampleClassifier scenarioD).1 ∧
    (DuplicateValueIfNeeded exampleClassifier [exW] []
      ⟨[], ⟨3, .other 7, 0, [.blockArgument 0]⟩, [.blockArgument 0], 4, []⟩).1 =
    (DuplicateValueIfNeeded exampleClassifier [exA, ⟨2, .other 7, 0, [.opResult 1 0]⟩] []
      ⟨[], ⟨3, .other 7, 0, [.opResult 1 0]⟩, [.opResult 1 0], 4, []⟩).1 ∧
    (runOnOperation exampleClassifier scenarioC).2.2.diags = [⟨none, failedMessage⟩] ∧
    (runOnOperation exampleClassifier scenarioD).2.2.diags =
      [⟨some 3, notConstantMessage⟩, ⟨none, failedMessage⟩] ∧
    ∀ d ∈ (runOnOperation exampleClassifier scenarioC).2.2.diags,
      d ∈ (runOnOperation exampleClassifier scenarioD).2.2.diags := by
  decide

/-! ## Placement of the inserted operations -/

theorem cloneRuns_head {d : Operation} {rest : List Operation}
    (h : cloneRuns (d :: rest) = true) : matchConstant d = true := by
  cases rest with
  | nil => simpa [cloneRuns] using h
  | cons e rest' =>
    simp only [cloneRuns, Bool.and_eq_true] at h
    exact h.1

theorem cloneRuns_append : ∀ (xs ys : List Operation),
    cloneRuns xs = true → cloneRuns ys = true → cloneRuns (xs ++ ys) = true := by
  intro xs
  induction xs using cloneRuns.induct with
  | case1 => intro ys _ h; simpa using h
  | case2 q =>
    intro ys hx hy
    cases ys with
    | nil => simpa using hx
    | cons y ys' =>
      have hq : matchConstant q = true := by simpa [cloneRuns] using hx
      have hyc := cloneRuns_head hy
      have hyn : y.name ≠ .dequantize := by
        intro e
        simp [matchConstant, e] at hyc
      simp [cloneRuns, hq, hyn, hy]
  | case3 q d rest ih1 ih2 =>
    intro ys hx hy
    by_cases hd : d.name = .dequantize
    · simp only [cloneRuns, hd, if_true, Bool.and_eq_true] at hx
      simp only [List.cons_append, cloneRuns, hd, if_true, Bool.and_eq_true]
      exact ⟨hx.1, hx.2.1, ih1 ys hx.2.2 hy⟩
    · simp only [cloneRuns, hd, if_false, Bool.and_eq_true] at hx
      simp only [List.cons_append, cloneRuns, hd, if_false, Bool.and_eq_true]
      exact ⟨hx.1, ih2 ys hx.2 hy⟩

/-- The loop body appends a clone run to the operations inserted so far. -/
theorem duplicateAtIndex_cloneRuns (before after : List Operation) (i : Nat) (s : VisitState)
    (h : cloneRuns s.created = true) :
    cloneRuns (duplicateAtIndex before after i s).2.created = true := by
  rcases duplicateAtIndex_cases before after i s with ⟨-, e⟩ | ⟨v, -, -, e⟩ |
    ⟨v, -, -, -, r, dg, e, -⟩ | ⟨v, p, -, -, -, -, hpc, e⟩ |
    ⟨v, D, w, Q, -, -, -, -, -, hDq, hw, -, hQc, e⟩
  · rw [e]; exact h
  · rw [e]; exact h
  · rw [e]; exact h
  · rw [e]
    apply cloneRuns_append _ _ h
    simpa [cloneRuns, matchConstant, clone] using hpc
  · rw [e]
    apply cloneRuns_append _ _ h
    have h0 : getOperand (setOperand (clone D (s.nextId + 1)) 0 (.opResult s.nextId 0)) 0 =
        some (.opResult s.nextId 0) := getOperand_setOperand_same (o := clone D (s.nextId + 1)) hw
    have hq : matchConstant (clone Q s.nextId) = true := by
      simpa [matchConstant, clone] using hQc
    have hn : (setOperand (clone D (s.nextId + 1)) 0 (.opResult s.nextId 0)).name =
        .dequantize := hDq
    simp only [cloneRuns, hq, hn, h0, if_true, Bool.true_and, Bool.and_true]
    simp [clone]

theorem duplicateAtIndices_cloneRuns (before after : List Operation) (idxs : List Nat)
    (s : VisitState) (h : cloneRuns s.created = true) :
    cloneRuns (duplicateAtIndices before after idxs s).2.created = true :=
  duplicateAtIndices_rel
    (fun a b => cloneRuns a.created = true → cloneRuns b.created = true)
    (fun _ h => h) (fun _ _ _ h1 h2 h => h2 (h1 h)) before after idxs
    (fun i _ s => duplicateAtIndex_cloneRuns before after i s) s h

/-- The traversal of a block puts the operations it inserts for an operation
directly before it and keeps the operations of the block in their order. -/
theorem visitBlock_placed (c : OperationName → Option (List Nat)) (n0 : Nat)
    (d l : List Operation) :
    ∀ (post pre : List Operation) (st : PassState), n0 ≤ st.nextId →
      ∃ segs : List (List Operation × Operation),
        (visitBlock c d l pre post st).2.1 = pre ++ segs.flatMap (fun p => p.1 ++ [p.2]) ∧
        List.Forall₂ (fun o p => SameOperation o p.2 ∧ (∀ x ∈ p.1, n0 ≤ x.id) ∧
          cloneRuns p.1 = true) post segs := by
  intro post
  induction post with
  | nil => intro pre st _; exact ⟨[], by simp [visitBlock_nil], List.Forall₂.nil⟩
  | cons op rest ih =>
    intro pre st hn
    have hop := duplicateAtIndices_op (d ++ pre) (rest ++ l) (statefulIndices c op)
      ⟨[], op, st.values, st.nextId, st.diags⟩
    have hcr := duplicateAtIndices_created (d ++ pre) (rest ++ l) (statefulIndices c op)
      ⟨[], op, st.values, st.nextId, st.diags⟩
    have hruns := duplicateAtIndices_cloneRuns (d ++ pre) (rest ++ l) (statefulIndices c op)
      ⟨[], op, st.values, st.nextId, st.diags⟩ rfl
    cases hD : DuplicateValueIfNeeded c (d ++ pre) (rest ++ l)
        ⟨[], op, st.values, st.nextId, st.diags⟩ with
    | mk r s =>
      have hD' := hD
      rw [DuplicateValueIfNeeded_eq] at hD'
      rw [hD'] at hop hcr hruns
      simp only at hop hcr hruns
      obtain ⟨hnext, new, hnew, hbound⟩ := hcr
      have hseg : SameOperation op s.op ∧ (∀ x ∈ s.created, n0 ≤ x.id) ∧
          cloneRuns s.created = true := by
        refine ⟨hop, ?_, hruns⟩
        intro x hx
        rw [hnew, List.nil_append] at hx
        have := (hbound x hx).1
        omega
      by_cases hr : r = .success
      · subst hr
        rw [visitBlock_cons_success hD]
        obtain ⟨segs, h1, h2⟩ := ih (pre ++ s.created ++ [s.op]) ⟨s.values, s.nextId, s.diags⟩
          (le_trans hn hnext)
        exact ⟨(s.created, s.op) :: segs, by rw [h1]; simp, List.Forall₂.cons hseg h2⟩
      · rw [visitBlock_cons_stop hr hD]
        refine ⟨(s.created, s.op) :: rest.map (fun o => ([], o)), ?_, List.Forall₂.cons hseg ?_⟩
        · simp [List.flatMap_map]
        · rw [List.forall₂_map_right_iff]
          exact List.forall₂_same.mpr
            (fun o _ => ⟨⟨rfl, rfl, rfl, rfl⟩, by simp, rfl⟩)

theorem Placed_refl (n0 : Nat) (b : List Operation) : Placed n0 b b := by
  refine ⟨b.map (fun o => ([], o)), by simp [List.flatMap_map], ?_⟩
  rw [List.forall₂_map_right_iff]
  exact List.forall₂_same.mpr (fun o _ => ⟨⟨rfl, rfl, rfl, rfl⟩, by simp, rfl⟩)

/-- The traversal of the function keeps the blocks in their order and places
the inserted operations in the block of the operation they are inserted for. -/
theorem visitBlocks_placed (c : OperationName → Option (List Nat)) (n0 : Nat) :
    ∀ (todo done : List (List Operation)) (st : PassState), n0 ≤ st.nextId →
      ∃ bs, (visitBlocks c done todo st).2.1 = done ++ bs ∧
        List.Forall₂ (Placed n0) todo bs := by
  intro todo
  induction todo with
  | nil => intro done st _; exact ⟨[], by simp [visitBlocks], List.Forall₂.nil⟩
  | cons bb rest ih =>
    intro done st hn
    obtain ⟨segs, h1, h2⟩ := visitBlock_placed c n0 done.flatten rest.flatten bb [] st hn
    have hnext := visitBlock_nextId c done.flatten rest.flatten bb [] st
    have hrefl : List.Forall₂ (Placed n0) rest rest :=
      List.forall₂_same.mpr (fun b _ => Placed_refl n0 b)
    cases hB : visitBlock c done.flatten rest.flatten [] bb st with
    | mk r p =>
      obtain ⟨bb', st'⟩ := p
      rw [hB] at h1 hnext
      simp only [List.nil_append] at h1 hnext
      have hpl : Placed n0 bb bb' := ⟨segs, h1, h2⟩
      cases r with
      | success =>
        obtain ⟨bs, e1, e2⟩ := ih (done ++ [bb']) st' (le_trans hn hnext)
        refine ⟨bb' :: bs, ?_, List.Forall₂.cons hpl e2⟩
        simp only [visitBlocks, hB]
        rw [e1]; simp
      | failure =>
        exact ⟨bb' :: rest, by simp only [visitBlocks, hB], List.Forall₂.cons hpl hrefl⟩
      | abort =>
        exact ⟨bb' :: rest, by simp only [visitBlocks, hB], List.Forall₂.cons hpl hrefl⟩

/-- Removing the operations allocated by the pass from a placed block gives
back the operations of the input block, in their order. -/
theorem Placed.filter_old {n0 : Nat} {b b' : List Operation} (h : Placed n0 b b')
    (hold : ∀ o ∈ b, o.id < n0) :
    List.Forall₂ SameOperation b (b'.filter (fun x => decide (x.id < n0))) := by
  obtain ⟨segs, rfl, hf⟩ := h
  induction hf with
  | nil => simp
  | @cons o p b segs hp _ ih =>
    have hcl : p.1.filter (fun x => decide (x.id < n0)) = [] := by
      rw [List.filter_eq_nil_iff]
      intro x hx
      have := hp.2.1 x hx
      simp; omega
    have hid : p.2.id < n0 := by
      rw [hp.1.1]; exact hold o (List.mem_cons_self _ _)
    simp only [List.flatMap_cons, List.filter_append, hcl, List.nil_append,
      List.filter_cons, List.filter_nil, hid, decide_True, if_true, List.singleton_append]
    exact List.Forall₂.cons hp.1 (ih (fun x hx => hold x (List.mem_cons_of_mem _ hx)))

/-! ## Definition before use -/

theorem operandsDefined_iff {defs : List Nat} {o : Operation} :
    operandsDefined defs o = true ↔
      ∀ v ∈ o.operands, ∀ m, v.owner? = some m → m ∈ defs := by
  simp only [operandsDefined, List.all_eq_true]
  constructor
  · intro h v hv m hm
    have := h v hv
    rw [hm] at this
    simpa using this
  · intro h v hv
    cases hm : v.owner? with
    | none => rfl
    | some m => simpa using h v hv m hm

theorem defBeforeUse_cons (defs : List Nat) (o : Operation) (rest : List Operation) :
    defBeforeUse defs (o :: rest) =
      (operandsDefined defs o && defBeforeUse (o.id :: defs) rest) := rfl

theorem defBeforeUse_mono : ∀ (L : List Operation) (defs defs' : List Nat),
    (∀ m ∈ defs, m ∈ defs') → defBeforeUse defs L = true → defBeforeUse defs' L = true := by
  intro L
  induction L with
  | nil => intro _ _ _ _; rfl
  | cons o rest ih =>
    intro defs defs' hsub h
    simp only [defBeforeUse, Bool.and_eq_true] at h ⊢
    refine ⟨?_, ih (o.id :: defs) (o.id :: defs') ?_ h.2⟩
    · rw [operandsDefined_iff] at h ⊢
      exact fun v hv m hm => hsub m (h.1 v hv m hm)
    · intro m hm
      rcases List.mem_cons.mp hm with rfl | hm
      · exact List.mem_cons_self _ _
      · exact List.mem_cons_of_mem _ (hsub m hm)

theorem defBeforeUse_append : ∀ (X Y : List Operation) (defs : List Nat),
    defBeforeUse defs (X ++ Y) = true ↔
      defBeforeUse defs X = true ∧ defBeforeUse (X.map Operation.id ++ defs) Y = true := by
  intro X
  induction X with
  | nil => intro Y defs; simp [defBeforeUse]
  | cons o rest ih =>
    intro Y defs
    rw [List.cons_append, defBeforeUse_cons, defBeforeUse_cons, List.map_cons, List.cons_append]
    simp only [Bool.and_eq_true]
    rw [ih Y (o.id :: defs), and_assoc]
    have hperm : defBeforeUse (rest.map Operation.id ++ o.id :: defs) Y = true ↔
        defBeforeUse (o.id :: (rest.map Operation.id ++ defs)) Y = true := by
      constructor <;> intro h <;> refine defBeforeUse_mono Y _ _ ?_ h <;>
        intro m hm <;> simp only [List.mem_append, List.mem_cons] at hm ⊢ <;> tauto
    rw [hperm]

/-- In a list with definition before use, the operands of an operation of the
list are defined by operations of the list (or by `defs`). -/
theorem defBeforeUse_mem : ∀ (X : List Operation) (defs : List Nat),
    defBeforeUse defs X = true → ∀ p ∈ X,
      operandsDefined (X.map Operation.id ++ defs) p = true := by
  intro X
  induction X with
  | nil => intro _ _ p hp; simp at hp
  | cons o rest ih =>
    intro defs h p hp
    simp only [defBeforeUse, Bool.and_eq_true] at h
    rw [operandsDefined_iff]
    intro v hv m hm
    rcases List.mem_cons.mp hp with rfl | hp
    · have := operandsDefined_iff.mp h.1 v hv m hm
      simp [this]
    · have := operandsDefined_iff.mp (ih (o.id :: defs) h.2 p hp) v hv m hm
      simp only [List.mem_append, List.mem_cons, List.map_cons] at this ⊢
      tauto

/-- The first operation with a given identity is in `X` when `X` has one. -/
theorem find_mem_of_mem_ids {X Z : List Operation} {m : Nat} {p : Operation}
    (hm : m ∈ X.map Operation.id)
    (h : (X ++ Z).find? (fun o => o.id == m) = some p) : p ∈ X := by
  obtain ⟨x, hx, hxm⟩ := List.mem_map.mp hm
  rw [List.find?_append] at h
  cases hf : X.find? (fun o => o.id == m) with
  | none =>
    rw [List.find?_eq_none] at hf
    exact absurd (by simpa using hxm) (hf x hx)
  | some q =>
    rw [hf] at h
    have hq : q = p := by simpa using h
    subst hq
    exact List.mem_of_find?_eq_some hf

theorem operandsDefined_setOperand {defs defs' : List Nat} {o : Operation} {j n k : Nat}
    (h : operandsDefined defs o = true) (hn : n ∈ defs') (hsub : ∀ m ∈ defs, m ∈ defs') :
    operandsDefined defs' (setOperand o j (.opResult n k)) = true := by
  rw [operandsDefined_iff] at h ⊢
  intro v hv m hm
  rcases List.mem_or_eq_of_mem_set hv with hv | rfl
  · exact hsub m (h v hv m hm)
  · simp only [Value.owner?, Option.some.injEq] at hm
    exact hm ▸ hn

/-- Inserting operations whose operands are defined before `op` directly
before `op`, and replacing `op` by an operation with its identity whose
operands are defined before it, keeps definition before use. -/
theorem defBeforeUse_insert {X Y : List Operation} {op : Operation} (dups : List Operation)
    (op' : Operation) (h : defBeforeUse [] (X ++ op :: Y) = true) (hid : op'.id = op.id)
    (hd : defBeforeUse (X.map Operation.id) dups = true)
    (hop' : operandsDefined (dups.map Operation.id ++ X.map Operation.id) op' = true) :
    defBeforeUse [] (X ++ dups ++ op' :: Y) = true := by
  rw [defBeforeUse_append, defBeforeUse_cons, Bool.and_eq_true] at h
  rw [defBeforeUse_append, defBeforeUse_append, defBeforeUse_cons, Bool.and_eq_true]
  refine ⟨⟨h.1, defBeforeUse_mono _ _ _ (by simp) hd⟩, ?_, ?_⟩
  · rw [operandsDefined_iff] at hop' ⊢
    intro v hv m hm
    have := hop' v hv m hm
    simp only [List.mem_append, List.map_append] at this ⊢
    tauto
  · refine defBeforeUse_mono _ _ _ ?_ h.2.2
    intro m hm
    simp only [List.mem_cons, List.mem_append, List.map_append, hid] at hm ⊢
    tauto

/-- The producer the pass finds for an operand of `op` is placed before `op`
and its operands are defined before `op`. -/
theorem producer_defined {X Y : List Operation} {op p : Operation} {v : Value}
    (h : defBeforeUse [] (X ++ op :: Y) = true) (hv : v ∈ op.operands)
    (hp : getDefiningOp (X ++ op :: Y) v = some p) :
    p ∈ X ∧ operandsDefined (X.map Operation.id) p = true := by
  rw [defBeforeUse_append, defBeforeUse_cons, Bool.and_eq_true] at h
  have hopd := operandsDefined_iff.mp h.2.1
  cases v with
  | blockArgument a => simp [getDefiningOp] at hp
  | opResult m k =>
    simp only [getDefiningOp] at hp
    have hm : m ∈ X.map Operation.id := by
      simpa using hopd _ hv m rfl
    have hpX := find_mem_of_mem_ids hm hp
    have := defBeforeUse_mem X [] h.1 p hpX
    exact ⟨hpX, by simpa using this⟩

/-- The loop body keeps definition before use, whatever its outcome. -/
theorem duplicateAtIndex_defBeforeUse (before after : List Operation) (i : Nat)
    (s : VisitState) (h : defBeforeUse [] (before ++ s.created ++ s.op :: after) = true) :
    defBeforeUse [] (before ++ (duplicateAtIndex before after i s).2.created ++
      (duplicateAtIndex before after i s).2.op :: after) = true := by
  have hopd : operandsDefined ((before ++ s.created).map Operation.id) s.op = true := by
    have h' := h
    rw [defBeforeUse_append, defBeforeUse_cons, Bool.and_eq_true] at h'
    simpa using h'.2.1
  rcases duplicateAtIndex_cases before after i s with ⟨-, e⟩ | ⟨v, -, -, e⟩ |
    ⟨v, -, -, -, r, dg, e, -⟩ | ⟨v, p, hop, -, -, hp, -, e⟩ |
    ⟨v, D, w, Q, hop, -, -, hD, -, -, hw, hQ, -, e⟩
  · rw [e]; exact h
  · rw [e]; exact h
  · rw [e]; exact h
  · rw [e]
    simp only
    rw [← List.append_assoc before]
    obtain ⟨-, hpd⟩ := producer_defined h (mem_operands_of_getOperand hop) hp
    apply defBeforeUse_insert [clone p s.nextId] (setOperand s.op i (.opResult s.nextId 0)) h rfl
    · simp only [defBeforeUse, Bool.and_true]
      exact hpd
    · exact operandsDefined_setOperand hopd (by simp [clone])
        (fun m hm => List.mem_append_right _ hm)
  · rw [e]
    simp only
    rw [← List.append_assoc before]
    obtain ⟨hDX, hDd⟩ := producer_defined h (mem_operands_of_getOperand hop) hD
    have hQd : operandsDefined ((before ++ s.created).map Operation.id) Q = true := by
      have hwm : ∀ m, w.owner? = some m → m ∈ (before ++ s.created).map Operation.id :=
        operandsDefined_iff.mp hDd w (mem_operands_of_getOperand hw)
      cases w with
      | blockArgument a => simp [getDefiningOp] at hQ
      | opResult m k =>
        simp only [getDefiningOp] at hQ
        have hQX := find_mem_of_mem_ids (hwm m rfl) hQ
        have h' := h
        rw [defBeforeUse_append] at h'
        simpa using defBeforeUse_mem _ [] h'.1 Q hQX
    apply defBeforeUse_insert
      [clone Q s.nextId, setOperand (clone D (s.nextId + 1)) 0 (.opResult s.nextId 0)]
      (setOperand s.op i (.opResult (s.nextId + 1) 0)) h rfl
    · simp only [defBeforeUse, Bool.and_true, Bool.and_eq_true]
      refine ⟨hQd, ?_⟩
      exact operandsDefined_setOperand (o := clone D (s.nextId + 1)) hDd (by simp [clone])
        (fun m hm => List.mem_cons_of_mem _ hm)
    · exact operandsDefined_setOperand hopd (by simp [clone, setOperand])
        (fun m hm => List.mem_append_right _ hm)

theorem duplicateAtIndices_defBeforeUse (before after : List Operation) (idxs : List Nat)
    (s : VisitState) (h : defBeforeUse [] (before ++ s.created ++ s.op :: after) = true) :
    defBeforeUse [] (before ++ (duplicateAtIndices before after idxs s).2.created ++
      (duplicateAtIndices before after idxs s).2.op :: after) = true :=
  duplicateAtIndices_rel
    (fun a b => defBeforeUse [] (before ++ a.created ++ a.op :: after) = true →
      defBeforeUse [] (before ++ b.created ++ b.op :: after) = true)
    (fun _ h => h) (fun _ _ _ h1 h2 h => h2 (h1 h)) before after idxs
    (fun i _ s => duplicateAtIndex_defBeforeUse before after i s) s h

theorem visitBlock_defBeforeUse (c : OperationName → Option (List Nat)) (d l : List Operation) :
    ∀ (post pre : List Operation) (st : PassState),
      defBeforeUse [] (d ++ pre ++ post ++ l) = true →
      defBeforeUse [] (d ++ (visitBlock c d l pre post st).2.1 ++ l) = true := by
  intro post
  induction post with
  | nil => intro pre st h; simpa [visitBlock_nil] using h
  | cons op rest ih =>
    intro pre st h
    have h0 : defBeforeUse [] (d ++ pre ++ [] ++ op :: (rest ++ l)) = true := by
      simpa only [List.append_assoc, List.cons_append, List.nil_append, List.append_nil] using h
    have h1 := duplicateAtIndices_defBeforeUse (d ++ pre) (rest ++ l) (statefulIndices c op)
      ⟨[], op, st.values, st.nextId, st.diags⟩ h0
    cases hD : DuplicateValueIfNeeded c (d ++ pre) (rest ++ l)
        ⟨[], op, st.values, st.nextId, st.diags⟩ with
    | mk r s =>
      have hD' := hD
      rw [DuplicateValueIfNeeded_eq] at hD'
      rw [hD'] at h1
      simp only at h1
      by_cases hr : r = .success
      · subst hr
        rw [visitBlock_cons_success hD]
        apply ih
        simpa only [List.append_assoc, List.cons_append, List.nil_append] using h1
      · rw [visitBlock_cons_stop hr hD]
        simpa only [List.append_assoc, List.cons_append, List.nil_append] using h1

/-- C13. Definition before use is preserved. Read the function in program
order (the blocks in their order, the operations of a block in theirs) and
say that an operand is defined before its use when it is a block argument or
the result of an operation placed earlier. If every operand of every
operation of the input function is defined before its use, then the same
holds for the function the pass leaves: for the original operations with
their rewired operands and for the operations the pass created. This holds
for every classifier and whatever the outcome of the pass is. -/
theorem definition_before_use_preserved (c : OperationName → Option (List Nat))
    (func : List (List Operation)) (h : defBeforeUse [] func.flatten = true) :
    defBeforeUse [] (runOnOperation c func).2.1.flatten = true := by
  rw [(runOnOperation_flat c func).2.1]
  have := visitBlock_defBeforeUse c [] [] func.flatten [] ⟨[], freshId func.flatten, []⟩
    (by simpa using h)
  simpa using this

theorem definition_before_use_preserved_witness :
    defBeforeUse [] scenarioB.flatten = true ∧
    (runOnOperation exampleClassifier scenarioB).2.1.flatten ≠ scenarioB.flatten ∧
    defBeforeUse [] (runOnOperation exampleClassifier scenarioB).2.1.flatten = true :=
  ⟨by decide, by decide,
    definition_before_use_preserved exampleClassifier scenarioB (by decide)⟩

/-! ## The seen set -/

theorem visitBlock_values_mono (c : OperationName → Option (List Nat)) (d l : List Operation) :
    ∀ (post pre : List Operation) (st : PassState),
      ∀ x ∈ st.values, x ∈ (visitBlock c d l pre post st).2.2.values := by
  intro post
  induction post with
  | nil => intro pre st x hx; exact hx
  | cons op rest ih =>
    intro pre st x hx
    have h1 := duplicateAtIndices_values_mono (d ++ pre) (rest ++ l) (statefulIndices c op)
      ⟨[], op, st.values, st.nextId, st.diags⟩ x hx
    cases hD : DuplicateValueIfNeeded c (d ++ pre) (rest ++ l)
        ⟨[], op, st.values, st.nextId, st.diags⟩ with
    | mk r s =>
      have hD' := hD
      rw [DuplicateValueIfNeeded_eq] at hD'
      rw [hD'] at h1
      by_cases hr : r = .success
      · subst hr
        rw [visitBlock_cons_success hD]
        exact ih _ _ x h1
      · rw [visitBlock_cons_stop hr hD]
        exact h1

/-- The seen set reached after a prefix of the traversal is contained in the
seen set at the end of the traversal. -/
theorem visitBlock_values_prefix (c : OperationName → Option (List Nat)) (A B : List Operation)
    (st : PassState) :
    ∀ x ∈ (visitBlock c [] B [] A st).2.2.values,
      x ∈ (visitBlock c [] [] [] (A ++ B) st).2.2.values := by
  intro x hx
  rw [visitBlock_append]
  simp only [List.append_nil]
  cases hA : visitBlock c [] B [] A st with
  | mk r rest =>
    obtain ⟨out, st'⟩ := rest
    rw [hA] at hx
    cases r with
    | success => exact visitBlock_values_mono c [] [] B out st' x hx
    | failure => exact hx
    | abort => exact hx

/-- C15. Seen-set contents. (1) The loop body never removes a value from the
seen set, and the seen set reached after any prefix of the traversal is
contained in the seen set the pass ends with. (2) With a classifier that
returns no index twice, when the pass succeeds (so that no index was out of
range) the values of the final seen set are exactly the values that occupied
the stateful slots of the input function. (3) With such a classifier, whatever
the outcome, the result of an operation created by the pass (an operation of
the output whose identity was allocated by the pass) is never in the seen
set. -/
theorem seen_set_contents (c : OperationName → Option (List Nat))
    (func : List (List Operation)) (hnr : NonRepeating c func.flatten) :
    (∀ (before after : List Operation) (i : Nat) (s : VisitState),
      ∀ x ∈ s.values, x ∈ (duplicateAtIndex before after i s).2.values) ∧
    (∀ A B, func.flatten = A ++ B →
      ∀ x ∈ (visitBlock c [] B [] A ⟨[], freshId func.flatten, []⟩).2.2.values,
        x ∈ (runOnOperation c func).2.2.values) ∧
    ((runOnOperation c func).1 = .success →
      ∀ x, x ∈ (runOnOperation c func).2.2.values ↔ x ∈ slotValues c func.flatten) ∧
    (∀ o ∈ (runOnOperation c func).2.1.flatten, freshId func.flatten ≤ o.id →
      ∀ k, Value.opResult o.id k ∉ (runOnOperation c func).2.2.values) := by
  obtain ⟨hr, -, hv, -⟩ := runOnOperation_flat c func
  have hsub := visitBlock_values_sub c [] [] func.flatten [] ⟨[], freshId func.flatten, []⟩ hnr
  refine ⟨fun before after i s => (duplicateAtIndex_values before after i s).1, ?_, ?_, ?_⟩
  · intro A B hAB x hx
    rw [hv]
    generalize freshId func.flatten = n0 at hx ⊢
    rw [hAB]
    exact visitBlock_values_prefix c A B _ x hx
  · intro hs x
    rw [hv]
    rw [hr] at hs
    constructor
    · intro hx
      rcases hsub x hx with h | h
      · simp at h
      · exact h
    · intro hx
      exact visitBlock_values_sup c [] [] func.flatten [] _ hnr hs x (Or.inr hx)
  · intro o _ hge k hmem
    rw [hv] at hmem
    rcases hsub _ hmem with h | h
    · simp at h
    · obtain ⟨u, hu, j, -, hj⟩ := mem_slotValues.mp h
      have := isOld_of_mem_freshId u hu _ (mem_operands_of_getOperand hj) o.id rfl
      omega

theorem seen_set_contents_witness :
    NonRepeating exampleClassifier scenarioA.flatten ∧
    (runOnOperation exampleClassifier scenarioA).1 = .success ∧
    (runOnOperation exampleClassifier scenarioA).2.2.values = [.opResult 1 0] ∧
    getOperand exY 0 = some (.opResult 1 0) ∧
    (∃ y ∈ (runOnOperation exampleClassifier scenarioA).2.1.flatten,
      y.id = exY.id ∧ getOperand y 0 = some (.opResult 4 0)) ∧
    (∀ x, x ∈ (runOnOperation exampleClassifier scenarioA).2.2.values ↔
      x ∈ slotValues exampleClassifier scenarioA.flatten) ∧
    Value.opResult 4 0 ∉ (runOnOperation exampleClassifier scenarioA).2.2.values :=
  ⟨by decide, by decide, by decide, by decide, by decide,
    (seen_set_contents exampleClassifier scenarioA (by decide)).2.2.1 (by decide),
    (seen_set_contents exampleClassifier scenarioA (by decide)).2.2.2
      (clone exC 4) (by decide) (by decide) 0⟩

/-! ## The number of operations created -/

theorem scanSeen_step (v : Value) (L seen : List Value) :
    scanSeen seen (v :: L) = if v ∈ seen then scanSeen seen L else scanSeen (v :: seen) L :=
  rfl

theorem scanCost_step (cost : Value → Nat) (v : Value) (L seen : List Value) :
    scanCost cost seen (v :: L) =
      if v ∈ seen then cost v + scanCost cost seen L else scanCost cost (v :: seen) L :=
  rfl

theorem scanSeen_append : ∀ (L M seen : List Value),
    scanSeen seen (L ++ M) = scanSeen (scanSeen seen L) M := by
  intro L
  induction L with
  | nil => intro M seen; rfl
  | cons v L ih =>
    intro M seen
    rw [List.cons_append, scanSeen_step, scanSeen_step]
    by_cases hv : v ∈ seen
    · simp only [hv, if_true, ih]
    · simp only [hv, if_false, ih]

theorem scanCost_append (cost : Value → Nat) : ∀ (L M seen : List Value),
    scanCost cost seen (L ++ M) = scanCost cost seen L + scanCost cost (scanSeen seen L) M := by
  intro L
  induction L with
  | nil => intro M seen; simp [scanCost, scanSeen]
  | cons v L ih =>
    intro M seen
    rw [List.cons_append, scanCost_step, scanCost_step, scanSeen_step]
    by_cases hv : v ∈ seen
    · simp only [hv, if_true, ih, Nat.add_assoc]
    · simp only [hv, if_false, ih]

theorem scanCost_cons (cost : Value → Nat) (v : Value) (L seen : List Value) :
    scanCost cost seen (v :: L) =
      scanCost cost seen [v] + scanCost cost (scanSeen seen [v]) L :=
  scanCost_append cost [v] L seen

theorem scanSeen_cons (v : Value) (L seen : List Value) :
    scanSeen seen (v :: L) = scanSeen (scanSeen seen [v]) L :=
  scanSeen_append [v] L seen

/-- Counting the collisions along the list is counting, for each value, its
occurrences but the first (all of them if the value was seen before). -/
theorem scanCost_eq_sum (cost : Value → Nat) :
    ∀ (L seen : List Value) (S : Finset Value), L.toFinset ⊆ S →
      scanCost cost seen L =
        Finset.sum S (fun u => cost u * (if u ∈ seen then L.count u else L.count u - 1)) := by
  intro L
  induction L with
  | nil => intro seen S _; simp [scanCost]
  | cons v L ih =>
    intro seen S hS
    have hv : v ∈ S := hS (by simp)
    have hL : L.toFinset ⊆ S := fun u hu => hS (by
      simp only [List.toFinset_cons, Finset.mem_insert]
      exact Or.inr hu)
    by_cases hvs : v ∈ seen
    · simp only [scanCost, hvs, if_true]
      rw [ih seen S hL]
      have hpt : ∀ u ∈ S, cost u * (if u ∈ seen then (v :: L).count u else (v :: L).count u - 1) =
          cost u * (if u ∈ seen then L.count u else L.count u - 1) +
            (if u = v then cost u else 0) := by
        intro u _
        by_cases huv : u = v
        · subst huv
          simp only [hvs, if_true, List.count_cons_self]
          ring
        · simp [huv, List.count_cons_of_ne huv]
      rw [Finset.sum_congr rfl hpt, Finset.sum_add_distrib, Finset.sum_ite_eq']
      simp only [hv, if_true]
      ring
    · simp only [scanCost, hvs, if_false]
      rw [ih (v :: seen) S hL]
      apply Finset.sum_congr rfl
      intro u _
      by_cases huv : u = v
      · subst huv
        simp [hvs, List.count_cons_self]
      · simp [huv, List.count_cons_of_ne huv]

theorem scanCost_eq_dedup_sum (cost : Value → Nat) (L : List Value) :
    scanCost cost [] L = (L.dedup.map (fun v => cost v * (L.count v - 1))).sum := by
  rw [scanCost_eq_sum cost L [] L.toFinset (Finset.Subset.refl _)]
  have hd : L.dedup.toFinset = L.toFinset := by
    ext u
    simp
  rw [← hd, List.sum_toFinset _ (List.nodup_dedup L)]
  simp

theorem scanSeen_single (v : Value) (seen : List Value) :
    scanSeen seen [v] = if v ∈ seen then seen else v :: seen := rfl

theorem scanCost_single (cost : Value → Nat) (v : Value) (seen : List Value) :
    scanCost cost seen [v] = if v ∈ seen then cost v else 0 := by
  by_cases hv : v ∈ seen <;> simp [scanCost, hv]

/-- A successful run of the loop body inserts the operand into the seen set
and creates as many operations as the collision, if there is one, costs. -/
theorem duplicateAtIndex_count {before after : List Operation} {i : Nat} {s s' : VisitState}
    (h : duplicateAtIndex before after i s = (.success, s')) :
    ∃ v, getOperand s.op i = some v ∧ s'.values = scanSeen s.values [v] ∧
      s'.created.length = s.created.length +
        scanCost (cloneCost (before ++ s.created ++ s.op :: after)) s.values [v] := by
  rcases duplicateAtIndex_cases before after i s with ⟨-, e⟩ | ⟨v, hop, hv, e⟩ |
    ⟨v, -, -, -, r, dg, e, hr⟩ | ⟨v, p, hop, hv, -, hp, hpc, e⟩ |
    ⟨v, D, w, Q, hop, hv, hcl, hD, hDc, -, -, -, -, e⟩
  · rw [e] at h; simp at h
  · rw [e] at h
    simp only [Prod.mk.injEq, true_and] at h
    subst h
    exact ⟨v, hop, by simp [scanSeen_single, hv], by simp [scanCost_single, hv]⟩
  · rw [e] at h
    rcases hr with rfl | ⟨rfl, -⟩ <;> simp at h
  · rw [e] at h
    simp only [Prod.mk.injEq, true_and] at h
    subst h
    have hm : matchConstantValue (before ++ s.created ++ s.op :: after) v = true := by
      simp only [matchConstantValue, hp, hpc]
    refine ⟨v, hop, by simp [scanSeen_single, hv], ?_⟩
    simp only [scanCost_single, hv, if_true, cloneCost, hm, List.length_append,
      List.length_singleton]
  · rw [e] at h
    simp only [Prod.mk.injEq, true_and] at h
    subst h
    have hm : matchConstantValue (before ++ s.created ++ s.op :: after) v = false := by
      simp only [matchConstantValue, hD, hDc]
    refine ⟨v, hop, by simp [scanSeen_single, hv], ?_⟩
    simp only [scanCost_single, hv, if_true, cloneCost, hm, hcl, List.length_append,
      List.length_cons, List.length_nil]
    simp

theorem cloneCost_eq_of_sameProducers {n0 : Nat} {ops0 cur : List Operation} {v : Value}
    (h : SameProducers n0 ops0 cur) (hv : isOld n0 v) : cloneCost cur v = cloneCost ops0 v := by
  obtain ⟨h1, h2⟩ := h v hv
  simp only [cloneCost, h1, h2]

/-- A successful run of the loop inserts the operands at the indices into the
seen set and creates as many operations as the collisions cost. -/
theorem duplicateAtIndices_count (c : OperationName → Option (List Nat)) (n0 : Nat)
    (ops0 before after : List Operation) :
    ∀ (idxs : List Nat) (s : VisitState), idxs.Nodup →
      IRInv c (before ++ s.created ++ s.op :: after) s.nextId → n0 ≤ s.nextId →
      SameProducers n0 ops0 (before ++ s.created ++ s.op :: after) →
      (∀ j ∈ idxs, ∀ x, getOperand s.op j = some x → isOld n0 x) →
      (duplicateAtIndices before after idxs s).1 = .success →
      (duplicateAtIndices before after idxs s).2.created.length = s.created.length +
        scanCost (cloneCost ops0) s.values (idxs.filterMap (getOperand s.op)) ∧
      (duplicateAtIndices before after idxs s).2.values =
        scanSeen s.values (idxs.filterMap (getOperand s.op)) := by
  intro idxs
  induction idxs with
  | nil => intro s _ _ _ _ _ _; simp [duplicateAtIndices_nil, scanCost, scanSeen]
  | cons i rest ih =>
    intro s hnd hIR hn0 hK hold hsucc
    cases h : duplicateAtIndex before after i s with
    | mk r s1 =>
      by_cases hr : r = .success
      swap
      · rw [duplicateAtIndices_cons_stop hr h] at hsucc
        exact absurd hsucc hr
      subst hr
      rw [duplicateAtIndices_cons_success h] at hsucc ⊢
      obtain ⟨v, hop, hval, hlen⟩ := duplicateAtIndex_count h
      have hi : i ∉ rest := (List.nodup_cons.mp hnd).1
      have hIR1 := duplicateAtIndex_IRInv c before after i s hIR
      have hK1 := duplicateAtIndex_sameProducers c before after i s hIR
      have hn1 := (duplicateAtIndex_created before after i s).1
      rw [h] at hIR1 hK1 hn1
      simp only at hIR1 hK1 hn1
      have hother : ∀ j ∈ rest, getOperand s1.op j = getOperand s.op j := by
        intro j hj
        have := duplicateAtIndex_other before after i j (fun e => hi (e ▸ hj)) s
        rw [h] at this
        exact this
      have hfm : rest.filterMap (getOperand s1.op) = rest.filterMap (getOperand s.op) := by
        apply List.filterMap_congr
        intro j hj
        exact hother j hj
      obtain ⟨ih1, ih2⟩ := ih s1 (List.nodup_cons.mp hnd).2 hIR1 (le_trans hn0 hn1)
        (SameProducers.trans hn0 hK hK1)
        (fun j hj x hx => hold j (List.mem_cons_of_mem _ hj) x (by rw [← hother j hj]; exact hx))
        hsucc
      have hcost : cloneCost (before ++ s.created ++ s.op :: after) v = cloneCost ops0 v :=
        cloneCost_eq_of_sameProducers hK (hold i (List.mem_cons_self _ _) v hop)
      have hlen' : s1.created.length = s.created.length +
          scanCost (cloneCost ops0) s.values [v] := by
        rw [hlen, scanCost_single, scanCost_single, hcost]
      have hfm0 : (i :: rest).filterMap (getOperand s.op) =
          v :: rest.filterMap (getOperand s.op) := by
        simp [List.filterMap_cons, hop]
      refine ⟨?_, ?_⟩
      · have e1 := scanCost_cons (cloneCost ops0) v (rest.filterMap (getOperand s.op)) s.values
        rw [ih1, hfm, hval, hlen', hfm0, e1, Nat.add_assoc]
      · rw [ih2, hfm, hval, hfm0]
        exact (scanSeen_cons v _ _).symm

/-- A successful traversal inserts the values of the stateful slots into the
seen set and creates as many operations as the collisions cost. -/
theorem visitBlock_count (c : OperationName → Option (List Nat)) (n0 : Nat)
    (ops0 d l : List Operation) :
    ∀ (post pre : List Operation) (st : PassState),
      IRInv c (d ++ pre ++ post ++ l) st.nextId → n0 ≤ st.nextId →
      (∀ o ∈ post, ∀ x ∈ o.operands, isOld n0 x) →
      SameProducers n0 ops0 (d ++ pre ++ post ++ l) →
      (visitBlock c d l pre post st).1 = .success →
      (visitBlock c d l pre post st).2.1.length = pre.length + post.length +
        scanCost (cloneCost ops0) st.values (slotValues c post) ∧
      (visitBlock c d l pre post st).2.2.values = scanSeen st.values (slotValues c post) := by
  intro post
  induction post with
  | nil => intro pre st _ _ _ _ _; simp [visitBlock_nil, slotValues, scanCost, scanSeen]
  | cons op rest ih =>
    intro pre st hIR hn0 hold hK hsucc
    have h0 : IRInv c (d ++ pre ++ [] ++ op :: (rest ++ l)) st.nextId := by
      simpa only [List.append_assoc, List.cons_append, List.nil_append, List.append_nil]
        using hIR
    have hK0 : SameProducers n0 ops0 (d ++ pre ++ [] ++ op :: (rest ++ l)) := by
      simpa only [List.append_assoc, List.cons_append, List.nil_append, List.append_nil]
        using hK
    have hIR1 := duplicateAtIndices_IRInv c (d ++ pre) (rest ++ l) (statefulIndices c op)
      ⟨[], op, st.values, st.nextId, st.diags⟩ h0
    have hK1 := duplicateAtIndices_sameProducers c (d ++ pre) (rest ++ l)
      (statefulIndices c op) ⟨[], op, st.values, st.nextId, st.diags⟩ h0
    have hn1 := (duplicateAtIndices_created (d ++ pre) (rest ++ l) (statefulIndices c op)
      ⟨[], op, st.values, st.nextId, st.diags⟩).1
    have hcnt := duplicateAtIndices_count c n0 ops0 (d ++ pre) (rest ++ l)
      (statefulIndices c op) ⟨[], op, st.values, st.nextId, st.diags⟩
      (h0.2 op (by simp)).2.2.1 h0 hn0 hK0
      (fun j _ x hx => hold op (List.mem_cons_self _ _) x (mem_operands_of_getOperand hx))
    cases hD : DuplicateValueIfNeeded c (d ++ pre) (rest ++ l)
        ⟨[], op, st.values, st.nextId, st.diags⟩ with
    | mk r s =>
      have hD' := hD
      rw [DuplicateValueIfNeeded_eq] at hD'
      rw [hD'] at hIR1 hK1 hn1 hcnt
      simp only at hIR1 hK1 hn1 hcnt
      by_cases hr : r = .success
      swap
      · rw [visitBlock_cons_stop hr hD] at hsucc
        exact absurd hsucc hr
      subst hr
      rw [visitBlock_cons_success hD] at hsucc ⊢
      obtain ⟨hc1, hc2⟩ := hcnt rfl
      have hIR2 : IRInv c (d ++ (pre ++ s.created ++ [s.op]) ++ rest ++ l) s.nextId := by
        simpa only [List.append_assoc, List.cons_append, List.nil_append] using hIR1
      have hK2 : SameProducers n0 ops0 (d ++ (pre ++ s.created ++ [s.op]) ++ rest ++ l) := by
        have := SameProducers.trans hn0 hK0 hK1
        simpa only [List.append_assoc, List.cons_append, List.nil_append] using this
      obtain ⟨i1, i2⟩ := ih (pre ++ s.created ++ [s.op]) ⟨s.values, s.nextId, s.diags⟩ hIR2
        (le_trans hn0 hn1) (fun o ho => hold o (List.mem_cons_of_mem _ ho)) hK2 hsucc
      simp only at i1 i2
      refine ⟨?_, ?_⟩
      · rw [i1, slotValues_cons, scanCost_append, hc2]
        simp only [List.length_append, List.length_cons, List.length_nil] at hc1 ⊢
        omega
      · rw [i2, slotValues_cons, scanSeen_append, hc2]

theorem expectedClones_eq_scanCost (c : OperationName → Option (List Nat))
    (ops : List Operation) :
    expectedClones c ops = scanCost (cloneCost ops) [] (slotValues c ops) :=
  (scanCost_eq_dedup_sum (cloneCost ops) (slotValues c ops)).symm

/-- C16. Exact clone count. For a well-formed function and a classifier whose
indices are in range and non-repeating, when the pass succeeds the number of
operations of the output is the number of operations of the input plus, summed
over every value `v` that occupies `k ≥ 1` stateful slots of the input,
`k - 1` when the producer of `v` is a constant and `2 * (k - 1)` when it is a
dequantize of a constant (nothing for another producer, whose value then
occupies one slot only); and the operations of the output that were created by
the pass are exactly that many. -/
theorem exact_clone_count (c : OperationName → Option (List Nat))
    (func : List (List Operation)) (hwf : WellFormed func.flatten)
    (hir : InRange c func.flatten) (hnr : NonRepeating c func.flatten)
    (hs : (runOnOperation c func).1 = .success) :
    (runOnOperation c func).2.1.flatten.length =
      func.flatten.length + expectedClones c func.flatten ∧
    ((runOnOperation c func).2.1.flatten.filter
      (fun x => !decide (x.id < freshId func.flatten))).length =
      expectedClones c func.flatten := by
  obtain ⟨hr, ho, -, -⟩ := runOnOperation_flat c func
  rw [hr] at hs
  rw [ho, expectedClones_eq_scanCost]
  have hIR := IRInv_of_wellFormed hwf hir hnr
  have hcnt := visitBlock_count c (freshId func.flatten) func.flatten [] [] func.flatten []
    ⟨[], freshId func.flatten, []⟩ (by simpa using hIR) (le_refl _)
    isOld_of_mem_freshId (by simpa using SameProducers.refl _ _) hs
  have hlen : (visitBlock c [] [] [] func.flatten ⟨[], freshId func.flatten, []⟩).2.1.length =
      func.flatten.length + scanCost (cloneCost func.flatten) [] (slotValues c func.flatten) := by
    simpa using hcnt.1
  refine ⟨hlen, ?_⟩
  obtain ⟨segs, h1, h2⟩ := visitBlock_placed c (freshId func.flatten) [] [] func.flatten []
    ⟨[], freshId func.flatten, []⟩ (le_refl _)
  have hP : Placed (freshId func.flatten) func.flatten
      (visitBlock c [] [] [] func.flatten ⟨[], freshId func.flatten, []⟩).2.1 :=
    ⟨segs, by simpa using h1, h2⟩
  have hold := (hP.filter_old (fun o ho => id_lt_freshId ho)).length_eq
  have hsplit := List.length_eq_length_filter_add
    (l := (visitBlock c [] [] [] func.flatten ⟨[], freshId func.flatten, []⟩).2.1)
    (fun x => decide (x.id < freshId func.flatten))
  omega

theorem exact_clone_count_witness :
    (runOnOperation exampleClassifier scenarioB).2.1.flatten.length = 6 ∧
    expectedClones exampleClassifier scenarioB.flatten = 2 ∧
    (runOnOperation exampleClassifier scenarioB).2.1.flatten.length =
      scenarioB.flatten.length + expectedClones exampleClassifier scenarioB.flatten ∧
    ((runOnOperation exampleClassifier scenarioB).2.1.flatten.filter
      (fun x => !decide (x.id < freshId scenarioB.flatten))).length =
      expectedClones exampleClassifier scenarioB.flatten :=
  ⟨by decide, by decide,
    exact_clone_count exampleClassifier scenarioB (by decide) (by decide) (by decide)
      (by decide)⟩

/-! ## Clones are privately owned -/

theorem uses_append (m : Nat) (X Y : List Operation) :
    uses m (X ++ Y) = uses m X + uses m Y := by
  simp [uses, List.flatMap_append, List.countP_append]

theorem uses_cons (m : Nat) (o : Operation) (Y : List Operation) :
    uses m (o :: Y) = uses m [o] + uses m Y :=
  uses_append m [o] Y

theorem uses_nil (m : Nat) : uses m [] = 0 := rfl

theorem uses_single (m : Nat) (o : Operation) :
    uses m [o] = o.operands.countP (fun v => decide (v.owner? = some m)) := by
  simp [uses]

theorem countP_set (p : Value → Bool) :
    ∀ (l : List Value) (i : Nat) (v x : Value), l[i]? = some v →
      (l.set i x).countP p + (if p v then 1 else 0) =
        l.countP p + (if p x then 1 else 0) := by
  intro l
  induction l with
  | nil => intro i v x h; simp at h
  | cons a l ih =>
    intro i v x h
    cases i with
    | zero =>
      simp only [List.getElem?_cons_zero, Option.some.injEq] at h
      subst h
      simp only [List.set_cons_zero, List.countP_cons]
      omega
    | succ i =>
      simp only [List.getElem?_cons_succ] at h
      have := ih i v x h
      simp only [List.set_cons_succ, List.countP_cons]
      omega

theorem uses_setOperand (m : Nat) {op : Operation} {i : Nat} {v : Value} (x : Value)
    (h : getOperand op i = some v) :
    uses m [setOperand op i x] + (if v.owner? = some m then 1 else 0) =
      uses m [op] + (if x.owner? = some m then 1 else 0) := by
  have := countP_set (fun v => decide (v.owner? = some m)) op.operands i v x h
  simpa [uses_single, setOperand] using this

theorem uses_eq_zero {n : Nat} {ops : List Operation}
    (h : ∀ o ∈ ops, ∀ m ∈ mentionedIds o, m < n) {k : Nat} (hk : n ≤ k) : uses k ops = 0 := by
  simp only [uses, List.countP_eq_zero, List.mem_flatMap, decide_eq_true_eq]
  rintro v ⟨o, ho, hv⟩ hm
  have := h o ho k (mem_mentionedIds_of_operand hv hm)
  omega

theorem uses_insert (m : Nat) (X Y dups : List Operation) (op op' : Operation) :
    uses m (X ++ dups ++ op' :: Y) + uses m [op] =
      uses m (X ++ op :: Y) + uses m dups + uses m [op'] := by
  have h1 := uses_append m (X ++ dups) (op' :: Y)
  have h2 := uses_append m X dups
  have h3 := uses_cons m op' Y
  have h4 := uses_append m X (op :: Y)
  have h5 := uses_cons m op Y
  omega

theorem ShapeOK_clone {p : Operation} (h : ShapeOK p) (k : Nat) : ShapeOK (clone p k) := h

theorem ShapeOK_setOperand {o : Operation} (h : ShapeOK o) (i : Nat) (x : Value) :
    ShapeOK (setOperand o i x) := by
  refine ⟨fun hc => ?_, fun hd => ?_⟩
  · have := h.1 hc
    simp [setOperand, this]
  · have := h.2 hd
    simpa [setOperand] using this

theorem mentionedIds_clone {p : Operation} {k m : Nat} (h : m ∈ mentionedIds (clone p k)) :
    m = k ∨ m ∈ mentionedIds p := by
  simp only [mentionedIds, clone, List.mem_cons] at h ⊢
  rcases h with h | h
  · exact Or.inl h
  · exact Or.inr (Or.inr h)

/-- Inserting operations allocated by the pass before `op` and setting one
operand of `op`, which held a value of the input function, to result 0 of the
inserted operation `k` keeps the ownership invariant, when every inserted
operation other than `k` has its single use among the inserted ones. -/
theorem OwnInv_insert {n0 n : Nat} {X Y : List Operation} {op : Operation} {i : Nat}
    {v : Value} (dups : List Operation) (k n' : Nat)
    (h : OwnInv n0 (X ++ op :: Y) n) (hn : n ≤ n') (hk : n ≤ k) (hk' : k < n')
    (hv : getOperand op i = some v) (hvold : isOld n0 v)
    (hds : ∀ d ∈ dups, ShapeOK d) (hdm : ∀ d ∈ dups, ∀ m ∈ mentionedIds d, m < n')
    (hdid : ∀ d ∈ dups, n ≤ d.id)
    (hd1 : ∀ m, m < n → uses m dups = 0)
    (hd2 : ∀ d ∈ dups, uses d.id dups + (if k = d.id then 1 else 0) = 1) :
    OwnInv n0 (X ++ dups ++ setOperand op i (.opResult k 0) :: Y) n' := by
  obtain ⟨h1, h2, h3⟩ := h
  have hopmem : op ∈ X ++ op :: Y := by simp
  have hmemX : ∀ o ∈ X, o ∈ X ++ op :: Y := fun o ho => List.mem_append_left _ ho
  have hmemY : ∀ o ∈ Y, o ∈ X ++ op :: Y :=
    fun o ho => List.mem_append_right _ (List.mem_cons_of_mem _ ho)
  have hcases : ∀ o ∈ X ++ dups ++ setOperand op i (.opResult k 0) :: Y,
      o ∈ X ∨ o ∈ dups ∨ o = setOperand op i (.opResult k 0) ∨ o ∈ Y := by
    intro o ho
    simp only [List.mem_append, List.mem_cons] at ho
    tauto
  refine ⟨?_, ?_, ?_⟩
  · intro o ho
    rcases hcases o ho with ho | ho | rfl | ho
    · exact h1 o (hmemX o ho)
    · exact hds o ho
    · exact ShapeOK_setOperand (h1 op hopmem) _ _
    · exact h1 o (hmemY o ho)
  · intro o ho m hm
    rcases hcases o ho with ho | ho | rfl | ho
    · exact lt_of_lt_of_le (h2 o (hmemX o ho) m hm) hn
    · exact hdm o ho m hm
    · rcases mentionedIds_setOperand hm with hm | rfl
      · exact lt_of_lt_of_le (h2 op hopmem m hm) hn
      · exact hk'
    · exact lt_of_lt_of_le (h2 o (hmemY o ho) m hm) hn
  · intro cl hcl hge
    have key := uses_insert cl.id X Y dups op (setOperand op i (.opResult k 0))
    have hset := uses_setOperand cl.id (.opResult k 0) hv
    have hvm : ¬ v.owner? = some cl.id := fun e => by
      have := hvold cl.id e
      omega
    have hown : ((Value.opResult k 0).owner? = some cl.id) = (k = cl.id) := by
      simp [Value.owner?]
    rw [if_neg hvm] at hset
    simp only [hown] at hset
    have hin : ∀ o ∈ X ++ op :: Y, o.id = cl.id →
        uses cl.id (X ++ dups ++ setOperand op i (.opResult k 0) :: Y) = 1 := by
      intro o ho hid
      have hlt : cl.id < n := hid ▸ h2 o ho o.id (by simp [mentionedIds])
      have hu := h3 o ho (by omega)
      rw [hid] at hu
      have hz := hd1 cl.id hlt
      have hne : ¬ k = cl.id := by omega
      simp only [hne, if_false] at hset
      omega
    rcases hcases cl hcl with ho | ho | rfl | ho
    · exact hin cl (hmemX cl ho) rfl
    · have hz : uses cl.id (X ++ op :: Y) = 0 := uses_eq_zero h2 (hdid cl ho)
      have := hd2 cl ho
      omega
    · exact hin op hopmem rfl
    · exact hin cl (hmemY cl ho) rfl

theorem operands_of_dequantize {D : Operation} {w : Value} (hs : ShapeOK D)
    (hd : D.name = .dequantize) (hw : getOperand D 0 = some w) : D.operands = [w] := by
  have hlen := hs.2 hd
  unfold getOperand at hw
  match hD : D.operands, hlen, hw with
  | [a], _, hw =>
    simp only [List.getElem?_cons_zero, Option.some.injEq] at hw
    rw [hw]

/-- The loop body keeps the ownership invariant, whatever its outcome, when
the operand it looks at is a value of the input function. -/
theorem duplicateAtIndex_ownInv (n0 : Nat) (before after : List Operation) (i : Nat)
    (s : VisitState) (h : OwnInv n0 (before ++ s.created ++ s.op :: after) s.nextId)
    (hold : ∀ x, getOperand s.op i = some x → isOld n0 x) :
    OwnInv n0 (before ++ (duplicateAtIndex before after i s).2.created ++
      (duplicateAtIndex before after i s).2.op :: after)
      (duplicateAtIndex before after i s).2.nextId := by
  rcases duplicateAtIndex_cases before after i s with ⟨-, e⟩ | ⟨v, -, -, e⟩ |
    ⟨v, -, -, -, r, dg, e, -⟩ | ⟨v, p, hop, -, -, hp, hpc, e⟩ |
    ⟨v, D, w, Q, hop, -, -, hD, -, hDq, hw, hQ, hQc, e⟩
  · rw [e]; exact h
  · rw [e]; exact h
  · rw [e]; exact h
  · rw [e]
    simp only
    rw [← List.append_assoc before]
    have hpm := (getDefiningOp_mem hp).1
    have hpops : p.operands = [] := (h.1 p hpm).1 hpc
    apply OwnInv_insert [clone p s.nextId] s.nextId (s.nextId + 1) h (Nat.le_succ _)
      (le_refl _) (Nat.lt_succ_self _) hop (hold v hop)
    · intro d hd
      rw [List.mem_singleton] at hd
      subst hd
      exact ShapeOK_clone (h.1 p hpm) _
    · intro d hd m hm
      rw [List.mem_singleton] at hd
      subst hd
      rcases mentionedIds_clone hm with rfl | hm
      · exact Nat.lt_succ_self _
      · exact Nat.lt_succ_of_lt (h.2.1 p hpm m hm)
    · intro d hd
      rw [List.mem_singleton] at hd
      subst hd
      exact le_refl _
    · intro m _
      simp [uses, clone, hpops]
    · intro d hd
      rw [List.mem_singleton] at hd
      subst hd
      simp [uses, clone, hpops]
  · rw [e]
    simp only
    rw [← List.append_assoc before]
    have hDm := (getDefiningOp_mem hD).1
    have hQm := (getDefiningOp_mem hQ).1
    have hQops : Q.operands = [] := (h.1 Q hQm).1 hQc
    have hDops : D.operands = [w] := operands_of_dequantize (h.1 D hDm) hDq hw
    apply OwnInv_insert
      [clone Q s.nextId, setOperand (clone D (s.nextId + 1)) 0 (.opResult s.nextId 0)]
      (s.nextId + 1) (s.nextId + 2) h (by omega) (by omega) (by omega) hop (hold v hop)
    · intro d hd
      simp only [List.mem_cons, List.mem_singleton, List.not_mem_nil, or_false] at hd
      rcases hd with rfl | rfl
      · exact ShapeOK_clone (h.1 Q hQm) _
      · exact ShapeOK_setOperand (ShapeOK_clone (h.1 D hDm) _) _ _
    · intro d hd m hm
      simp only [List.mem_cons, List.mem_singleton, List.not_mem_nil, or_false] at hd
      rcases hd with rfl | rfl
      · rcases mentionedIds_clone hm with rfl | hm
        · omega
        · have := h.2.1 Q hQm m hm
          omega
      · rcases mentionedIds_setOperand hm with hm | rfl
        · rcases mentionedIds_clone hm with rfl | hm
          · omega
          · have := h.2.1 D hDm m hm
            omega
        · omega
    · intro d hd
      simp only [List.mem_cons, List.mem_singleton, List.not_mem_nil, or_false] at hd
      rcases hd with rfl | rfl <;> simp [clone, setOperand]
    · intro m hm
      have hne : ¬ s.nextId = m := by omega
      simp [uses, clone, setOperand, hQops, hDops, Value.owner?, hne]
    · intro d hd
      simp only [List.mem_cons, List.mem_singleton, List.not_mem_nil, or_false] at hd
      rcases hd with rfl | rfl <;>
      simp [uses, clone, setOperand, hQops, hDops, Value.owner?]

theorem duplicateAtIndices_ownInv (n0 : Nat) (before after : List Operation) :
    ∀ (idxs : List Nat) (s : VisitState), idxs.Nodup →
      OwnInv n0 (before ++ s.created ++ s.op :: after) s.nextId →
      (∀ j ∈ idxs, ∀ x, getOperand s.op j = some x → isOld n0 x) →
      OwnInv n0 (before ++ (duplicateAtIndices before after idxs s).2.created ++
        (duplicateAtIndices before after idxs s).2.op :: after)
        (duplicateAtIndices before after idxs s).2.nextId := by
  intro idxs
  induction idxs with
  | nil => intro s _ h _; simpa [duplicateAtIndices_nil] using h
  | cons i rest ih =>
    intro s hnd h hold
    have h1 := duplicateAtIndex_ownInv n0 before after i s h (hold i (List.mem_cons_self _ _))
    have hi : i ∉ rest := (List.nodup_cons.mp hnd).1
    cases hstep : duplicateAtIndex before after i s with
    | mk r s1 =>
      rw [hstep] at h1
      simp only at h1
      by_cases hr : r = .success
      · subst hr
        rw [duplicateAtIndices_cons_success hstep]
        apply ih s1 (List.nodup_cons.mp hnd).2 h1
        intro j hj x hx
        have := duplicateAtIndex_other before after i j (fun e => hi (e ▸ hj)) s
        rw [hstep] at this
        exact hold j (List.mem_cons_of_mem _ hj) x (by rw [← this]; exact hx)
      · rw [duplicateAtIndices_cons_stop hr hstep]
        exact h1

/-- The traversal keeps the ownership invariant, whatever its outcome. -/
theorem visitBlock_ownInv (c : OperationName → Option (List Nat)) (n0 : Nat)
    (d l : List Operation) :
    ∀ (post pre : List Operation) (st : PassState),
      OwnInv n0 (d ++ pre ++ post ++ l) st.nextId → NonRepeating c post →
      (∀ o ∈ post, ∀ x ∈ o.operands, isOld n0 x) →
      OwnInv n0 (d ++ (visitBlock c d l pre post st).2.1 ++ l)
        (visitBlock c d l pre post st).2.2.nextId := by
  intro post
  induction post with
  | nil => intro pre st h _ _; simpa [visitBlock_nil] using h
  | cons op rest ih =>
    intro pre st h hnr hold
    have h0 : OwnInv n0 (d ++ pre ++ [] ++ op :: (rest ++ l)) st.nextId := by
      simpa only [List.append_assoc, List.cons_append, List.nil_append, List.append_nil] using h
    have h1 := duplicateAtIndices_ownInv n0 (d ++ pre) (rest ++ l) (statefulIndices c op)
      ⟨[], op, st.values, st.nextId, st.diags⟩ (hnr op (List.mem_cons_self _ _)) h0
      (fun j _ x hx => hold op (List.mem_cons_self _ _) x (mem_operands_of_getOperand hx))
    cases hD : DuplicateValueIfNeeded c (d ++ pre) (rest ++ l)
        ⟨[], op, st.values, st.nextId, st.diags⟩ with
    | mk r s =>
      have hD' := hD
      rw [DuplicateValueIfNeeded_eq] at hD'
      rw [hD'] at h1
      simp only at h1
      by_cases hr : r = .success
      · subst hr
        rw [visitBlock_cons_success hD]
        apply ih _ _ _ (fun o ho => hnr o (List.mem_cons_of_mem _ ho))
          (fun o ho => hold o (List.mem_cons_of_mem _ ho))
        simpa only [List.append_assoc, List.cons_append, List.nil_append] using h1
      · rw [visitBlock_cons_stop hr hD]
        simpa only [List.append_assoc, List.cons_append, List.nil_append] using h1

theorem OwnInv_input {ops : List Operation} (h : ∀ o ∈ ops, ShapeOK o) :
    OwnInv (freshId ops) ops (freshId ops) :=
  ⟨h, fun _ ho => mentioned_lt_freshId ho, fun cl hcl hge => by
    have := id_lt_freshId hcl
    omega⟩

/-! ### The user of a clone -/

theorem UsersIn.mono {created : List Operation} {op : Operation} {ds ds' : List Nat}
    (h : UsersIn created op ds) (hsub : ∀ i ∈ ds, i ∈ ds') : UsersIn created op ds' := by
  intro cl hcl
  rcases h cl hcl with ⟨i, hi, hu⟩ | hu
  · exact Or.inl ⟨i, hsub i hi, hu⟩
  · exact Or.inr hu

/-- The loop body at an index `j` not visited before keeps the users of the
operations created so far and gives the operations it creates their user. -/
theorem duplicateAtIndex_users (before after : List Operation) (ds : List Nat) (j : Nat)
    (s : VisitState) (hj : j ∉ ds) (h : UsersIn s.created s.op ds) :
    UsersIn (duplicateAtIndex before after j s).2.created
      (duplicateAtIndex before after j s).2.op (ds ++ [j]) := by
  have hmono : UsersIn s.created s.op (ds ++ [j]) :=
    h.mono (fun i hi => List.mem_append_left _ hi)
  rcases duplicateAtIndex_cases before after j s with ⟨-, e⟩ | ⟨v, -, -, e⟩ |
    ⟨v, -, -, -, r, dg, e, -⟩ | ⟨v, p, hop, -, -, -, -, e⟩ |
    ⟨v, D, w, Q, hop, -, -, -, -, hDq, hw, -, hQc, e⟩
  · rw [e]; exact hmono
  · rw [e]; exact hmono
  · rw [e]; exact hmono
  · rw [e]
    simp only
    intro cl hcl
    rcases List.mem_append.mp hcl with hcl | hcl
    · rcases h cl hcl with ⟨i, hi, hu⟩ | ⟨hc, D, hD, hu⟩
      · refine Or.inl ⟨i, List.mem_append_left _ hi, ?_⟩
        rw [getOperand_setOperand_ne (fun (e : i = j) => hj (e ▸ hi))]
        exact hu
      · exact Or.inr ⟨hc, D, List.mem_append_left _ hD, hu⟩
    · rw [List.mem_singleton] at hcl
      subst hcl
      exact Or.inl ⟨j, by simp, getOperand_setOperand_same hop⟩
  · rw [e]
    simp only
    intro cl hcl
    rcases List.mem_append.mp hcl with hcl | hcl
    · rcases h cl hcl with ⟨i, hi, hu⟩ | ⟨hc, D, hD, hu⟩
      · refine Or.inl ⟨i, List.mem_append_left _ hi, ?_⟩
        rw [getOperand_setOperand_ne (fun (e : i = j) => hj (e ▸ hi))]
        exact hu
      · exact Or.inr ⟨hc, D, List.mem_append_left _ hD, hu⟩
    · simp only [List.mem_cons, List.mem_singleton, List.not_mem_nil, or_false] at hcl
      rcases hcl with rfl | rfl
      · refine Or.inr ⟨hQc, setOperand (clone D (s.nextId + 1)) 0 (.opResult s.nextId 0),
          by simp, hDq, ?_⟩
        exact getOperand_setOperand_same (o := clone D (s.nextId + 1)) hw
      · exact Or.inl ⟨j, by simp, getOperand_setOperand_same hop⟩

theorem duplicateAtIndices_users (before after : List Operation) :
    ∀ (rs ds : List Nat) (s : VisitState), (ds ++ rs).Nodup → UsersIn s.created s.op ds →
      UsersIn (duplicateAtIndices before after rs s).2.created
        (duplicateAtIndices before after rs s).2.op (ds ++ rs) := by
  intro rs
  induction rs with
  | nil => intro ds s _ h; simpa [duplicateAtIndices_nil] using h
  | cons j rest ih =>
    intro ds s hnd h
    have hnd' := List.nodup_append.mp hnd
    have hj : j ∉ ds := fun hmem => hnd'.2.2 hmem (List.mem_cons_self _ _)
    have h1 := duplicateAtIndex_users before after ds j s hj h
    cases hstep : duplicateAtIndex before after j s with
    | mk r s1 =>
      rw [hstep] at h1
      simp only at h1
      by_cases hr : r = .success
      · subst hr
        rw [duplicateAtIndices_cons_success hstep]
        have := ih (ds ++ [j]) s1 (by simpa [List.append_assoc] using hnd) h1
        simpa [List.append_assoc] using this
      · rw [duplicateAtIndices_cons_stop hr hstep]
        exact h1.mono (fun i hi => by
          simp only [List.mem_append, List.mem_cons, List.mem_singleton, List.not_mem_nil,
            or_false] at hi ⊢
          tauto)

theorem OwnedSegment_refl (c : OperationName → Option (List Nat)) (n0 : Nat) (o : Operation) :
    OwnedSegment c n0 o ([], o) :=
  ⟨rfl, rfl, rfl, fun _ _ => rfl, by simp, fun cl hcl => by simp at hcl⟩

/-- The output of the traversal is made of one segment for each operation to
visit: the operations inserted for it, each with its user in the segment, and
the operation, changed at most at its stateful indices. -/
theorem visitBlock_owned (c : OperationName → Option (List Nat)) (n0 : Nat)
    (d l : List Operation) :
    ∀ (post pre : List Operation) (st : PassState), n0 ≤ st.nextId → NonRepeating c post →
      ∃ segs : List (List Operation × Operation),
        (visitBlock c d l pre post st).2.1 = pre ++ segs.flatMap (fun p => p.1 ++ [p.2]) ∧
        List.Forall₂ (OwnedSegment c n0) post segs := by
  intro post
  induction post with
  | nil => intro pre st _ _; exact ⟨[], by simp [visitBlock_nil], List.Forall₂.nil⟩
  | cons op rest ih =>
    intro pre st hn hnr
    have hop := duplicateAtIndices_op (d ++ pre) (rest ++ l) (statefulIndices c op)
      ⟨[], op, st.values, st.nextId, st.diags⟩
    have hcr := duplicateAtIndices_created (d ++ pre) (rest ++ l) (statefulIndices c op)
      ⟨[], op, st.values, st.nextId, st.diags⟩
    have hother := fun j hj => duplicateAtIndices_other (d ++ pre) (rest ++ l)
      (statefulIndices c op) j hj ⟨[], op, st.values, st.nextId, st.diags⟩
    have husers := duplicateAtIndices_users (d ++ pre) (rest ++ l) (statefulIndices c op) []
      ⟨[], op, st.values, st.nextId, st.diags⟩
      (by simpa using hnr op (List.mem_cons_self _ _)) (fun cl hcl => by simp at hcl)
    cases hD : DuplicateValueIfNeeded c (d ++ pre) (rest ++ l)
        ⟨[], op, st.values, st.nextId, st.diags⟩ with
    | mk r s =>
      have hD' := hD
      rw [DuplicateValueIfNeeded_eq] at hD'
      rw [hD'] at hop hcr husers
      simp only [hD'] at hother
      simp only [List.nil_append] at hop hcr husers
      obtain ⟨hnext, new, hnew, hbound⟩ := hcr
      have hseg : OwnedSegment c n0 op (s.created, s.op) := by
        refine ⟨hop.1, hop.2.1, hop.2.2.1, hother, ?_, husers⟩
        intro x hx
        rw [hnew] at hx
        have := (hbound x hx).1
        omega
      by_cases hr : r = .success
      · subst hr
        rw [visitBlock_cons_success hD]
        obtain ⟨segs, h1, h2⟩ := ih (pre ++ s.created ++ [s.op]) ⟨s.values, s.nextId, s.diags⟩
          (le_trans hn hnext) (fun o ho => hnr o (List.mem_cons_of_mem _ ho))
        exact ⟨(s.created, s.op) :: segs, by rw [h1]; simp, List.Forall₂.cons hseg h2⟩
      · rw [visitBlock_cons_stop hr hD]
        refine ⟨(s.created, s.op) :: rest.map (fun o => ([], o)), ?_, List.Forall₂.cons hseg ?_⟩
        · simp [List.flatMap_map]
        · rw [List.forall₂_map_right_iff]
          exact List.forall₂_same.mpr (fun o _ => OwnedSegment_refl c n0 o)

/-- C14 (amended). Clones are privately owned. Assume every operation of the
input has the verified shape (a constant has no operand, a dequantize exactly
one) and the classifier returns no index twice for an operation. Whatever the
outcome of the pass, the output is, operation by operation of the input, a
segment made of the operations created for that operation followed by the
operation itself, such that: the operation keeps its identity, name and
attribute and its operands are changed at most at the indices the classifier
reports as stateful for it (so an original producer with no stateful operand
is unchanged); every created operation of the segment has its user in the
segment, at a stateful index of the operation it was created for, or, for a
created constant, at operand 0 of a created dequantize; and the result of
every operation created by the pass (identity allocated by the pass, above
the identities of the input) is used by exactly one operand in the whole
function. -/
theorem clones_privately_owned (c : OperationName → Option (List Nat))
    (func : List (List Operation)) (hshape : ∀ o ∈ func.flatten, ShapeOK o)
    (hnr : NonRepeating c func.flatten) :
    (∀ o ∈ func.flatten, o.id < freshId func.flatten) ∧
    ∃ segs : List (List Operation × Operation),
      (runOnOperation c func).2.1.flatten = segs.flatMap (fun p => p.1 ++ [p.2]) ∧
      List.Forall₂ (OwnedSegment c (freshId func.flatten)) func.flatten segs ∧
      ∀ cl ∈ (runOnOperation c func).2.1.flatten, freshId func.flatten ≤ cl.id →
        uses cl.id (runOnOperation c func).2.1.flatten = 1 := by
  refine ⟨fun o ho => id_lt_freshId ho, ?_⟩
  rw [(runOnOperation_flat c func).2.1]
  obtain ⟨segs, h1, h2⟩ := visitBlock_owned c (freshId func.flatten) [] [] func.flatten []
    ⟨[], freshId func.flatten, []⟩ (le_refl _) hnr
  refine ⟨segs, by simpa using h1, h2, ?_⟩
  have hinv := visitBlock_ownInv c (freshId func.flatten) [] [] func.flatten []
    ⟨[], freshId func.flatten, []⟩ (by simpa using OwnInv_input hshape) hnr
    isOld_of_mem_freshId
  simp only [List.nil_append, List.append_nil] at hinv
  intro cl hcl hge
  exact hinv.2.2 cl hcl hge

theorem clones_privately_owned_witness :
    (∀ o ∈ scenarioB.flatten, ShapeOK o) ∧
    NonRepeating exampleClassifier scenarioB.flatten ∧
    (runOnOperation exampleClassifier scenarioB).2.1.flatten ≠ scenarioB.flatten ∧
    ((∀ o ∈ scenarioB.flatten, o.id < freshId scenarioB.flatten) ∧
    ∃ segs : List (List Operation × Operation),
      (runOnOperation exampleClassifier scenarioB).2.1.flatten =
        segs.flatMap (fun p => p.1 ++ [p.2]) ∧
      List.Forall₂ (OwnedSegment exampleClassifier (freshId scenarioB.flatten))
        scenarioB.flatten segs ∧
      ∀ cl ∈ (runOnOperation exampleClassifier scenarioB).2.1.flatten,
        freshId scenarioB.flatten ≤ cl.id →
          uses cl.id (runOnOperation exampleClassifier scenarioB).2.1.flatten = 1) :=
  ⟨by decide, by decide, by decide,
    clones_privately_owned exampleClassifier scenarioB (by decide) (by decide)⟩

/-- C14, counterexample. With a classifier for which operand 0 of a
dequantize is stateful (and no index repeated), the pass succeeds on a
well-formed function and changes an operand of an original producer:
operation 3, a dequantize of the constant 1, collides with operation 2 on the
constant and is rewired to the clone 6; it is then the producer of the value
shared by operations 4 and 5, and the pass clones it (operations 7 and 8). -/
theorem original_producer_operand_changed :
    WellFormed scenarioF.flatten ∧ InRange dequantizeClassifier scenarioF.flatten ∧
    NonRepeating dequantizeClassifier scenarioF.flatten ∧
    (⟨3, .dequantize, 5, [.opResult 1 0]⟩ : Operation) ∈ scenarioF.flatten ∧
    (runOnOperation dequantizeClassifier scenarioF).1 = .success ∧
    (runOnOperation dequantizeClassifier scenarioF).2.1 =
      [[exC, ⟨2, .dequantize, 5, [.opResult 1 0]⟩,
        ⟨6, .constantLike 0, 42, []⟩, ⟨3, .dequantize, 5, [.opResult 6 0]⟩,
        ⟨4, .other 8, 0, [.blockArgument 0, .opResult 3 0]⟩,
        ⟨7, .constantLike 0, 42, []⟩, ⟨8, .dequantize, 5, [.opResult 7 0]⟩,
        ⟨5, .other 8, 0, [.blockArgument 0, .opResult 8 0]⟩]] := by
  decide

/-! ## Placement: the operations created for an operation -/

theorem RewiredInto_refl (L : List Nat) (created : List Operation) (o : Operation) :
    RewiredInto L created o o := fun _ => Or.inl rfl

/-- The loop body at an index of `L` keeps the operands of the visited
operation original or, at an index of `L`, result 0 of a created operation. -/
theorem duplicateAtIndex_rewired (L : List Nat) (o : Operation)
    (before after : List Operation) (j : Nat) (hj : j ∈ L) (s : VisitState)
    (h : RewiredInto L s.created o s.op) :
    RewiredInto L (duplicateAtIndex before after j s).2.created o
      (duplicateAtIndex before after j s).2.op := by
  rcases duplicateAtIndex_cases before after j s with ⟨-, e⟩ | ⟨v, -, -, e⟩ |
    ⟨v, -, -, -, r, dg, e, -⟩ | ⟨v, p, hop, -, -, -, -, e⟩ |
    ⟨v, D, w, Q, hop, -, -, -, -, -, -, -, -, e⟩
  · rw [e]; exact h
  · rw [e]; exact h
  · rw [e]; exact h
  · rw [e]
    simp only
    intro i
    by_cases hij : i = j
    · subst hij
      exact Or.inr ⟨hj, clone p s.nextId, by simp, getOperand_setOperand_same hop⟩
    · rw [getOperand_setOperand_ne hij]
      rcases h i with hi | ⟨hi, cl, hcl, hu⟩
      · exact Or.inl hi
      · exact Or.inr ⟨hi, cl, List.mem_append_left _ hcl, hu⟩
  · rw [e]
    simp only
    intro i
    by_cases hij : i = j
    · subst hij
      exact Or.inr ⟨hj, setOperand (clone D (s.nextId + 1)) 0 (.opResult s.nextId 0),
        by simp, getOperand_setOperand_same hop⟩
    · rw [getOperand_setOperand_ne hij]
      rcases h i with hi | ⟨hi, cl, hcl, hu⟩
      · exact Or.inl hi
      · exact Or.inr ⟨hi, cl, List.mem_append_left _ hcl, hu⟩

theorem duplicateAtIndices_rewired (o : Operation) (before after : List Operation)
    (idxs : List Nat) (s : VisitState) (h : RewiredInto idxs s.created o s.op) :
    RewiredInto idxs (duplicateAtIndices before after idxs s).2.created o
      (duplicateAtIndices before after idxs s).2.op :=
  duplicateAtIndices_rel
    (fun a b => RewiredInto idxs a.created o a.op → RewiredInto idxs b.created o b.op)
    (fun _ h => h) (fun _ _ _ h1 h2 h => h2 (h1 h)) before after idxs
    (fun i hi s => duplicateAtIndex_rewired idxs o before after i hi s) s h

theorem PlacedSegment_refl (c : OperationName → Option (List Nat)) (n0 : Nat) (o : Operation) :
    PlacedSegment c n0 o ([], o) :=
  ⟨⟨rfl, rfl, rfl, rfl⟩, by simp, rfl, RewiredInto_refl _ _ _,
    fun _ cl hcl => by simp at hcl⟩

theorem PlacedFor_refl (c : OperationName → Option (List Nat)) (n0 : Nat)
    (b : List Operation) : PlacedFor c n0 b b := by
  refine ⟨b.map (fun o => ([], o)), by simp [List.flatMap_map], ?_⟩
  rw [List.forall₂_map_right_iff]
  exact List.forall₂_same.mpr (fun o _ => PlacedSegment_refl c n0 o)

theorem PlacedFor.placed {c : OperationName → Option (List Nat)} {n0 : Nat}
    {b b' : List Operation} (h : PlacedFor c n0 b b') : Placed n0 b b' := by
  obtain ⟨segs, h1, h2⟩ := h
  exact ⟨segs, h1, h2.imp (fun _ _ hp => ⟨hp.1, hp.2.1, hp.2.2.1⟩)⟩

/-- The traversal of a block puts the operations it creates for an operation
directly before it, as a segment of the output block. -/
theorem visitBlock_placedFor (c : OperationName → Option (List Nat)) (n0 : Nat)
    (d l : List Operation) :
    ∀ (post pre : List Operation) (st : PassState), n0 ≤ st.nextId →
      ∃ segs : List (List Operation × Operation),
        (visitBlock c d l pre post st).2.1 = pre ++ segs.flatMap (fun p => p.1 ++ [p.2]) ∧
        List.Forall₂ (PlacedSegment c n0) post segs := by
  intro post
  induction post with
  | nil => intro pre st _; exact ⟨[], by simp [visitBlock_nil], List.Forall₂.nil⟩
  | cons op rest ih =>
    intro pre st hn
    have hop := duplicateAtIndices_op (d ++ pre) (rest ++ l) (statefulIndices c op)
      ⟨[], op, st.values, st.nextId, st.diags⟩
    have hcr := duplicateAtIndices_created (d ++ pre) (rest ++ l) (statefulIndices c op)
      ⟨[], op, st.values, st.nextId, st.diags⟩
    have hruns := duplicateAtIndices_cloneRuns (d ++ pre) (rest ++ l) (statefulIndices c op)
      ⟨[], op, st.values, st.nextId, st.diags⟩ rfl
    have hrew := duplicateAtIndices_rewired op (d ++ pre) (rest ++ l) (statefulIndices c op)
      ⟨[], op, st.values, st.nextId, st.diags⟩ (RewiredInto_refl _ _ _)
    have husers := fun (hnd : (statefulIndices c op).Nodup) =>
      duplicateAtIndices_users (d ++ pre) (rest ++ l) (statefulIndices c op) []
        ⟨[], op, st.values, st.nextId, st.diags⟩ (by simpa using hnd)
        (fun cl hcl => by simp at hcl)
    cases hD : DuplicateValueIfNeeded c (d ++ pre) (rest ++ l)
        ⟨[], op, st.values, st.nextId, st.diags⟩ with
    | mk r s =>
      have hD' := hD
      rw [DuplicateValueIfNeeded_eq] at hD'
      rw [hD'] at hop hcr hruns hrew
      simp only [hD'] at husers
      simp only [List.nil_append] at hop hcr hruns hrew husers
      obtain ⟨hnext, new, hnew, hbound⟩ := hcr
      have hseg : PlacedSegment c n0 op (s.created, s.op) := by
        refine ⟨hop, ?_, hruns, hrew, husers⟩
        intro x hx
        rw [hnew] at hx
        have := (hbound x hx).1
        omega
      by_cases hr : r = .success
      · subst hr
        rw [visitBlock_cons_success hD]
        obtain ⟨segs, h1, h2⟩ := ih (pre ++ s.created ++ [s.op]) ⟨s.values, s.nextId, s.diags⟩
          (le_trans hn hnext)
        exact ⟨(s.created, s.op) :: segs, by rw [h1]; simp, List.Forall₂.cons hseg h2⟩
      · rw [visitBlock_cons_stop hr hD]
        refine ⟨(s.created, s.op) :: rest.map (fun o => ([], o)), ?_, List.Forall₂.cons hseg ?_⟩
        · simp [List.flatMap_map]
        · rw [List.forall₂_map_right_iff]
          exact List.forall₂_same.mpr (fun o _ => PlacedSegment_refl c n0 o)

/-- The traversal of the function keeps the blocks in their order and places
the operations created for an operation directly before it, in its block. -/
theorem visitBlocks_placedFor (c : OperationName → Option (List Nat)) (n0 : Nat) :
    ∀ (todo done : List (List Operation)) (st : PassState), n0 ≤ st.nextId →
      ∃ bs, (visitBlocks c done todo st).2.1 = done ++ bs ∧
        List.Forall₂ (PlacedFor c n0) todo bs := by
  intro todo
  induction todo with
  | nil => intro done st _; exact ⟨[], by simp [visitBlocks], List.Forall₂.nil⟩
  | cons bb rest ih =>
    intro done st hn
    obtain ⟨segs, h1, h2⟩ := visitBlock_placedFor c n0 done.flatten rest.flatten bb [] st hn
    have hnext := visitBlock_nextId c done.flatten rest.flatten bb [] st
    have hrefl : List.Forall₂ (PlacedFor c n0) rest rest :=
      List.forall₂_same.mpr (fun b _ => PlacedFor_refl c n0 b)
    cases hB : visitBlock c done.flatten rest.flatten [] bb st with
    | mk r p =>
      obtain ⟨bb', st'⟩ := p
      rw [hB] at h1 hnext
      simp only [List.nil_append] at h1 hnext
      have hpl : PlacedFor c n0 bb bb' := ⟨segs, h1, h2⟩
      cases r with
      | success =>
        obtain ⟨bs, e1, e2⟩ := ih (done ++ [bb']) st' (le_trans hn hnext)
        refine ⟨bb' :: bs, ?_, List.Forall₂.cons hpl e2⟩
        simp only [visitBlocks, hB]
        rw [e1]; simp
      | failure =>
        exact ⟨bb' :: rest, by simp only [visitBlocks, hB], List.Forall₂.cons hpl hrefl⟩
      | abort =>
        exact ⟨bb' :: rest, by simp only [visitBlocks, hB], List.Forall₂.cons hpl hrefl⟩

/-! ## The identities of the created operations -/

theorem range'_append_sub {a b c : Nat} (hab : a ≤ b) (hbc : b ≤ c) :
    List.range' a (b - a) ++ List.range' b (c - b) = List.range' a (c - a) := by
  have h := List.range'_append a (b - a) (c - b) 1
  have e1 : a + 1 * (b - a) = b := by omega
  have e2 : c - b + (b - a) = c - a := by omega
  rw [e1, e2] at h
  exact h

/-- The loop body gives the operations it creates the identities it
allocates, in the order of allocation. -/
theorem duplicateAtIndex_createdIds (before after : List Operation) (i : Nat)
    (s : VisitState) :
    s.nextId ≤ (duplicateAtIndex before after i s).2.nextId ∧
    (duplicateAtIndex before after i s).2.created.map Operation.id =
      s.created.map Operation.id ++
        List.range' s.nextId ((duplicateAtIndex before after i s).2.nextId - s.nextId) := by
  rcases duplicateAtIndex_cases before after i s with ⟨-, h⟩ | ⟨v, -, -, h⟩ |
    ⟨v, -, -, -, r, dg, h, -⟩ | ⟨v, p, -, -, -, -, -, h⟩ |
    ⟨v, D, w, Q, -, -, -, -, -, -, -, -, -, h⟩ <;>
  rw [h]
  · simp
  · simp
  · simp
  · simp [clone, List.range']
  · simp [clone, setOperand, List.range']

theorem duplicateAtIndices_createdIds (before after : List Operation) (idxs : List Nat)
    (s : VisitState) :
    s.nextId ≤ (duplicateAtIndices before after idxs s).2.nextId ∧
    (duplicateAtIndices before after idxs s).2.created.map Operation.id =
      s.created.map Operation.id ++
        List.range' s.nextId ((duplicateAtIndices before after idxs s).2.nextId - s.nextId) :=
  duplicateAtIndices_rel
    (fun a b => a.nextId ≤ b.nextId ∧ b.created.map Operation.id =
      a.created.map Operation.id ++ List.range' a.nextId (b.nextId - a.nextId))
    (fun _ => ⟨le_refl _, by simp⟩)
    (fun a b c h1 h2 => ⟨le_trans h1.1 h2.1, by
      rw [h2.2, h1.2, List.append_assoc, range'_append_sub h1.1 h2.1]⟩)
    before after idxs (fun i _ s => duplicateAtIndex_createdIds before after i s) s

/-- The operations of the output allocated by the pass carry, in program
order, the identities the traversal allocated, in the order of allocation. -/
theorem visitBlock_createdIds (c : OperationName → Option (List Nat)) (n0 : Nat)
    (d l : List Operation) :
    ∀ (post pre : List Operation) (st : PassState), n0 ≤ st.nextId →
      (∀ o ∈ post, o.id < n0) →
      ((visitBlock c d l pre post st).2.1.filter (fun x => !decide (x.id < n0))).map
          Operation.id =
        (pre.filter (fun x => !decide (x.id < n0))).map Operation.id ++
          List.range' st.nextId ((visitBlock c d l pre post st).2.2.nextId - st.nextId) := by
  intro post
  induction post with
  | nil => intro pre st _ _; simp [visitBlock_nil]
  | cons op rest ih =>
    intro pre st hn hold
    have hop := (duplicateAtIndices_op (d ++ pre) (rest ++ l) (statefulIndices c op)
      ⟨[], op, st.values, st.nextId, st.diags⟩).1
    have hids := duplicateAtIndices_createdIds (d ++ pre) (rest ++ l) (statefulIndices c op)
      ⟨[], op, st.values, st.nextId, st.diags⟩
    cases hD : DuplicateValueIfNeeded c (d ++ pre) (rest ++ l)
        ⟨[], op, st.values, st.nextId, st.diags⟩ with
    | mk r s =>
      have hD' := hD
      rw [DuplicateValueIfNeeded_eq] at hD'
      rw [hD'] at hop hids
      simp only [List.map_nil, List.nil_append] at hop hids
      obtain ⟨hnext, hcr⟩ := hids
      have hopold : s.op.id < n0 := by rw [hop]; exact hold op (List.mem_cons_self _ _)
      have hnew : ∀ x ∈ s.created, ¬ x.id < n0 := by
        intro x hx
        have hm : x.id ∈ s.created.map Operation.id := List.mem_map_of_mem _ hx
        rw [hcr, List.mem_range'_1] at hm
        omega
      have hfc : s.created.filter (fun x => !decide (x.id < n0)) = s.created := by
        rw [List.filter_eq_self]
        intro x hx
        simp [hnew x hx]
      have hrest : rest.filter (fun x => !decide (x.id < n0)) = [] := by
        rw [List.filter_eq_nil_iff]
        intro x hx
        simp [hold x (List.mem_cons_of_mem _ hx)]
      by_cases hr : r = .success
      · subst hr
        rw [visitBlock_cons_success hD]
        have hih := ih (pre ++ s.created ++ [s.op]) ⟨s.values, s.nextId, s.diags⟩
          (le_trans hn hnext) (fun o ho => hold o (List.mem_cons_of_mem _ ho))
        have hn2 := visitBlock_nextId c d l rest (pre ++ s.created ++ [s.op])
          ⟨s.values, s.nextId, s.diags⟩
        simp only at hih hn2
        rw [hih]
        generalize (visitBlock c d l (pre ++ s.created ++ [s.op]) rest
          ⟨s.values, s.nextId, s.diags⟩).2.2.nextId = N at hn2 ⊢
        simp only [List.filter_append, List.filter_cons, List.filter_nil, hfc, hopold,
          decide_True, Bool.not_true, List.append_nil, List.map_append, hcr,
          List.append_assoc, Bool.false_eq_true, if_false]
        rw [range'_append_sub hnext hn2]
      · rw [visitBlock_cons_stop hr hD]
        simp only [List.filter_append, List.filter_cons, hfc, hopold, hrest,
          decide_True, Bool.not_true, List.append_nil, List.map_append, hcr,
          List.append_assoc, Bool.false_eq_true, if_false]

/-- C12. Placement and order, for every function, classifier and outcome.
Every operation and every operand of the input has an identity below the
allocator start, so that the operations created by the pass are those with an
identity at or above it. The output has one block for each input block, in
the same order, and each output block is the input block with, directly
before each of its operations, the operations created for that operation:
they were allocated by the pass and form a contiguous sequence of clone runs
(a cloned constant alone, or a cloned constant directly followed by the cloned
dequantize that takes it as input); an operand of the operation that is not
its input operand is at one of its stateful indices and is result 0 of an
operation created directly before it; and, when the classifier returns no
index twice for the operation, every operation created directly before it is
used by one of its stateful operands or, for a constant, by operand 0 of a
dequantize created directly before it. An output block without the created
operations is the input block, operation by operation, in the same order.
The created operations carry, in program order, the identities the pass
allocated, in the order of allocation. -/
theorem placement_and_order (c : OperationName → Option (List Nat))
    (func : List (List Operation)) :
    (∀ o ∈ func.flatten, o.id < freshId func.flatten) ∧
    (∀ o ∈ func.flatten, ∀ v ∈ o.operands, isOld (freshId func.flatten) v) ∧
    List.Forall₂ (fun b b' => PlacedFor c (freshId func.flatten) b b' ∧
      List.Forall₂ SameOperation b
        (b'.filter (fun x => decide (x.id < freshId func.flatten))))
      func (runOnOperation c func).2.1 ∧
    ((runOnOperation c func).2.1.flatten.filter
        (fun x => !decide (x.id < freshId func.flatten))).map Operation.id =
      List.range' (freshId func.flatten)
        ((runOnOperation c func).2.2.nextId - freshId func.flatten) := by
  have hold : ∀ o ∈ func.flatten, o.id < freshId func.flatten := fun o ho => id_lt_freshId ho
  refine ⟨hold, isOld_of_mem_freshId, ?_, ?_⟩
  · obtain ⟨bs, h1, h2⟩ := visitBlocks_placedFor c (freshId func.flatten) func []
      ⟨[], freshId func.flatten, []⟩ (le_refl _)
    unfold runOnOperation
    rw [h1, List.nil_append]
    have hmem : ∀ b ∈ func, ∀ o ∈ b, o.id < freshId func.flatten :=
      fun b hb o ho => hold o (List.mem_flatten.mpr ⟨b, hb, ho⟩)
    generalize freshId func.flatten = n0 at h2 hmem
    clear h1 hold
    induction h2 with
    | nil => exact List.Forall₂.nil
    | @cons b b' t t' hp _ ih =>
      refine List.Forall₂.cons
        ⟨hp, hp.placed.filter_old (hmem b (List.mem_cons_self _ _))⟩ ?_
      exact ih (fun x hx => hmem x (List.mem_cons_of_mem _ hx))
  · obtain ⟨-, ho, -, hn⟩ := runOnOperation_flat c func
    rw [ho, hn]
    have := visitBlock_createdIds c (freshId func.flatten) [] [] func.flatten []
      ⟨[], freshId func.flatten, []⟩ (le_refl _) hold
    simpa using this

theorem placement_and_order_witness :
    (runOnOperation exampleClassifier scenarioB).2.1 =
      [[exC, exD, exX2],
       [⟨5, .constantLike 0, 42, []⟩, ⟨6, .dequantize, 5, [.opResult 5 0]⟩,
        ⟨3, .other 8, 0, [.blockArgument 0, .opResult 6 0]⟩]] ∧
    List.Forall₂ (fun b b' => PlacedFor exampleClassifier (freshId scenarioB.flatten) b b' ∧
      List.Forall₂ SameOperation b
        (b'.filter (fun x => decide (x.id < freshId scenarioB.flatten))))
      scenarioB (runOnOperation exampleClassifier scenarioB).2.1 ∧
    ((runOnOperation exampleClassifier scenarioB).2.1.flatten.filter
        (fun x => !decide (x.id < freshId scenarioB.flatten))).map Operation.id =
      List.range' (freshId scenarioB.flatten)
        ((runOnOperation exampleClassifier scenarioB).2.2.nextId - freshId scenarioB.flatten) :=
  ⟨by decide, (placement_and_order exampleClassifier scenarioB).2.2⟩

/-- Scenario A with the clone made for `Y` placed before `C` instead of
directly before `Y` is not a placement of the created operation: the rewired
operand of `Y` is not the result of an operation directly before `Y`. -/
theorem clone_before_another_operation_not_placedFor :
    ¬ PlacedFor exampleClassifier 4 [exC, exX, exY]
      [⟨4, .constantLike 0, 42, []⟩, exC, exX, ⟨3, .other 7, 0, [.opResult 4 0]⟩] := by
  rintro ⟨segs, h1, h2⟩
  cases h2 with
  | cons hp1 h2 =>
    cases h2 with
    | cons hp2 h2 =>
      cases h2 with
      | cons hp3 h2 =>
        cases h2
        rename_i p1 p2 p3
        simp only [List.flatMap_cons, List.flatMap_nil, List.append_nil] at h1
        have hlen := congrArg List.length h1
        simp only [List.length_cons, List.length_nil, List.length_append] at hlen
        have hlast : p3.2 = ⟨3, .other 7, 0, [.opResult 4 0]⟩ := by
          have := congrArg List.getLast? h1
          simp only [← List.append_assoc, List.getLast?_append, List.getLast?_singleton]
            at this
          simpa using this.symm
        rcases hp3.2.2.2.1 0 with h0 | ⟨-, cl, hcl, -⟩
        · rw [hlast] at h0
          simp [getOperand, exY] at h0
        · have hp31 : p3.1.length = 1 ∧ p1.1.length = 0 := by
            have := List.length_pos_of_mem hcl
            omega
          have hnil : p1.1 = [] := List.length_eq_zero.mp hp31.2
          rw [hnil] at h1
          have hhead := congrArg List.head? h1
          simp only [List.nil_append, List.singleton_append, List.cons_append,
            List.head?_cons, Option.some.injEq] at hhead
          have hid := hp1.1.1
          rw [← hhead] at hid
          simp [exC] at hid

/-- Scenario A with an unused constant allocated directly before `X` is not a
placement either: the classifier returns no index twice for `X`, and the
constant has no user at `X`. -/
theorem unused_clone_not_placedFor :
    ¬ PlacedFor exampleClassifier 4 [exC, exX, exY]
      [exC, ⟨4, .constantLike 0, 42, []⟩, exX, exY] := by
  rintro ⟨segs, h1, h2⟩
  cases h2 with
  | cons hp1 h2 =>
    cases h2 with
    | cons hp2 h2 =>
      cases h2 with
      | cons hp3 h2 =>
        cases h2
        rename_i p1 p2 p3
        simp only [List.flatMap_cons, List.flatMap_nil, List.append_nil] at h1
        have hlen := congrArg List.length h1
        simp only [List.length_cons, List.length_nil, List.length_append] at hlen
        have hmem : ∀ x, x ∈ p1.1 ∨ x ∈ p2.1 ∨ x ∈ p3.1 →
            x ∈ [exC, ⟨4, .constantLike 0, 42, []⟩, exX, exY] := by
          intro x hx
          rw [h1]
          simp only [List.mem_append, List.mem_singleton]
          tauto
        have hcl4 : ∀ x, x ∈ p1.1 ∨ x ∈ p2.1 ∨ x ∈ p3.1 →
            4 ≤ x.id → x = ⟨4, .constantLike 0, 42, []⟩ := by
          intro x hx hge
          have := hmem x hx
          simp only [List.mem_cons, List.mem_singleton, List.not_mem_nil, or_false] at this
          rcases this with rfl | rfl | rfl | rfl
          · simp [exC] at hge
          · rfl
          · simp [exX] at hge
          · simp [exY] at hge
        have huser : ∀ (o : Operation) (p : List Operation × Operation),
            PlacedSegment exampleClassifier 4 o p → (o = exC ∨ o = exX ∨ o = exY) →
            (∀ x ∈ p.1, x = ⟨4, .constantLike 0, 42, []⟩) →
            (∀ i v, getOperand p.2 i = some v → v = .opResult 1 0) → p.1 = [] := by
          intro o p hp ho hall hops
          rcases List.eq_nil_or_concat p.1 with hnil | ⟨L, x, hx⟩
          · exact hnil
          · exfalso
            have hxm : x ∈ p.1 := by rw [hx]; simp
            have hx4 := hall x hxm
            have hnd : (statefulIndices exampleClassifier o).Nodup := by
              rcases ho with rfl | rfl | rfl <;> decide
            rcases hp.2.2.2.2 hnd x hxm with ⟨i, -, hu⟩ | ⟨-, D, hD, hDq, -⟩
            · have := hops i _ hu
              rw [hx4] at this
              simp at this
            · rw [hall D hD] at hDq
              simp at hDq
        have hops : ∀ p : List Operation × Operation,
            p.2 ∈ [exC, ⟨4, .constantLike 0, 42, []⟩, exX, exY] →
            ∀ i v, getOperand p.2 i = some v → v = .opResult 1 0 := by
          intro p hp i v hv
          have hvm := mem_operands_of_getOperand hv
          simp only [List.mem_cons, List.mem_singleton, List.not_mem_nil, or_false] at hp
          rcases hp with e | e | e | e <;> rw [e] at hvm <;> simp [exC, exX, exY] at hvm <;>
            exact hvm
        have hin : ∀ x, x = p1.2 ∨ x = p2.2 ∨ x = p3.2 →
            x ∈ [exC, ⟨4, .constantLike 0, 42, []⟩, exX, exY] := by
          intro x hx
          rw [h1]
          simp only [List.mem_append, List.mem_singleton]
          tauto
        have e1 := huser exC p1 hp1 (Or.inl rfl)
          (fun x hx => hcl4 x (Or.inl hx) (hp1.2.1 x hx)) (hops p1 (hin _ (Or.inl rfl)))
        have e2 := huser exX p2 hp2 (Or.inr (Or.inl rfl))
          (fun x hx => hcl4 x (Or.inr (Or.inl hx)) (hp2.2.1 x hx))
          (hops p2 (hin _ (Or.inr (Or.inl rfl))))
        have e3 := huser exY p3 hp3 (Or.inr (Or.inr rfl))
          (fun x hx => hcl4 x (Or.inr (Or.inr hx)) (hp3.2.1 x hx))
          (hops p3 (hin _ (Or.inr (Or.inr rfl))))
        rw [e1, e2, e3] at hlen
        simp at hlen

end SplitMergedOperands
